import Mathlib

/-!
# rlottie core: copy-on-write handle, arena allocator, filter set, proxies, loader

A shallow embedding of `src/vector/vcowptr.h`, `src/vector/vstackallocator.h`,
`LOTFilter` and `LOTProxyModel` of `src/lottie/lottieproxymodel.h` and the cache
and loader of `src/lottie/lottieloader.cpp`, with the properties of the
specification proved over it.

Conventions.
* `size_t` values are natural numbers reduced modulo `2^64` wherever the source
  does arithmetic on them.
* Heap addresses are allocation identities: the `i`-th `new model(...)` of a run
  returns address `i`, and an address is never handed out twice.
* A source operation whose `assert` fails, or that dereferences a null, dead or
  dangling pointer, returns `none`.
-/

/-! ## Part 1: `vcow_ptr` (the hand-rolled variant of `vcowptr.h`) -/

/-- One more than the largest `size_t`: the modulus of `std::size_t` arithmetic. -/
abbrev SIZE_MOD : Nat := 18446744073709551616

namespace vcow_ptr

/-- The nested `struct model`: the counter `mRef` and the payload `mValue`. -/
structure model (T : Type) where
  mRef : Nat
  mValue : T
deriving DecidableEq, Repr

/-- A value of type `model*`: null, the address of the function-local
`static model default_s`, or the address returned by a `new model(...)`. -/
inductive Ptr where
  | null : Ptr
  | default_s : Ptr
  | heap (a : Nat) : Ptr
deriving DecidableEq, Repr

/-- The memory a program using `vcow_ptr<T>` acts on.
* `default_s`: the static payload of the default constructor;
* `heap`: entry `a` is the payload at heap address `a`, `none` once deleted;
* `handles`: entry `h` is the `mModel` member of handle object `h`, `none` once
  the lifetime of the handle has ended;
* `deleted`: the addresses passed to `delete`, in order. -/
structure Machine (T : Type) where
  default_s : model T
  heap : List (Option (model T))
  handles : List (Option Ptr)
  deleted : List Nat
deriving DecidableEq, Repr

variable {T : Type}

/-- The state before any handle exists: `default_s` is initialised with
`mRef{1}` and a value-initialised `mValue` (here `d`). -/
def init (d : T) : Machine T :=
  { default_s := { mRef := 1, mValue := d }, heap := [], handles := [], deleted := [] }

/-- The member `mModel` of the live handle `h`. -/
def mModel (s : Machine T) (h : Nat) : Option Ptr :=
  match s.handles[h]? with
  | some (some p) => some p
  | _ => none

/-- The object `*p`. -/
def deref (s : Machine T) : Ptr → Option (model T)
  | Ptr.null => none
  | Ptr.default_s => some s.default_s
  | Ptr.heap a =>
    match s.heap[a]? with
    | some (some m) => some m
    | _ => none

/-- Number of live handles whose `mModel` is `p`. -/
def bound (s : Machine T) (p : Ptr) : Nat :=
  s.handles.count (some p)

/-- `++p->mRef`. -/
def incRef (s : Machine T) : Ptr → Option (Machine T)
  | Ptr.null => none
  | Ptr.default_s =>
    some { s with default_s := { s.default_s with mRef := (s.default_s.mRef + 1) % SIZE_MOD } }
  | Ptr.heap a =>
    match s.heap[a]? with
    | some (some m) =>
      some { s with heap := s.heap.set a (some { m with mRef := (m.mRef + 1) % SIZE_MOD }) }
    | _ => none

/-- `if (p && (--p->mRef == 0)) delete p;`: the body of `~vcow_ptr()` for
`mModel == p`. Deleting the static `default_s` is undefined. -/
def release (s : Machine T) : Ptr → Option (Machine T)
  | Ptr.null => some s
  | Ptr.default_s =>
    if (s.default_s.mRef + SIZE_MOD - 1) % SIZE_MOD = 0 then none
    else some { s with
      default_s := { s.default_s with mRef := (s.default_s.mRef + SIZE_MOD - 1) % SIZE_MOD } }
  | Ptr.heap a =>
    match s.heap[a]? with
    | some (some m) =>
      if (m.mRef + SIZE_MOD - 1) % SIZE_MOD = 0 then
        some { s with heap := s.heap.set a none, deleted := s.deleted ++ [a] }
      else
        some { s with
          heap := s.heap.set a (some { m with mRef := (m.mRef + SIZE_MOD - 1) % SIZE_MOD }) }
    | _ => none

/-- `vcow_ptr()`: binds the new handle (number `s.handles.length`) to
`default_s` and increments its counter. -/
def ctor_default (s : Machine T) : Option (Machine T) :=
  (incRef s Ptr.default_s).map fun s1 =>
    { s1 with handles := s1.handles ++ [some Ptr.default_s] }

/-- `explicit vcow_ptr(Args&&... args)`: `mModel(new model(args...))`; the new
payload has `mRef == 1`. The new handle is number `s.handles.length`. -/
def ctor_args (s : Machine T) (v : T) : Option (Machine T) :=
  some { s with
    heap := s.heap ++ [some { mRef := 1, mValue := v }],
    handles := s.handles ++ [some (Ptr.heap s.heap.length)] }

/-- `vcow_ptr(const vcow_ptr& x)`: `mModel(x.mModel)`, `assert(mModel)`,
`++mModel->mRef`. The new handle is number `s.handles.length`. -/
def ctor_copy (s : Machine T) (x : Nat) : Option (Machine T) :=
  match mModel s x with
  | none => none
  | some Ptr.null => none
  | some p =>
    (incRef s p).map fun s1 => { s1 with handles := s1.handles ++ [some p] }

/-- `vcow_ptr(vcow_ptr&& x)`: `mModel(x.mModel)`, `assert(mModel)`,
`x.mModel = nullptr`. The new handle is number `s.handles.length`. -/
def ctor_move (s : Machine T) (x : Nat) : Option (Machine T) :=
  match mModel s x with
  | none => none
  | some Ptr.null => none
  | some p =>
    some { s with handles := (s.handles.set x (some Ptr.null)) ++ [some p] }

/-- `~vcow_ptr()` on handle `h`, whose lifetime then ends. -/
def dtor (s : Machine T) (h : Nat) : Option (Machine T) :=
  match mModel s h with
  | none => none
  | some p =>
    (release s p).map fun s1 => { s1 with handles := s1.handles.set h none }

/-- `swap(x, y)`: exchanges the two `mModel` members. -/
def swap (s : Machine T) (x y : Nat) : Option (Machine T) :=
  match mModel s x, mModel s y with
  | some p, some q =>
    some { s with handles := (s.handles.set x (some q)).set y (some p) }
  | _, _ => none

/-- `operator=(vcow_ptr&& x)` on handle `h`: `auto tmp = move(x); swap(*this, tmp);`
and `tmp` is destroyed on return. -/
def assign_move (s : Machine T) (h x : Nat) : Option (Machine T) :=
  (ctor_move s x).bind fun s1 =>
    (swap s1 h s.handles.length).bind fun s2 =>
      dtor s2 s.handles.length

/-- `operator=(const vcow_ptr& x)` on handle `h`: `*this = vcow_ptr(x);` builds a
temporary copy, move-assigns from it and destroys it. -/
def assign_copy (s : Machine T) (h x : Nat) : Option (Machine T) :=
  (ctor_copy s x).bind fun s1 =>
    (assign_move s1 h s.handles.length).bind fun s2 =>
      dtor s2 s.handles.length

/-- `refCount()`: `assert(mModel); return mModel->mRef;`. -/
def refCount (s : Machine T) (h : Nat) : Option Nat :=
  (mModel s h).bind fun p => (deref s p).map fun m => m.mRef

/-- `unique()`: `assert(mModel); return mModel->mRef == 1;`. -/
def unique (s : Machine T) (h : Nat) : Option Bool :=
  (mModel s h).bind fun p => (deref s p).map fun m => decide (m.mRef = 1)

/-- `read()`: `assert(mModel); return mModel->mValue;`. -/
def read (s : Machine T) (h : Nat) : Option T :=
  (mModel s h).bind fun p => (deref s p).map fun m => m.mValue

/-- `write()`: `if (!unique()) *this = vcow_ptr(read()); return mModel->mValue;`.
The temporary `vcow_ptr(read())` is handle number `s.handles.length`; it is
destroyed at the end of the assignment expression. Returned: the new state and
the payload the returned reference points into. -/
def write (s : Machine T) (h : Nat) : Option (Machine T × Ptr) :=
  (unique s h).bind fun u =>
    if u then (mModel s h).map fun p => (s, p)
    else
      (read s h).bind fun v =>
        (ctor_args s v).bind fun s1 =>
          (assign_move s1 h s.handles.length).bind fun s2 =>
            (dtor s2 s.handles.length).bind fun s3 =>
              (mModel s3 h).bind fun p =>
                (deref s3 p).map fun _ => (s3, p)

/-- An assignment `h.write() = v` through the reference that `write()` returned. -/
def write_assign (s : Machine T) (h : Nat) (v : T) : Option (Machine T) :=
  (write s h).bind fun r =>
    match r.2 with
    | Ptr.null => none
    | Ptr.default_s => some { r.1 with default_s := { r.1.default_s with mValue := v } }
    | Ptr.heap a =>
      match r.1.heap[a]? with
      | some (some m) => some { r.1 with heap := r.1.heap.set a (some { m with mValue := v }) }
      | _ => none

/-- The operations a client performs on handles. Operations that create a handle
give it the next free number, `s.handles.length`. -/
inductive Op (T : Type) where
  | ctor_default : Op T
  | ctor_args (v : T) : Op T
  | ctor_copy (x : Nat) : Op T
  | ctor_move (x : Nat) : Op T
  | assign_copy (h x : Nat) : Op T
  | assign_move (h x : Nat) : Op T
  | write (h : Nat) : Op T
  | write_assign (h : Nat) (v : T) : Op T
  | dtor (h : Nat) : Op T

/-- One client operation. -/
def step (s : Machine T) : Op T → Option (Machine T)
  | Op.ctor_default => ctor_default s
  | Op.ctor_args v => ctor_args s v
  | Op.ctor_copy x => ctor_copy s x
  | Op.ctor_move x => ctor_move s x
  | Op.assign_copy h x => assign_copy s h x
  | Op.assign_move h x => assign_move s h x
  | Op.write h => (write s h).map fun r => r.1
  | Op.write_assign h v => write_assign s h v
  | Op.dtor h => dtor s h

/-- A sequence of client operations, run from left to right. -/
def run (s : Machine T) : List (Op T) → Option (Machine T)
  | [] => some s
  | op :: ops => (step s op).bind fun s1 => run s1 ops


/-! ### The variant under `LOTTIE_DEFAULT_ALLOCATOR`

There `mModel` is a `shared_ptr<T>`; the counter of a payload is the
`use_count()` of its control block, `make_shared` creates a block with count 1,
copying the `shared_ptr` increments it and destroying the `shared_ptr`
decrements it and frees the payload at zero. -/

namespace default_allocator

/-- `refCount()`: `mModel.use_count()`. -/
def refCount (s : Machine T) (h : Nat) : Option Nat :=
  (mModel s h).bind fun p => (deref s p).map fun m => m.mRef

/-- `unique()`: `mModel.unique()`, that is `use_count() == 1`. -/
def unique (s : Machine T) (h : Nat) : Option Bool :=
  (mModel s h).bind fun p => (deref s p).map fun m => decide (m.mRef = 1)

/-- `vcow_ptr(vcow_ptr&& x)`: `mModel(x.mModel)` copies the `shared_ptr`, since
`x.mModel` is an lvalue; `x` keeps its payload. -/
def ctor_move (s : Machine T) (x : Nat) : Option (Machine T) :=
  ctor_copy s x

/-- `operator=(vcow_ptr&& x)`: `auto tmp = move(x); swap(*this, tmp);`. -/
def assign_move (s : Machine T) (h x : Nat) : Option (Machine T) :=
  (ctor_move s x).bind fun s1 =>
    (swap s1 h s.handles.length).bind fun s2 =>
      dtor s2 s.handles.length

/-- `write()`: `if (!unique()) *this = vcow_ptr(read()); return *mModel.get();`. -/
def write (s : Machine T) (h : Nat) : Option (Machine T × Ptr) :=
  (unique s h).bind fun u =>
    if u then (mModel s h).map fun p => (s, p)
    else
      (read s h).bind fun v =>
        (ctor_args s v).bind fun s1 =>
          (assign_move s1 h s.handles.length).bind fun s2 =>
            (dtor s2 s.handles.length).bind fun s3 =>
              (mModel s3 h).bind fun p =>
                (deref s3 p).map fun _ => (s3, p)

end default_allocator

/-- The state after `vcow_ptr<Nat> A(7); vcow_ptr<Nat> B(A);`: handle 0 is `A`,
handle 1 is `B`, both bound to heap payload 0. -/
def example_AB : Machine Nat :=
  { default_s := { mRef := 1, mValue := 0 },
    heap := [some { mRef := 2, mValue := 7 }],
    handles := [some (Ptr.heap 0), some (Ptr.heap 0)],
    deleted := [] }

/-- The state after `A(7); B(A); B.write(); ~A();`: payload 0 is deleted, `B`
(handle 1) owns payload 1; handles 2 and 3 were the temporaries of `write()`. -/
def example_B_alone : Machine Nat :=
  { default_s := { mRef := 1, mValue := 0 },
    heap := [none, some { mRef := 1, mValue := 7 }],
    handles := [none, some (Ptr.heap 1), none, none],
    deleted := [0] }

/-- The state after `~B()` on `example_B_alone`: both payloads are deleted. -/
def example_all_gone : Machine Nat :=
  { default_s := { mRef := 1, mValue := 0 },
    heap := [none, none],
    handles := [none, none, none, none],
    deleted := [0, 1] }

/-- The state after two `vcow_ptr()` and `h0.write() = 5`: handle 0 has moved to
a payload of its own, handle 1 is bound to `default_s`, which holds 0. -/
def example_forked_default : Machine Nat :=
  { default_s := { mRef := 2, mValue := 0 },
    heap := [some { mRef := 1, mValue := 5 }],
    handles := [some (Ptr.heap 0), some Ptr.default_s, none, none],
    deleted := [] }

/-- The reference-count invariant.
* `default_ref`: the static payload starts at 1 and counts its handles on top;
* `heap_ref`: a live heap payload counts exactly the live handles bound to it,
  and at least one handle is bound to it;
* `no_dangling`: no live handle is bound to a deleted or never allocated address;
* `deleted_iff`, `deleted_nodup`: `delete` ran exactly on the dead payloads,
  once each. -/
structure Inv (s : Machine T) : Prop where
  default_ref : s.default_s.mRef = bound s Ptr.default_s + 1
  heap_ref : ∀ a m, s.heap[a]? = some (some m) →
    m.mRef = bound s (Ptr.heap a) ∧ 1 ≤ bound s (Ptr.heap a)
  no_dangling : ∀ a, (∀ m, s.heap[a]? ≠ some (some m)) → bound s (Ptr.heap a) = 0
  deleted_iff : ∀ a, a ∈ s.deleted ↔ s.heap[a]? = some none
  deleted_nodup : s.deleted.Nodup

end vcow_ptr

/-! ## Part 2: `arena` (`vstackallocator.h`) -/

/-- `class arena<N, alignment>`: the template parameters `N` and `alignment`,
the address `buf_` of the array `char buf_[N]` and the cursor `ptr_`. Pointers
are addresses. -/
structure arena where
  N : Nat
  alignment : Nat
  buf_ : Nat
  ptr_ : Nat
deriving DecidableEq, Repr

namespace arena

/-- `arena() noexcept : ptr_(buf_) {}`, for an array placed at address `buf`. -/
def construct (N alignment buf : Nat) : arena :=
  { N := N, alignment := alignment, buf_ := buf, ptr_ := buf }

/-- `size()`: `return N;`. -/
def size (a : arena) : Nat := a.N

/-- `used()`: `static_cast<size_t>(ptr_ - buf_)`. -/
def used (a : arena) : Nat := a.ptr_ - a.buf_

/-- `reset()`: `ptr_ = buf_;`. -/
def reset (a : arena) : arena := { a with ptr_ := a.buf_ }

/-- `align_up(n)`: `(n + (alignment-1)) & ~(alignment-1)` on `size_t`: the
subtraction and the addition wrap modulo `2^64`, and `~x` is `2^64 - 1 - x`. -/
def align_up (a : arena) (n : Nat) : Nat :=
  ((n + (a.alignment + SIZE_MOD - 1) % SIZE_MOD) % SIZE_MOD) &&&
    (SIZE_MOD - 1 - (a.alignment + SIZE_MOD - 1) % SIZE_MOD)

/-- `pointer_in_buffer(p)`: `buf_ <= p && p <= buf_ + N`. -/
def pointer_in_buffer (a : arena) (p : Nat) : Bool :=
  decide (a.buf_ ≤ p) && decide (p ≤ a.buf_ + a.N)

/-- What `allocate` returns: the old cursor `r`, a pointer into the buffer, or
the result of `::operator new(n)`, memory outside the arena object. -/
inductive Block where
  | buffer (r : Nat) : Block
  | operator_new (n : Nat) : Block
deriving DecidableEq, Repr

/-- `allocate<ReqAlign>(n)`: after `assert(pointer_in_buffer(ptr_))`, with
`aligned_n = align_up(n)`: if `static_cast<size_t>(buf_ + N - ptr_) >= aligned_n`
the old cursor is returned and the cursor advanced by `aligned_n`; otherwise
`::operator new(n)`. -/
def allocate (a : arena) (n : Nat) : Option (Block × arena) :=
  if pointer_in_buffer a a.ptr_ then
    if align_up a n ≤ a.buf_ + a.N - a.ptr_ then
      some (Block.buffer a.ptr_, { a with ptr_ := a.ptr_ + align_up a n })
    else
      some (Block.operator_new n, a)
  else none

/-- `deallocate(p, n)`: after `assert(pointer_in_buffer(ptr_))`: if
`pointer_in_buffer(p)` then `n = align_up(n); if (p + n == ptr_) ptr_ = p;`,
the pointer sum taken in the 64-bit address space; otherwise
`::operator delete(p)`, which leaves the arena as it is. -/
def deallocate (a : arena) (p n : Nat) : Option arena :=
  if pointer_in_buffer a a.ptr_ then
    if pointer_in_buffer a p then
      if (p + align_up a n) % SIZE_MOD = a.ptr_ then some { a with ptr_ := p }
      else some a
    else some a
  else none

/-- Successive `allocate(n1)`, ..., `allocate(nk)` calls: the blocks returned, in
call order, and the final arena. -/
def allocate_all (a : arena) : List Nat → Option (List Block × arena)
  | [] => some ([], a)
  | n :: ns =>
    (allocate a n).bind fun r =>
      (allocate_all r.2 ns).map fun rs => (r.1 :: rs.1, rs.2)

/-- The size `n` rounded up to the next multiple of `alignment`, as a natural
number (no wrap-around): what the specification calls the aligned-up size. -/
def aligned_size (alignment n : Nat) : Nat :=
  alignment * ((n + alignment - 1) / alignment)

/-- The offsets at which blocks of the given sizes lie when each starts where
the aligned-up previous one ends, the first at offset `o`. -/
def offsets (alignment o : Nat) : List Nat → List Nat
  | [] => []
  | n :: ns => o :: offsets alignment (o + aligned_size alignment n) ns

/-- The 64-byte arena with alignment 16 at address 4096 after `allocate(1)`. -/
def example_used_16 : arena :=
  { N := 64, alignment := 16, buf_ := 4096, ptr_ := 4112 }

/-- The states an arena goes through, with the in-buffer pointers `allocate`
has returned so far. The array `buf_[N]` lies in the 64-bit address space.
`deallocate` is called with a pointer `allocate` returned: one from the list, or
one that came from `::operator new`, which lies outside the arena object. -/
inductive Reachable (N alignment buf : Nat) : arena → List Nat → Prop where
  | construct (h : buf + N < SIZE_MOD) :
      Reachable N alignment buf (construct N alignment buf) []
  | allocate_buffer {a a1 : arena} {ps : List Nat} {n r : Nat}
      (h : Reachable N alignment buf a ps)
      (hs : allocate a n = some (Block.buffer r, a1)) :
      Reachable N alignment buf a1 (r :: ps)
  | allocate_new {a a1 : arena} {ps : List Nat} {n : Nat}
      (h : Reachable N alignment buf a ps)
      (hs : allocate a n = some (Block.operator_new n, a1)) :
      Reachable N alignment buf a1 ps
  | deallocate {a a1 : arena} {ps : List Nat} {p n : Nat}
      (h : Reachable N alignment buf a ps)
      (hp : p ∈ ps ∨ pointer_in_buffer a p = false)
      (hs : deallocate a p n = some a1) :
      Reachable N alignment buf a1 ps
  | reset {a : arena} {ps : List Nat}
      (h : Reachable N alignment buf a ps) :
      Reachable N alignment buf (reset a) ps

/-- What holds in every reachable state of an arena with a power-of-two
alignment. -/
structure Good (N j buf : Nat) (a : arena) (ps : List Nat) : Prop where
  hN : a.N = N
  hal : a.alignment = 2 ^ j
  hbuf : a.buf_ = buf
  hspace : buf + N < SIZE_MOD
  hlo : buf ≤ a.ptr_
  hhi : a.ptr_ ≤ buf + N
  haligned : 2 ^ j ∣ a.ptr_ - buf
  hps : ∀ p, p ∈ ps → buf ≤ p ∧ p ≤ buf + N ∧ 2 ^ j ∣ p - buf

end arena

/-! ## Part 3: `LOTVariant` and `LOTFilter` (`lottieproxymodel.h`) -/

/-- `rlottie::Property`, declared in `rlottie.h`: an enumerator is represented
by its integer value, the index `static_cast<uint>(prop)`. -/
abbrev Property := Nat

/-- The tag `mTag` of a `LOTVariant` (`enum Type {MonoState, Value, Color, Point,
Size}`) together with the member of the union `impl` that the tag selects. A
callback takes the `rlottie::FrameInfo` built from a frame number, here the frame
number itself; `V`, `C`, `P`, `S` stand for `float`, `rlottie::Color`,
`rlottie::Point` and `rlottie::Size`. -/
inductive LOTVariant.details (V C P S : Type) where
  | MonoState : LOTVariant.details V C P S
  | Value (valueFunc : Int → V) : LOTVariant.details V C P S
  | Color (colorFunc : Int → C) : LOTVariant.details V C P S
  | Point (pointFunc : Int → P) : LOTVariant.details V C P S
  | Size (sizeFunc : Int → S) : LOTVariant.details V C P S

/-- `class LOTVariant`: the property `mPropery` and the tagged callback. Copying
a variant (`Copy`, `operator=`) yields an equal value. -/
structure LOTVariant (V C P S : Type) where
  mPropery : Property
  impl : LOTVariant.details V C P S

/-- `class LOTFilter`: `mBitset` is the `std::bitset<32>`, read at positions
below 32 only, and `mFilters` the `std::vector<LOTVariant>`. -/
structure LOTFilter (V C P S : Type) where
  mBitset : Nat → Bool
  mFilters : List (LOTVariant V C P S)

namespace LOTFilter

variable {V C P S : Type}

/-- A default-constructed `LOTFilter`: `mBitset{0}` and an empty `mFilters`. -/
def empty : LOTFilter V C P S :=
  { mBitset := fun _ => false, mFilters := [] }

/-- `mBitset.test(index)`: throws `std::out_of_range` (here `none`) when
`index` is not below 32. -/
def test (s : LOTFilter V C P S) (index : Nat) : Option Bool :=
  if index < 32 then some (s.mBitset index) else none

/-- `std::replace_if(mFilters.begin(), mFilters.end(), pred, value)` with the
predicate `e.property() == value.property()`: `value` is assigned to every
element with its property. -/
def replace_if (l : List (LOTVariant V C P S)) (value : LOTVariant V C P S) :
    List (LOTVariant V C P S) :=
  l.map fun e => if e.mPropery = value.mPropery then value else e

/-- `addValue(value)`: if the bit of the property is set, `std::replace_if`
assigns `value` to every stored variant with that property; otherwise the bit is
set and `value` appended. -/
def addValue (s : LOTFilter V C P S) (value : LOTVariant V C P S) :
    Option (LOTFilter V C P S) :=
  (test s value.mPropery).map fun b =>
    if b then { s with mFilters := replace_if s.mFilters value }
    else
      { mBitset := fun i => if i = value.mPropery then true else s.mBitset i,
        mFilters := s.mFilters ++ [value] }

/-- `removeValue(value)`: if the bit of the property is set, the bit is reset
and every stored variant with that property erased (`erase` of `remove_if`). -/
def removeValue (s : LOTFilter V C P S) (value : LOTVariant V C P S) :
    Option (LOTFilter V C P S) :=
  (test s value.mPropery).map fun b =>
    if b then
      { mBitset := fun i => if i = value.mPropery then false else s.mBitset i,
        mFilters := s.mFilters.filter fun e => !decide (e.mPropery = value.mPropery) }
    else s

/-- `hasFilter(prop)`: `mBitset.test(static_cast<uint>(prop))`. -/
def hasFilter (s : LOTFilter V C P S) (prop : Property) : Option Bool :=
  test s prop

/-- `data(prop)`: `*find_if(...)`, the first stored variant with property
`prop`; dereferencing `end()` is undefined (`none`). -/
def data (s : LOTFilter V C P S) (prop : Property) : Option (LOTVariant V C P S) :=
  s.mFilters.find? fun e => decide (e.mPropery = prop)

/-- Number of stored variants with property `prop`. -/
def stored (s : LOTFilter V C P S) (prop : Property) : Nat :=
  s.mFilters.countP fun e => decide (e.mPropery = prop)

/-- A call on a filter set. -/
inductive Call (V C P S : Type) where
  | addValue (value : LOTVariant V C P S) : Call V C P S
  | removeValue (value : LOTVariant V C P S) : Call V C P S

/-- The property of the variant a call passes. -/
def Call.property : Call V C P S → Property
  | Call.addValue value => value.mPropery
  | Call.removeValue value => value.mPropery

/-- One call. -/
def step (s : LOTFilter V C P S) : Call V C P S → Option (LOTFilter V C P S)
  | Call.addValue value => addValue s value
  | Call.removeValue value => removeValue s value

/-- A sequence of calls, from left to right. -/
def run (s : LOTFilter V C P S) : List (Call V C P S) → Option (LOTFilter V C P S)
  | [] => some s
  | c :: cs => (step s c).bind fun s1 => run s1 cs

/-- The presence bits agree with the stored list: one variant of a property
whose bit is set, none of any other. -/
def Consistent (s : LOTFilter V C P S) : Prop :=
  ∀ p, stored s p = if s.mBitset p then 1 else 0

/-- The filter set after `addValue(v1)`, `addValue(v3)` on the empty one, with
`v1` of property 3 and `v3` of property 5 (defined below). -/
def example_two : LOTFilter Int Int Int Int :=
  { mBitset := fun i => if i = 5 then true else if i = 3 then true else false,
    mFilters := [{ mPropery := 3, impl := LOTVariant.details.Value fun frame => frame },
                 { mPropery := 5, impl := LOTVariant.details.Color fun _ => 7 }] }

/-- Two variants of property 3 (scalar callbacks) and one of property 5. -/
def example_v1 : LOTVariant Int Int Int Int :=
  { mPropery := 3, impl := LOTVariant.details.Value fun frame => frame }

/-- The second variant of property 3. -/
def example_v2 : LOTVariant Int Int Int Int :=
  { mPropery := 3, impl := LOTVariant.details.Value fun frame => 2 * frame }

/-- The variant of property 5. -/
def example_v3 : LOTVariant Int Int Int Int :=
  { mPropery := 5, impl := LOTVariant.details.Color fun _ => 7 }

/-- The filter set after `addValue(v1)`, `addValue(v3)`, `addValue(v2)` on the
empty one: `v2` has taken the place of `v1`. -/
def example_latest : LOTFilter Int Int Int Int :=
  { mBitset := fun i => if i = 5 then true else if i = 3 then true else false,
    mFilters := [{ mPropery := 3, impl := LOTVariant.details.Value fun frame => 2 * frame },
                 { mPropery := 5, impl := LOTVariant.details.Color fun _ => 7 }] }

end LOTFilter

/-! ## Part 3b: the accessors of `LOTFilter` and `LOTProxyModel` -/

/-- The types and operations `lottieproxymodel.h` takes from other headers:
`LC`, `PF`, `SZ`, `Mx` stand for `LottieColor`, `VPointF`, `VSize`, `VMatrix`, `W`
for the result type of `VSize::width()` and `D` for `double`.
* `LottieColor col`: `LottieColor(col.r(), col.g(), col.b())`;
* `VPointF pt`: `VPointF(pt.x(), pt.y())`; `VSize sz`: `VSize(sz.w(), sz.h())`;
* `div100 val`: the `float` quotient `val/100`;
* `width`, `height`: `VSize::width()`, `VSize::height()`;
* `div100_0 x`: the `double` quotient `x / 100.0`;
* `identity`: a default-constructed `VMatrix`; `scale m sx sy`, `rotate m a`,
  `translate m pt`: the matrix `m` after `m.scale(sx, sy)`, `m.rotate(a)`,
  `m.translate(pt)`; `mul`: `operator*` on `VMatrix`. -/
structure Engine (V C P S LC PF SZ W D Mx : Type) where
  LottieColor : C → LC
  VPointF : P → PF
  VSize : S → SZ
  div100 : V → V
  width : SZ → W
  height : SZ → W
  div100_0 : W → D
  identity : Mx
  scale : Mx → D → D → Mx
  rotate : Mx → V → Mx
  translate : Mx → PF → Mx
  mul : Mx → Mx → Mx

/-- The enumerators of `rlottie::Property` (declared in `rlottie.h`) that the
proxies name. -/
structure PropertyIds where
  FillColor : Property
  FillOpacity : Property
  StrokeColor : Property
  StrokeOpacity : Property
  StrokeWidth : Property
  TrPosition : Property
  TrScale : Property
  TrRotation : Property

namespace LOTVariant

variable {V C P S : Type}

/-- `color()`: `assert(mTag == Color); return impl.colorFunc;`. -/
def color (v : LOTVariant V C P S) : Option (Int → C) :=
  match v.impl with
  | LOTVariant.details.Color colorFunc => some colorFunc
  | _ => none

/-- `value()`: `assert(mTag == Value); return impl.valueFunc;`. -/
def value (v : LOTVariant V C P S) : Option (Int → V) :=
  match v.impl with
  | LOTVariant.details.Value valueFunc => some valueFunc
  | _ => none

/-- `point()`: `assert(mTag == Point); return impl.pointFunc;`. -/
def point (v : LOTVariant V C P S) : Option (Int → P) :=
  match v.impl with
  | LOTVariant.details.Point pointFunc => some pointFunc
  | _ => none

/-- `size()`: `assert(mTag == Size); return impl.sizeFunc;`. -/
def size (v : LOTVariant V C P S) : Option (Int → S) :=
  match v.impl with
  | LOTVariant.details.Size sizeFunc => some sizeFunc
  | _ => none

end LOTVariant

namespace LOTFilter

variable {V C P S LC PF SZ W D Mx : Type}

/-- `color(prop, frame)`: `data(prop).color()(info)` turned into a
`LottieColor`. -/
def color (E : Engine V C P S LC PF SZ W D Mx) (s : LOTFilter V C P S) (prop : Property)
    (frame : Int) : Option LC :=
  (data s prop).bind fun v => v.color.map fun colorFunc => E.LottieColor (colorFunc frame)

/-- `point(prop, frame)`: `data(prop).point()(info)` turned into a `VPointF`. -/
def point (E : Engine V C P S LC PF SZ W D Mx) (s : LOTFilter V C P S) (prop : Property)
    (frame : Int) : Option PF :=
  (data s prop).bind fun v => v.point.map fun pointFunc => E.VPointF (pointFunc frame)

/-- `scale(prop, frame)`: `data(prop).size()(info)` turned into a `VSize`. -/
def scale (E : Engine V C P S LC PF SZ W D Mx) (s : LOTFilter V C P S) (prop : Property)
    (frame : Int) : Option SZ :=
  (data s prop).bind fun v => v.size.map fun sizeFunc => E.VSize (sizeFunc frame)

/-- `opacity(prop, frame)`: `float val = data(prop).value()(info); return val/100;`. -/
def opacity (E : Engine V C P S LC PF SZ W D Mx) (s : LOTFilter V C P S) (prop : Property)
    (frame : Int) : Option V :=
  (data s prop).bind fun v => v.value.map fun valueFunc => E.div100 (valueFunc frame)

/-- `value(prop, frame)`: `return data(prop).value()(info);`. -/
def value (s : LOTFilter V C P S) (prop : Property) (frame : Int) : Option V :=
  (data s prop).bind fun v => v.value.map fun valueFunc => valueFunc frame

end LOTFilter

/-- What `LOTProxyModel<T>` reads from its node `_modelData` (a stroke node):
the intrinsic `color(frame)`, `opacity(frame)` and `strokeWidth(frame)`. -/
structure LOTStrokeData (V LC : Type) where
  color : Int → LC
  opacity : Int → V
  strokeWidth : Int → V

/-- What `LOTProxyModel<LOTFillData>` reads from its node: the intrinsic
`color(frame)` and `opacity(frame)`. -/
structure LOTFillData (V LC : Type) where
  color : Int → LC
  opacity : Int → V

/-- What `LOTProxyModel<LOTGroupData>` reads from its node:
`mTransform->matrix(frame)`. -/
structure LOTGroupData (Mx : Type) where
  mTransform_matrix : Int → Mx

/-- `class LOTProxyModel<T>`: the node `_modelData` (a non-null pointer) and
the filter set `mFilter`. -/
structure LOTProxyModel (T V C P S : Type) where
  _modelData : T
  mFilter : LOTFilter V C P S

namespace LOTProxyModel

variable {V C P S LC PF SZ W D Mx : Type}

/-- `if (mFilter.hasFilter(prop)) return override; return intrinsic;`, where
`hasFilter` throws for a property index that is not below 32. -/
def read_through {R : Type} (mFilter : LOTFilter V C P S) (prop : Property)
    (override : Option R) (intrinsic : R) : Option R :=
  match LOTFilter.hasFilter mFilter prop with
  | none => none
  | some true => override
  | some false => some intrinsic

/-- `LOTProxyModel<T>::color(frame)`, on `Property::StrokeColor`. -/
def color (ids : PropertyIds) (E : Engine V C P S LC PF SZ W D Mx)
    (p : LOTProxyModel (LOTStrokeData V LC) V C P S) (frame : Int) : Option LC :=
  read_through p.mFilter ids.StrokeColor
    (LOTFilter.color E p.mFilter ids.StrokeColor frame) (p._modelData.color frame)

/-- `LOTProxyModel<T>::opacity(frame)`, on `Property::StrokeOpacity`. -/
def opacity (ids : PropertyIds) (E : Engine V C P S LC PF SZ W D Mx)
    (p : LOTProxyModel (LOTStrokeData V LC) V C P S) (frame : Int) : Option V :=
  read_through p.mFilter ids.StrokeOpacity
    (LOTFilter.opacity E p.mFilter ids.StrokeOpacity frame) (p._modelData.opacity frame)

/-- `LOTProxyModel<T>::strokeWidth(frame)`, on `Property::StrokeWidth`. -/
def strokeWidth (ids : PropertyIds)
    (p : LOTProxyModel (LOTStrokeData V LC) V C P S) (frame : Int) : Option V :=
  read_through p.mFilter ids.StrokeWidth
    (LOTFilter.value p.mFilter ids.StrokeWidth frame) (p._modelData.strokeWidth frame)

/-- `LOTProxyModel<LOTFillData>::color(frame)`, on `Property::FillColor`. -/
def fill_color (ids : PropertyIds) (E : Engine V C P S LC PF SZ W D Mx)
    (p : LOTProxyModel (LOTFillData V LC) V C P S) (frame : Int) : Option LC :=
  read_through p.mFilter ids.FillColor
    (LOTFilter.color E p.mFilter ids.FillColor frame) (p._modelData.color frame)

/-- `LOTProxyModel<LOTFillData>::opacity(frame)`, on `Property::FillOpacity`. -/
def fill_opacity (ids : PropertyIds) (E : Engine V C P S LC PF SZ W D Mx)
    (p : LOTProxyModel (LOTFillData V LC) V C P S) (frame : Int) : Option V :=
  read_through p.mFilter ids.FillOpacity
    (LOTFilter.opacity E p.mFilter ids.FillOpacity frame) (p._modelData.opacity frame)

/-- `LOTProxyModel<LOTGroupData>::matrix(frame)`: `mS`, `mR`, `mT` start as
default-constructed matrices; each is changed when its property has a filter;
the result is `_modelData->mTransform->matrix(frame) * mS * mR * mT`. -/
def matrix (ids : PropertyIds) (E : Engine V C P S LC PF SZ W D Mx)
    (p : LOTProxyModel (LOTGroupData Mx) V C P S) (frame : Int) : Option Mx :=
  (read_through p.mFilter ids.TrScale
      ((LOTFilter.scale E p.mFilter ids.TrScale frame).map fun s =>
        E.scale E.identity (E.div100_0 (E.width s)) (E.div100_0 (E.height s)))
      E.identity).bind fun mS =>
    (read_through p.mFilter ids.TrRotation
        ((LOTFilter.value p.mFilter ids.TrRotation frame).map fun a =>
          E.rotate E.identity a)
        E.identity).bind fun mR =>
      (read_through p.mFilter ids.TrPosition
          ((LOTFilter.point E p.mFilter ids.TrPosition frame).map fun pt =>
            E.translate E.identity pt)
          E.identity).bind fun mT =>
        some (E.mul (E.mul (E.mul (p._modelData.mTransform_matrix frame) mS) mR) mT)

/-- The enumerators numbered in the order 0, 1, 2, ... for the examples. -/
def example_ids : PropertyIds :=
  { FillColor := 0, FillOpacity := 1, StrokeColor := 2, StrokeOpacity := 3,
    StrokeWidth := 4, TrPosition := 6, TrScale := 7, TrRotation := 8 }

/-- An engine on integers for the examples: conversions are the identity, the
quotients are integer quotients, a matrix is a number, the product is the sum. -/
def example_engine : Engine Int Int Int Int Int Int Int Int Int Int :=
  { LottieColor := fun c => c, VPointF := fun pt => pt, VSize := fun sz => sz,
    div100 := fun val => val / 100, width := fun s => s, height := fun s => s,
    div100_0 := fun x => x / 100, identity := 0,
    scale := fun m sx sy => m + sx + sy, rotate := fun m a => m + a,
    translate := fun m pt => m + pt, mul := fun a b => a + b }

/-- A stroke proxy whose filter set overrides the stroke width (property 4)
with the callback `frame ↦ 3 * frame`. -/
def example_stroke : LOTProxyModel (LOTStrokeData Int Int) Int Int Int Int :=
  { _modelData := { color := fun _ => 10, opacity := fun _ => 20, strokeWidth := fun _ => 30 },
    mFilter :=
      { mBitset := fun i => if i = 4 then true else false,
        mFilters := [{ mPropery := 4,
                       impl := LOTVariant.details.Value fun frame => 3 * frame }] } }

/-- A fill proxy with an empty filter set. -/
def example_fill : LOTProxyModel (LOTFillData Int Int) Int Int Int Int :=
  { _modelData := { color := fun _ => 40, opacity := fun _ => 50 },
    mFilter := LOTFilter.empty }

/-- The calls `addValue` of a colour callback for `StrokeColor` (2) and of
scalar callbacks for `StrokeOpacity` (3) and `StrokeWidth` (4). -/
def example_stroke_calls : List (LOTFilter.Call Int Int Int Int) :=
  [LOTFilter.Call.addValue
      { mPropery := 2, impl := LOTVariant.details.Color fun frame => frame + 1 },
   LOTFilter.Call.addValue
      { mPropery := 3, impl := LOTVariant.details.Value fun frame => 100 * frame },
   LOTFilter.Call.addValue
      { mPropery := 4, impl := LOTVariant.details.Value fun frame => 3 * frame }]

/-- A stroke proxy whose filter set is the one `example_stroke_calls` build on
the empty one: colour, opacity and width are overridden. -/
def example_stroke_overridden : LOTProxyModel (LOTStrokeData Int Int) Int Int Int Int :=
  { _modelData := { color := fun _ => 10, opacity := fun _ => 20, strokeWidth := fun _ => 30 },
    mFilter :=
      { mBitset := fun i =>
          if i = 4 then true else if i = 3 then true else if i = 2 then true else false,
        mFilters :=
          [{ mPropery := 2, impl := LOTVariant.details.Color fun frame => frame + 1 },
           { mPropery := 3, impl := LOTVariant.details.Value fun frame => 100 * frame },
           { mPropery := 4, impl := LOTVariant.details.Value fun frame => 3 * frame }] } }

/-- The calls `addValue` of a colour callback for `FillColor` (0) and of a
scalar callback for `FillOpacity` (1). -/
def example_fill_calls : List (LOTFilter.Call Int Int Int Int) :=
  [LOTFilter.Call.addValue
      { mPropery := 0, impl := LOTVariant.details.Color fun frame => frame + 2 },
   LOTFilter.Call.addValue
      { mPropery := 1, impl := LOTVariant.details.Value fun frame => 200 * frame }]

/-- A fill proxy whose filter set is the one `example_fill_calls` build on the
empty one: colour and opacity are overridden. -/
def example_fill_overridden : LOTProxyModel (LOTFillData Int Int) Int Int Int Int :=
  { _modelData := { color := fun _ => 40, opacity := fun _ => 50 },
    mFilter :=
      { mBitset := fun i => if i = 1 then true else if i = 0 then true else false,
        mFilters :=
          [{ mPropery := 0, impl := LOTVariant.details.Color fun frame => frame + 2 },
           { mPropery := 1, impl := LOTVariant.details.Value fun frame => 200 * frame }] } }

/-- An engine whose matrices are lists of numbers, for the examples: a
default-constructed matrix is the empty list, `scale`, `rotate` and `translate`
append their arguments, the product is the concatenation (it does not commute);
the width of a size is the size, its height twice the size. -/
def example_engine_words : Engine Int Int Int Int Int Int Int Int Int (List Int) :=
  { LottieColor := fun c => c, VPointF := fun pt => pt, VSize := fun sz => sz,
    div100 := fun val => val / 100, width := fun s => s, height := fun s => 2 * s,
    div100_0 := fun x => x / 100, identity := [],
    scale := fun m sx sy => m ++ [sx, sy], rotate := fun m a => m ++ [a],
    translate := fun m pt => m ++ [pt], mul := fun a b => a ++ b }

/-- The calls `addValue` of a point callback for `TrPosition` (6), of a size
callback for `TrScale` (7) and of a scalar callback for `TrRotation` (8). -/
def example_group_calls : List (LOTFilter.Call Int Int Int Int) :=
  [LOTFilter.Call.addValue
      { mPropery := 6, impl := LOTVariant.details.Point fun frame => 7 * frame },
   LOTFilter.Call.addValue
      { mPropery := 7, impl := LOTVariant.details.Size fun frame => 100 * frame },
   LOTFilter.Call.addValue
      { mPropery := 8, impl := LOTVariant.details.Value fun frame => 9 * frame }]

/-- A group proxy whose filter set is the one `example_group_calls` build on the
empty one: position, scale and rotation are overridden. -/
def example_group_overridden : LOTProxyModel (LOTGroupData (List Int)) Int Int Int Int :=
  { _modelData := { mTransform_matrix := fun frame => [1000 * frame] },
    mFilter :=
      { mBitset := fun i =>
          if i = 8 then true else if i = 7 then true else if i = 6 then true else false,
        mFilters :=
          [{ mPropery := 6, impl := LOTVariant.details.Point fun frame => 7 * frame },
           { mPropery := 7, impl := LOTVariant.details.Size fun frame => 100 * frame },
           { mPropery := 8, impl := LOTVariant.details.Value fun frame => 9 * frame }] } }

/-- A group proxy whose filter set overrides the rotation (property 8) with the
callback `frame ↦ frame`. -/
def example_group : LOTProxyModel (LOTGroupData Int) Int Int Int Int :=
  { _modelData := { mTransform_matrix := fun frame => 1000 * frame },
    mFilter :=
      { mBitset := fun i => if i = 8 then true else false,
        mFilters := [{ mPropery := 8,
                       impl := LOTVariant.details.Value fun frame => frame }] } }

end LOTProxyModel

/-! ## Part 4: `LottieModelCache` and `LottieLoader` (`lottieloader.cpp`) -/

/-- `class LottieModelCache` under `LOTTIE_CACHE_SUPPORT`. `mHash` lists the
entries of the `unordered_map`, `mcacheSize` is the capacity. `M` stands for a
non-null `shared_ptr<LOTModel>`; two handles are equal when they share their
payload. The mutex is left out: calls do not overlap here. -/
structure LottieModelCache (M : Type) where
  mHash : List (String × M)
  mcacheSize : Nat
deriving DecidableEq, Repr

namespace LottieModelCache

variable {M : Type}

/-- `static LottieModelCache CACHE;`: an empty map and `mcacheSize{10}`. -/
def CACHE : LottieModelCache M :=
  { mHash := [], mcacheSize := 10 }

/-- `find(key)`: `nullptr` (here `none`) when `mcacheSize` is 0 or the key is
absent, the stored handle otherwise. -/
def find (c : LottieModelCache M) (key : String) : Option M :=
  if c.mcacheSize = 0 then none else c.mHash.lookup key

/-- `mHash[key] = value`: assigns to the entry of `key`, inserting one when the
key is absent. -/
def assign (l : List (String × M)) (key : String) (value : M) : List (String × M) :=
  if l.any (fun e => e.1 == key) then
    l.map fun e => if e.1 = key then (key, value) else e
  else l ++ [(key, value)]

/-- `add(key, value)`: nothing when `mcacheSize` is 0; otherwise, when
`mcacheSize == mHash.size()`, `mHash.erase(mHash.cbegin())`, and then
`mHash[key] = value`. The iteration order of an `unordered_map` is unspecified:
`cbegin` gives, for the current entries, the position of the one the iteration
starts with. -/
def add (cbegin : List (String × M) → Nat) (c : LottieModelCache M) (key : String)
    (value : M) : LottieModelCache M :=
  if c.mcacheSize = 0 then c
  else if c.mcacheSize = c.mHash.length then
    { c with mHash := assign (c.mHash.eraseIdx (cbegin c.mHash % c.mHash.length)) key value }
  else
    { c with mHash := assign c.mHash key value }

/-- `configureCacheSize(cacheSize)`: `mcacheSize = cacheSize;` and
`if (!mcacheSize) mHash.clear();`. -/
def configureCacheSize (c : LottieModelCache M) (cacheSize : Nat) : LottieModelCache M :=
  if cacheSize = 0 then { mHash := [], mcacheSize := cacheSize }
  else { mHash := c.mHash, mcacheSize := cacheSize }

/-- Successive `add` calls, from left to right. -/
def add_all (cbegin : List (String × M) → Nat) (c : LottieModelCache M) :
    List (String × M) → LottieModelCache M
  | [] => c
  | kv :: kvs => add_all cbegin (add cbegin c kv.1 kv.2) kvs

/-- A call on the cache that changes it. -/
inductive Call (M : Type) where
  | add (key : String) (value : M) : Call M
  | configureCacheSize (cacheSize : Nat) : Call M

/-- One call. -/
def step (cbegin : List (String × M) → Nat) (c : LottieModelCache M) :
    Call M → LottieModelCache M
  | Call.add key value => add cbegin c key value
  | Call.configureCacheSize cacheSize => configureCacheSize c cacheSize

/-- A sequence of calls, from left to right. -/
def run (cbegin : List (String × M) → Nat) (c : LottieModelCache M) :
    List (Call M) → LottieModelCache M
  | [] => c
  | x :: xs => run cbegin (step cbegin c x) xs

end LottieModelCache

/-- `class LottieLoader`: the member `mModel`, a possibly null
`shared_ptr<LOTModel>`. -/
structure LottieLoader (M : Type) where
  mModel : Option M
deriving DecidableEq, Repr

namespace LottieLoader

variable {M : Type}

/-- What `lottieloader.cpp` uses from outside.
* `open_file path`: opening the file and reading its content (`none`: the file
  cannot be opened);
* `parser_model str dir`: `LottieParser(str, dir).model()`, null (`none`) when
  the parser produced no model;
* `dirname_no_slash`: what `dirname` yields for a path without `/`, where its
  pointer arithmetic on the null result of `strrchr` is undefined;
* `cbegin`: the iteration start of the `unordered_map`, see
  `LottieModelCache.add`. -/
structure Env (M : Type) where
  open_file : String → Option String
  parser_model : String → String → Option M
  dirname_no_slash : String → String
  cbegin : List (String × M) → Nat

/-- What a load does outside the loader and the cache. -/
inductive Event where
  | open_file (path : String) : Event
  | parser_run (str dir : String) : Event
deriving DecidableEq, Repr

/-- The process-wide state: the singleton cache `LottieModelCache::instance()`
and the log of file reads and parser runs. -/
structure World (M : Type) where
  cache : LottieModelCache M
  events : List Event
deriving DecidableEq, Repr

/-- `dirname(path)` (non-Windows build): the characters of `path` up to and
including the last `/`. -/
def dirname (env : Env M) (path : String) : String :=
  if path.toList.contains '/' then
    String.mk (path.toList.reverse.dropWhile fun c => c != '/').reverse
  else env.dirname_no_slash path

/-- `configureModelCacheSize(cacheSize)`. -/
def configureModelCacheSize (w : World M) (cacheSize : Nat) : World M :=
  { w with cache := LottieModelCache.configureCacheSize w.cache cacheSize }

/-- `load(path, cachePolicy)`: returns the result, the loader and the world
after the call. -/
def load (env : Env M) (w : World M) (l : LottieLoader M) (path : String)
    (cachePolicy : Bool) : Bool × LottieLoader M × World M :=
  let l1 : LottieLoader M :=
    if cachePolicy then { mModel := LottieModelCache.find w.cache path } else l
  if cachePolicy && l1.mModel.isSome then (true, l1, w)
  else
    let w1 : World M := { w with events := w.events ++ [Event.open_file path] }
    match env.open_file path with
    | none => (false, l1, w1)
    | some content =>
      if content = "" then (false, l1, w1)
      else
        let w2 : World M :=
          { w1 with events := w1.events ++ [Event.parser_run content (dirname env path)] }
        match env.parser_model content (dirname env path) with
        | none => (false, { mModel := none }, w2)
        | some m =>
          if cachePolicy then
            (true, { mModel := some m },
              { w2 with cache := LottieModelCache.add env.cbegin w2.cache path m })
          else (true, { mModel := some m }, w2)

/-- `loadFromData(jsonData, key, resourcePath, cachePolicy)`. -/
def loadFromData (env : Env M) (w : World M) (l : LottieLoader M)
    (jsonData key resourcePath : String) (cachePolicy : Bool) :
    Bool × LottieLoader M × World M :=
  let l1 : LottieLoader M :=
    if cachePolicy then { mModel := LottieModelCache.find w.cache key } else l
  if cachePolicy && l1.mModel.isSome then (true, l1, w)
  else
    let w2 : World M :=
      { w with events := w.events ++ [Event.parser_run jsonData resourcePath] }
    match env.parser_model jsonData resourcePath with
    | none => (false, { mModel := none }, w2)
    | some m =>
      if cachePolicy then
        (true, { mModel := some m },
          { w2 with cache := LottieModelCache.add env.cbegin w2.cache key m })
      else (true, { mModel := some m }, w2)

/-- `model()`: `return mModel;`. -/
def model (l : LottieLoader M) : Option M := l.mModel

/-- An environment with one readable file, `a.json` with content `{}`, one
readable but empty file `empty.json`, and a parser that yields model 7 for the
text `{}` and no model for any other text. -/
def example_env : Env Nat :=
  { open_file := fun path =>
      if path = "a.json" then some "{}" else if path = "empty.json" then some "" else none,
    parser_model := fun str _ => if str = "{}" then some 7 else none,
    dirname_no_slash := fun _ => "",
    cbegin := fun _ => 0 }

/-- The world at start: the default cache and nothing logged. -/
def example_world : World Nat :=
  { cache := LottieModelCache.CACHE, events := [] }

end LottieLoader

namespace LOTFilter

variable {V C P S : Type}

/-- From the words of the specification, "the variant most recently added for
`p`": the variant of the last `addValue` call for `p` in `cs` that no later
`removeValue` call for `p` follows, and `cur` when `cs` has no call for `p`. -/
def most_recently_added (p : Property) :
    Option (LOTVariant V C P S) → List (Call V C P S) → Option (LOTVariant V C P S)
  | cur, [] => cur
  | cur, Call.addValue value :: cs =>
    most_recently_added p (if value.mPropery = p then some value else cur) cs
  | cur, Call.removeValue value :: cs =>
    most_recently_added p (if value.mPropery = p then none else cur) cs

end LOTFilter

/-! ## Part 5: `TaskQueue` (`vtaskqueue.h`) -/

/-- `class TaskQueue<Task>` as the calling thread sees it: the deque `_q`, front
first, and the flag `_done`. The mutex and the condition variable hold no data of
the queue; whether a `std::try_to_lock` gets the mutex is an input of the call. -/
structure TaskQueue (Task : Type) where
  _q : List Task
  _done : Bool

namespace TaskQueue

variable {Task : Type}

/-- A default-constructed queue: an empty deque and `_done{false}`. -/
def construct : TaskQueue Task :=
  { _q := [], _done := false }

/-- `try_pop(task)`: `lock` is the outcome of `std::try_to_lock`. The result is
the return value, the caller's `task` and the queue. -/
def try_pop (lock : Bool) (s : TaskQueue Task) (task : Task) :
    Bool × Task × TaskQueue Task :=
  if !lock || s._q.isEmpty then (false, task, s)
  else
    match s._q with
    | [] => (false, task, s)
    | front :: rest => (true, front, { s with _q := rest })

/-- `try_push(task)`: `lock` is the outcome of `std::try_to_lock`; with the mutex
the task is appended at the back. -/
def try_push (lock : Bool) (s : TaskQueue Task) (task : Task) : Bool × TaskQueue Task :=
  if !lock then (false, s) else (true, { s with _q := s._q ++ [task] })

/-- `done()`: sets `_done`. -/
def done (s : TaskQueue Task) : TaskQueue Task :=
  { s with _done := true }

/-- The loop `while (_q.empty() && !_done) _ready.wait(lock);` of a thread that is
alone with the queue: a `wait` that returns finds the queue as it left it, and at
most `wakeups` of them return. `none`: the thread is still waiting. -/
def wait_loop (s : TaskQueue Task) : Nat → Option Unit
  | 0 => if s._q.isEmpty && !s._done then none else some ()
  | wakeups + 1 => if s._q.isEmpty && !s._done then wait_loop s wakeups else some ()

/-- `pop(task)`: after the loop, `false` on an empty deque, else the front is
moved into `task` and removed. `none`: the call has not returned. -/
def pop (wakeups : Nat) (s : TaskQueue Task) (task : Task) :
    Option (Bool × Task × TaskQueue Task) :=
  (wait_loop s wakeups).map fun _ =>
    match s._q with
    | [] => (false, task, s)
    | front :: rest => (true, front, { s with _q := rest })

/-- `push(task)`: appends the task at the back. -/
def push (s : TaskQueue Task) (task : Task) : TaskQueue Task :=
  { s with _q := s._q ++ [task] }

/-- Consecutive `pop(task)` calls of one caller on one variable `task`: the
return value and the content of `task` after each call, and the queue left. -/
def pops (wakeups : Nat) : Nat → TaskQueue Task → Task →
    Option (List (Bool × Task) × TaskQueue Task)
  | 0, s, _ => some ([], s)
  | n + 1, s, task =>
    (pop wakeups s task).bind fun r =>
      (pops wakeups n r.2.2 r.2.1).map fun rs => ((r.1, r.2.1) :: rs.1, rs.2)

/-- A call on the queue. `pop` and `try_pop` carry the content of the caller's
variable before the call, the `try_` calls the outcome of `std::try_to_lock`. -/
inductive Call (Task : Type) where
  | push (task : Task) : Call Task
  | try_push (lock : Bool) (task : Task) : Call Task
  | pop (task : Task) : Call Task
  | try_pop (lock : Bool) (task : Task) : Call Task
  | done : Call Task

/-- The lock of the call is not contended. -/
def Call.uncontended : Call Task → Bool
  | Call.try_push lock _ => lock
  | Call.try_pop lock _ => lock
  | _ => true

/-- A queue with the record of a call sequence: `submitted` are the tasks passed
to `push` and `try_push`, `delivered` the tasks that the `pop` and `try_pop` calls
returning `true` left in the caller's variable, both in call order. -/
structure Trace (Task : Type) where
  queue : TaskQueue Task
  submitted : List Task
  delivered : List Task

/-- One call; `none` when a `pop` does not return. -/
def step (wakeups : Nat) (r : Trace Task) : Call Task → Option (Trace Task)
  | Call.push task =>
    some { r with queue := push r.queue task, submitted := r.submitted ++ [task] }
  | Call.try_push lock task =>
    some { r with queue := (try_push lock r.queue task).2, submitted := r.submitted ++ [task] }
  | Call.pop task =>
    (pop wakeups r.queue task).map fun o =>
      { r with queue := o.2.2, delivered := if o.1 then r.delivered ++ [o.2.1] else r.delivered }
  | Call.try_pop lock task =>
    let o := try_pop lock r.queue task
    some { r with queue := o.2.2, delivered := if o.1 then r.delivered ++ [o.2.1] else r.delivered }
  | Call.done => some { r with queue := done r.queue }

/-- A sequence of calls, from left to right. -/
def run (wakeups : Nat) (r : Trace Task) : List (Call Task) → Option (Trace Task)
  | [] => some r
  | c :: cs => (step wakeups r c).bind fun r1 => run wakeups r1 cs

/-- The record at the start: a default-constructed queue, nothing passed. -/
def start : Trace Task :=
  { queue := construct, submitted := [], delivered := [] }

/-- Five uncontended calls: two tasks in, one out, one in, one out. -/
def example_calls : List (Call Nat) :=
  [Call.push 1, Call.try_push true 2, Call.pop 0, Call.push 3, Call.try_pop true 0]

/-- The record after `example_calls`. -/
def example_trace : Trace Nat :=
  { queue := { _q := [3], _done := false }, submitted := [1, 2, 3], delivered := [1, 2] }

/-- A queue holding two tasks on which `done()` has been called. -/
def example_done : TaskQueue Nat :=
  { _q := [1, 2], _done := true }

end TaskQueue

/-! ## Part 6: `LOTKeyPath` (`lottiekeypath.h`) -/

/-- `class LOTKeyPath`: the segments `mKeys` of the pattern. -/
structure LOTKeyPath where
  mKeys : List String

namespace LOTKeyPath

/-- `size()`: `mKeys.size() - 1` in `size_t`. -/
def size (k : LOTKeyPath) : Nat :=
  (k.mKeys.length + SIZE_MOD - 1) % SIZE_MOD

/-- `skip(key)`: `key == "__"`. -/
def skip (key : String) : Bool :=
  key == "__"

/-- `propagate(key, depth)`:
`skip(key) ? true : (depth < size()) || (mKeys[depth] == "**")`; `mKeys[depth]` is
read only when `depth < size()` is false, and is undefined (`none`) past the end
of `mKeys`. -/
def propagate (k : LOTKeyPath) (key : String) (depth : Nat) : Option Bool :=
  if skip key then some true
  else if depth < size k then some true
  else k.mKeys[depth]?.map fun segment => segment == "**"

/-- The pattern with segments `a`, `**`, `b`. -/
def example_path : LOTKeyPath :=
  { mKeys := ["a", "**", "b"] }

end LOTKeyPath

namespace vcow_ptr

variable {T : Type}

/-! ### List facts used by the invariant proofs -/

theorem count_set_add (l : List (Option Ptr)) (i : Nat)
    (a b old : Option Ptr) (h : l[i]? = some old) :
    (l.set i a).count b + (if old = b then 1 else 0)
      = l.count b + (if a = b then 1 else 0) := by
  induction l generalizing i with
  | nil => simp at h
  | cons x l ih =>
    cases i with
    | zero =>
      simp only [List.getElem?_cons_zero, Option.some.injEq] at h
      subst h
      simp only [List.set_cons_zero, List.count_cons, beq_iff_eq]
      omega
    | succ i =>
      simp only [List.getElem?_cons_succ] at h
      have := ih i h
      simp only [List.set_cons_succ, List.count_cons, beq_iff_eq]
      omega

theorem count_append_one (l : List (Option Ptr)) (a b : Option Ptr) :
    (l ++ [a]).count b = l.count b + (if a = b then 1 else 0) := by
  simp [List.count_append, List.count_singleton]

theorem count_pos_of_getElem? (l : List (Option Ptr)) (i : Nat)
    (a : Option Ptr) (h : l[i]? = some a) : 1 ≤ l.count a := by
  have hm : a ∈ l := List.getElem?_mem h
  exact List.count_pos_iff.mpr hm

theorem mModel_eq_some {s : Machine T} {h : Nat} {p : Ptr} :
    mModel s h = some p ↔ s.handles[h]? = some (some p) := by
  unfold mModel
  split
  · rename_i q hq
    rw [hq]
    simp
  · rename_i hq
    constructor
    · intro h1
      cases h1
    · intro h1
      exact absurd h1 (hq p)

theorem getElem?_append_one {α : Type} (l : List α) (x : α) (a : Nat) :
    (l ++ [x])[a]? = if a < l.length then l[a]? else if a = l.length then some x else none := by
  by_cases h1 : a < l.length
  · simp [h1, List.getElem?_append_left]
  · by_cases h2 : a = l.length
    · subst h2
      simp
    · have h3 : l.length + 1 ≤ a := by omega
      have h4 : (l ++ [x])[a]? = none := by
        apply List.getElem?_eq_none
        simp
        omega
      simp [h1, h2, h4]

/-! ### Every constructor, the destructor and `swap` preserve the invariant -/

theorem ctor_args_inv {s s1 : Machine T} {v : T} (hI : Inv s)
    (hs : ctor_args s v = some s1) : Inv s1 := by
  simp only [ctor_args, Option.some.injEq] at hs
  subst hs
  have hn : bound s (Ptr.heap s.heap.length) = 0 := by
    apply hI.no_dangling
    intro m
    simp
  constructor
  · have := hI.default_ref
    simp only [bound, count_append_one] at this ⊢
    simpa using this
  · intro a m ha
    simp only [getElem?_append_one] at ha
    simp only [bound, count_append_one] at hn ⊢
    by_cases h1 : a < s.heap.length
    · simp only [h1, if_true] at ha
      have := hI.heap_ref a m ha
      simp only [bound] at this
      have h2 : ¬ (s.heap.length = a) := by omega
      simp only [Option.some.injEq, Ptr.heap.injEq, h2, if_false, Nat.add_zero]
      exact this
    · by_cases h2 : a = s.heap.length
      · subst h2
        simp at ha
        subst ha
        simp [hn]
      · simp [h1, h2] at ha
  · intro a ha
    simp only [getElem?_append_one] at ha
    simp only [bound, count_append_one]
    by_cases h1 : a < s.heap.length
    · simp only [h1, if_true] at ha
      have := hI.no_dangling a ha
      simp only [bound] at this
      have h2 : ¬ (s.heap.length = a) := by omega
      simp [h2, this]
    · by_cases h2 : a = s.heap.length
      · subst h2
        simp at ha
      · have h3 : ∀ m, s.heap[a]? ≠ some (some m) := by
          intro m
          have : s.heap[a]? = none := List.getElem?_eq_none (by omega)
          simp [this]
        have := hI.no_dangling a h3
        simp only [bound] at this
        have h4 : ¬ (s.heap.length = a) := by omega
        simp [h4, this]
  · intro a
    rw [hI.deleted_iff a]
    simp only [getElem?_append_one]
    by_cases h1 : a < s.heap.length
    · simp [h1]
    · have : s.heap[a]? = none := List.getElem?_eq_none (by omega)
      by_cases h2 : a = s.heap.length
      · simp [h2]
      · simp [h1, h2, this]
  · exact hI.deleted_nodup

theorem bound_le_length (s : Machine T) (p : Ptr) : bound s p ≤ s.handles.length :=
  List.count_le_length _ _

/-- A state that differs only in which handle is bound where, with every
non-null payload keeping its number of handles, keeps the invariant. -/
theorem inv_of_same_bound {s s1 : Machine T} (hI : Inv s)
    (hd : s1.default_s = s.default_s) (hh : s1.heap = s.heap)
    (hdel : s1.deleted = s.deleted)
    (hb : ∀ q, q ≠ Ptr.null → bound s1 q = bound s q) : Inv s1 := by
  constructor
  · rw [hd, hb _ (by simp), hI.default_ref]
  · intro a m ha
    rw [hh] at ha
    rw [hb _ (by simp)]
    exact hI.heap_ref a m ha
  · intro a ha
    rw [hh] at ha
    rw [hb _ (by simp)]
    exact hI.no_dangling a ha
  · intro a
    rw [hdel, hh]
    exact hI.deleted_iff a
  · rw [hdel]
    exact hI.deleted_nodup

theorem ctor_move_inv {s s1 : Machine T} {x : Nat} (hI : Inv s)
    (hs : ctor_move s x = some s1) : Inv s1 := by
  unfold ctor_move at hs
  split at hs
  · cases hs
  · cases hs
  · rename_i p hnull hp
    simp only [Option.some.injEq] at hs
    subst hs
    rw [mModel_eq_some] at hp
    apply inv_of_same_bound hI
    · rfl
    · rfl
    · rfl
    · intro q hq
      have h1 := count_set_add s.handles x (some Ptr.null) (some q) (some p) hp
      have hq2 : ¬ (Ptr.null = q) := fun h => hq h.symm
      simp only [bound, count_append_one, Option.some.injEq, hq2, if_false] at h1 ⊢
      omega

theorem swap_inv {s s1 : Machine T} {x y : Nat} (hI : Inv s)
    (hs : swap s x y = some s1) : Inv s1 := by
  unfold swap at hs
  split at hs
  · rename_i p q hp hq
    simp only [Option.some.injEq] at hs
    subst hs
    rw [mModel_eq_some] at hp hq
    apply inv_of_same_bound hI
    · rfl
    · rfl
    · rfl
    · intro r _
      have h1 := count_set_add s.handles x (some q) (some r) (some p) hp
      have hy : (s.handles.set x (some q))[y]? = some (if x = y then some q else some q) := by
        rw [List.getElem?_set]
        by_cases hxy : x = y
        · subst hxy
          have hlt : x < s.handles.length := by
            rcases List.getElem?_eq_some.mp hp with ⟨h, _⟩
            exact h
          simp [hlt]
        · simp [hxy, hq]
      simp only [ite_self] at hy
      have h2 := count_set_add (s.handles.set x (some q)) y (some p) (some r) (some q) hy
      simp only [bound, Option.some.injEq] at h1 h2 ⊢
      omega
  · cases hs

theorem cnt_append_self (l : List (Option Ptr)) (p : Ptr) :
    (l ++ [some p]).count (some p) = l.count (some p) + 1 := by
  rw [count_append_one]
  simp

theorem cnt_append_ne (l : List (Option Ptr)) (p q : Ptr) (h : p ≠ q) :
    (l ++ [some p]).count (some q) = l.count (some q) := by
  rw [count_append_one]
  simp [h]

theorem cnt_set_none_self (l : List (Option Ptr)) (h : Nat) (p : Ptr)
    (hp : l[h]? = some (some p)) :
    (l.set h none).count (some p) + 1 = l.count (some p) := by
  have := count_set_add l h none (some p) (some p) hp
  simpa using this

theorem cnt_set_none_ne (l : List (Option Ptr)) (h : Nat) (p q : Ptr)
    (hp : l[h]? = some (some p)) (hne : p ≠ q) :
    (l.set h none).count (some q) = l.count (some q) := by
  have := count_set_add l h none (some q) (some p) hp
  simpa [hne] using this

theorem getElem?_lt {α : Type} {l : List α} {i : Nat} {x : α} (h : l[i]? = some x) :
    i < l.length := by
  rcases List.getElem?_eq_some.mp h with ⟨h1, _⟩
  exact h1

/-- Binding one more handle to `p` after `++p->mRef` keeps the invariant, as
long as the counter does not wrap. -/
theorem share_inv {s s1 : Machine T} {p : Ptr} (hI : Inv s) (hs : incRef s p = some s1)
    (hb : s.handles.length + 2 < SIZE_MOD) :
    Inv { s1 with handles := s1.handles ++ [some p] } := by
  cases p with
  | null => simp [incRef] at hs
  | default_s =>
    simp only [incRef, Option.some.injEq] at hs
    subst hs
    have hle := bound_le_length s Ptr.default_s
    constructor
    · have := hI.default_ref
      simp only [bound, cnt_append_self, SIZE_MOD] at this hle hb ⊢
      omega
    · intro a m ha
      have := hI.heap_ref a m ha
      simp only [bound] at this ⊢
      rw [cnt_append_ne _ _ _ (by simp)]
      exact this
    · intro a ha
      have := hI.no_dangling a ha
      simp only [bound] at this ⊢
      rw [cnt_append_ne _ _ _ (by simp)]
      exact this
    · exact hI.deleted_iff
    · exact hI.deleted_nodup
  | heap a =>
    simp only [incRef] at hs
    split at hs
    · rename_i m hm
      simp only [Option.some.injEq] at hs
      subst hs
      have hlt := getElem?_lt hm
      have hle := bound_le_length s (Ptr.heap a)
      have hr := hI.heap_ref a m hm
      constructor
      · have := hI.default_ref
        simp only [bound] at this ⊢
        rw [cnt_append_ne _ _ _ (by simp)]
        exact this
      · intro b mb hb1
        simp only [List.getElem?_set] at hb1
        by_cases hab : a = b
        · subst hab
          simp only [if_true, hlt, Option.some.injEq] at hb1
          subst hb1
          simp only [bound, cnt_append_self, SIZE_MOD] at hr hle hb ⊢
          omega
        · simp only [hab, if_false] at hb1
          have := hI.heap_ref b mb hb1
          simp only [bound] at this ⊢
          rw [cnt_append_ne _ _ _ (by simpa using hab)]
          exact this
      · intro b hb1
        simp only [List.getElem?_set] at hb1
        by_cases hab : a = b
        · subst hab
          simp [hlt] at hb1
        · simp only [hab, if_false] at hb1
          have := hI.no_dangling b hb1
          simp only [bound] at this ⊢
          rw [cnt_append_ne _ _ _ (by simpa using hab)]
          exact this
      · intro b
        rw [hI.deleted_iff b]
        simp only [List.getElem?_set]
        by_cases hab : a = b
        · subst hab
          simp [hlt, hm]
        · simp [hab]
      · exact hI.deleted_nodup
    · cases hs

theorem ctor_default_inv {s s1 : Machine T} (hI : Inv s)
    (hs : ctor_default s = some s1) (hb : s.handles.length + 2 < SIZE_MOD) : Inv s1 := by
  simp only [ctor_default, Option.map_eq_some'] at hs
  obtain ⟨s0, h0, h1⟩ := hs
  subst h1
  exact share_inv hI h0 hb

theorem ctor_copy_inv {s s1 : Machine T} {x : Nat} (hI : Inv s)
    (hs : ctor_copy s x = some s1) (hb : s.handles.length + 2 < SIZE_MOD) : Inv s1 := by
  unfold ctor_copy at hs
  split at hs
  · cases hs
  · cases hs
  · simp only [Option.map_eq_some'] at hs
    obtain ⟨s0, h0, h1⟩ := hs
    subst h1
    exact share_inv hI h0 hb

theorem dtor_inv {s s1 : Machine T} {h : Nat} (hI : Inv s) (hs : dtor s h = some s1)
    (hb : s.handles.length + 1 < SIZE_MOD) : Inv s1 := by
  unfold dtor at hs
  split at hs
  · cases hs
  · rename_i p hp
    rw [mModel_eq_some] at hp
    simp only [Option.map_eq_some'] at hs
    obtain ⟨s0, h0, h1⟩ := hs
    subst h1
    cases p with
    | null =>
      simp only [release, Option.some.injEq] at h0
      subst h0
      apply inv_of_same_bound hI
      · rfl
      · rfl
      · rfl
      · intro q hq
        simp only [bound]
        exact cnt_set_none_ne _ _ _ _ hp (Ne.symm hq)
    | default_s =>
      simp only [release] at h0
      split at h0
      · cases h0
      · simp only [Option.some.injEq] at h0
        subst h0
        have hle := bound_le_length s Ptr.default_s
        have h1 := cnt_set_none_self _ _ _ hp
        constructor
        · have := hI.default_ref
          simp only [bound, SIZE_MOD] at this hle hb ⊢
          omega
        · intro a m ha
          have := hI.heap_ref a m ha
          simp only [bound] at this ⊢
          rw [cnt_set_none_ne _ _ _ _ hp (by simp)]
          exact this
        · intro a ha
          have := hI.no_dangling a ha
          simp only [bound] at this ⊢
          rw [cnt_set_none_ne _ _ _ _ hp (by simp)]
          exact this
        · exact hI.deleted_iff
        · exact hI.deleted_nodup
    | heap a =>
      simp only [release] at h0
      split at h0
      · rename_i m hm
        have hr := hI.heap_ref a m hm
        have h1 := cnt_set_none_self _ _ _ hp
        have hle := bound_le_length s (Ptr.heap a)
        have hlt := getElem?_lt hm
        have hnd : a ∉ s.deleted := by
          intro hmem
          have := (hI.deleted_iff a).mp hmem
          rw [hm] at this
          simp at this
        split at h0
        · rename_i hz
          simp only [Option.some.injEq] at h0
          subst h0
          constructor
          · have := hI.default_ref
            simp only [bound] at this ⊢
            rw [cnt_set_none_ne _ _ _ _ hp (by simp)]
            exact this
          · intro b mb hb1
            simp only [List.getElem?_set] at hb1
            by_cases hab : a = b
            · subst hab
              simp [hlt] at hb1
            · simp only [hab, if_false] at hb1
              have := hI.heap_ref b mb hb1
              simp only [bound] at this ⊢
              rw [cnt_set_none_ne _ _ _ _ hp (by simpa using hab)]
              exact this
          · intro b hb1
            simp only [List.getElem?_set] at hb1
            by_cases hab : a = b
            · subst hab
              simp only [bound, SIZE_MOD] at hr hle hb h1 hz ⊢
              omega
            · simp only [hab, if_false] at hb1
              have := hI.no_dangling b hb1
              simp only [bound] at this ⊢
              rw [cnt_set_none_ne _ _ _ _ hp (by simpa using hab)]
              exact this
          · intro b
            simp only [List.getElem?_set, List.mem_append, List.mem_singleton]
            by_cases hab : a = b
            · subst hab
              simp [hlt]
            · have hba : ¬ (b = a) := fun h => hab h.symm
              simp only [hab, hba, if_false, or_false]
              exact hI.deleted_iff b
          · rw [List.nodup_append]
            refine ⟨hI.deleted_nodup, List.nodup_singleton a, ?_⟩
            intro x hx hx2
            rw [List.mem_singleton] at hx2
            subst hx2
            exact hnd hx
        · rename_i hz
          simp only [Option.some.injEq] at h0
          subst h0
          constructor
          · have := hI.default_ref
            simp only [bound] at this ⊢
            rw [cnt_set_none_ne _ _ _ _ hp (by simp)]
            exact this
          · intro b mb hb1
            simp only [List.getElem?_set] at hb1
            by_cases hab : a = b
            · subst hab
              simp only [if_true, hlt, Option.some.injEq] at hb1
              subst hb1
              simp only [bound, SIZE_MOD] at hr hle hb h1 hz ⊢
              omega
            · simp only [hab, if_false] at hb1
              have := hI.heap_ref b mb hb1
              simp only [bound] at this ⊢
              rw [cnt_set_none_ne _ _ _ _ hp (by simpa using hab)]
              exact this
          · intro b hb1
            simp only [List.getElem?_set] at hb1
            by_cases hab : a = b
            · subst hab
              simp [hlt] at hb1
            · simp only [hab, if_false] at hb1
              have := hI.no_dangling b hb1
              simp only [bound] at this ⊢
              rw [cnt_set_none_ne _ _ _ _ hp (by simpa using hab)]
              exact this
          · intro b
            rw [hI.deleted_iff b]
            simp only [List.getElem?_set]
            by_cases hab : a = b
            · subst hab
              simp [hlt, hm]
            · simp [hab]
          · exact hI.deleted_nodup
      · cases h0

/-! ### Number of handle objects created so far -/

theorem incRef_handles {s s1 : Machine T} {p : Ptr} (hs : incRef s p = some s1) :
    s1.handles = s.handles := by
  cases p with
  | null => simp [incRef] at hs
  | default_s =>
    simp only [incRef, Option.some.injEq] at hs
    subst hs
    rfl
  | heap a =>
    simp only [incRef] at hs
    split at hs
    · simp only [Option.some.injEq] at hs
      subst hs
      rfl
    · cases hs

theorem release_handles {s s1 : Machine T} {p : Ptr} (hs : release s p = some s1) :
    s1.handles = s.handles := by
  cases p with
  | null =>
    simp only [release, Option.some.injEq] at hs
    subst hs
    rfl
  | default_s =>
    simp only [release] at hs
    split at hs
    · cases hs
    · simp only [Option.some.injEq] at hs
      subst hs
      rfl
  | heap a =>
    simp only [release] at hs
    split at hs
    · split at hs
      · simp only [Option.some.injEq] at hs
        subst hs
        rfl
      · simp only [Option.some.injEq] at hs
        subst hs
        rfl
    · cases hs

theorem ctor_default_length {s s1 : Machine T} (hs : ctor_default s = some s1) :
    s1.handles.length = s.handles.length + 1 := by
  simp only [ctor_default, Option.map_eq_some'] at hs
  obtain ⟨s0, h0, h1⟩ := hs
  subst h1
  simp [incRef_handles h0]

theorem ctor_args_length {s s1 : Machine T} {v : T} (hs : ctor_args s v = some s1) :
    s1.handles.length = s.handles.length + 1 := by
  simp only [ctor_args, Option.some.injEq] at hs
  subst hs
  simp

theorem ctor_copy_length {s s1 : Machine T} {x : Nat} (hs : ctor_copy s x = some s1) :
    s1.handles.length = s.handles.length + 1 := by
  unfold ctor_copy at hs
  split at hs
  · cases hs
  · cases hs
  · simp only [Option.map_eq_some'] at hs
    obtain ⟨s0, h0, h1⟩ := hs
    subst h1
    simp [incRef_handles h0]

theorem ctor_move_length {s s1 : Machine T} {x : Nat} (hs : ctor_move s x = some s1) :
    s1.handles.length = s.handles.length + 1 := by
  unfold ctor_move at hs
  split at hs
  · cases hs
  · cases hs
  · simp only [Option.some.injEq] at hs
    subst hs
    simp

theorem swap_length {s s1 : Machine T} {x y : Nat} (hs : swap s x y = some s1) :
    s1.handles.length = s.handles.length := by
  unfold swap at hs
  split at hs
  · simp only [Option.some.injEq] at hs
    subst hs
    simp
  · cases hs

theorem dtor_length {s s1 : Machine T} {h : Nat} (hs : dtor s h = some s1) :
    s1.handles.length = s.handles.length := by
  unfold dtor at hs
  split at hs
  · cases hs
  · simp only [Option.map_eq_some'] at hs
    obtain ⟨s0, h0, h1⟩ := hs
    subst h1
    simp [release_handles h0]

theorem assign_move_length {s s1 : Machine T} {h x : Nat}
    (hs : assign_move s h x = some s1) :
    s1.handles.length = s.handles.length + 1 := by
  simp only [assign_move, Option.bind_eq_some] at hs
  obtain ⟨a, ha, b, hb, hc⟩ := hs
  rw [dtor_length hc, swap_length hb, ctor_move_length ha]

theorem assign_copy_length {s s1 : Machine T} {h x : Nat}
    (hs : assign_copy s h x = some s1) :
    s1.handles.length = s.handles.length + 2 := by
  simp only [assign_copy, Option.bind_eq_some] at hs
  obtain ⟨a, ha, b, hb, hc⟩ := hs
  rw [dtor_length hc, assign_move_length hb, ctor_copy_length ha]

/-! ### Assignments and `write()` preserve the invariant -/

theorem assign_move_inv {s s1 : Machine T} {h x : Nat} (hI : Inv s)
    (hs : assign_move s h x = some s1) (hb : s1.handles.length + 1 < SIZE_MOD) :
    Inv s1 := by
  have hl := assign_move_length hs
  simp only [assign_move, Option.bind_eq_some] at hs
  obtain ⟨a, ha, b, hb1, hc⟩ := hs
  have h1 := ctor_move_inv hI ha
  have h2 := swap_inv h1 hb1
  have hl2 := dtor_length hc
  exact dtor_inv h2 hc (by omega)

theorem assign_copy_inv {s s1 : Machine T} {h x : Nat} (hI : Inv s)
    (hs : assign_copy s h x = some s1) (hb : s1.handles.length + 1 < SIZE_MOD) :
    Inv s1 := by
  have hl := assign_copy_length hs
  simp only [assign_copy, Option.bind_eq_some] at hs
  obtain ⟨a, ha, b, hb1, hc⟩ := hs
  have hla := ctor_copy_length ha
  have hlb := assign_move_length hb1
  have hlc := dtor_length hc
  have h1 := ctor_copy_inv hI ha (by omega)
  have h2 := assign_move_inv h1 hb1 (by omega)
  exact dtor_inv h2 hc (by omega)

theorem write_length {s s1 : Machine T} {h : Nat} {p : Ptr}
    (hs : write s h = some (s1, p)) :
    s.handles.length ≤ s1.handles.length := by
  simp only [write, Option.bind_eq_some] at hs
  obtain ⟨u, _, hs⟩ := hs
  split at hs
  · simp only [Option.map_eq_some', Prod.mk.injEq] at hs
    obtain ⟨_, _, h1, _⟩ := hs
    subst h1
    exact Nat.le_refl _
  · simp only [Option.bind_eq_some, Option.map_eq_some', Prod.mk.injEq] at hs
    obtain ⟨v, _, a, ha, b, hb, c, hc, q, _, _, _, h1, _⟩ := hs
    subst h1
    rw [dtor_length hc, assign_move_length hb, ctor_args_length ha]
    omega

theorem write_inv {s s1 : Machine T} {h : Nat} {p : Ptr} (hI : Inv s)
    (hs : write s h = some (s1, p)) (hb : s1.handles.length + 1 < SIZE_MOD) :
    Inv s1 := by
  simp only [write, Option.bind_eq_some] at hs
  obtain ⟨u, _, hs⟩ := hs
  split at hs
  · simp only [Option.map_eq_some', Prod.mk.injEq] at hs
    obtain ⟨_, _, h1, _⟩ := hs
    subst h1
    exact hI
  · simp only [Option.bind_eq_some, Option.map_eq_some', Prod.mk.injEq] at hs
    obtain ⟨v, _, a, ha, b, hb1, c, hc, q, _, _, _, h1, _⟩ := hs
    subst h1
    have hla := ctor_args_length ha
    have hlb := assign_move_length hb1
    have hlc := dtor_length hc
    have h1 := ctor_args_inv hI ha
    have h2 := assign_move_inv h1 hb1 (by omega)
    exact dtor_inv h2 hc (by omega)

theorem set_value_inv {s : Machine T} {a : Nat} {m : model T} (v : T) (hI : Inv s)
    (hm : s.heap[a]? = some (some m)) :
    Inv { s with heap := s.heap.set a (some { m with mValue := v }) } := by
  have hlt := getElem?_lt hm
  constructor
  · exact hI.default_ref
  · intro b mb hb1
    simp only [List.getElem?_set] at hb1
    by_cases hab : a = b
    · subst hab
      simp only [if_true, hlt, Option.some.injEq] at hb1
      subst hb1
      exact hI.heap_ref a m hm
    · simp only [hab, if_false] at hb1
      exact hI.heap_ref b mb hb1
  · intro b hb1
    simp only [List.getElem?_set] at hb1
    by_cases hab : a = b
    · subst hab
      simp [hlt] at hb1
    · simp only [hab, if_false] at hb1
      exact hI.no_dangling b hb1
  · intro b
    rw [hI.deleted_iff b]
    simp only [List.getElem?_set]
    by_cases hab : a = b
    · subst hab
      simp [hlt, hm]
    · simp [hab]
  · exact hI.deleted_nodup

theorem write_assign_length {s s1 : Machine T} {h : Nat} {v : T}
    (hs : write_assign s h v = some s1) :
    s.handles.length ≤ s1.handles.length := by
  simp only [write_assign, Option.bind_eq_some] at hs
  obtain ⟨⟨r, p⟩, hr, hs⟩ := hs
  have hl := write_length hr
  cases p with
  | null => cases hs
  | default_s =>
    simp only [Option.some.injEq] at hs
    subst hs
    exact hl
  | heap a =>
    simp only at hs
    split at hs
    · simp only [Option.some.injEq] at hs
      subst hs
      exact hl
    · cases hs

theorem write_assign_inv {s s1 : Machine T} {h : Nat} {v : T} (hI : Inv s)
    (hs : write_assign s h v = some s1) (hb : s1.handles.length + 1 < SIZE_MOD) :
    Inv s1 := by
  simp only [write_assign, Option.bind_eq_some] at hs
  obtain ⟨⟨r, p⟩, hr, hs⟩ := hs
  cases p with
  | null => cases hs
  | default_s =>
    simp only [Option.some.injEq] at hs
    subst hs
    have h1 := write_inv hI hr hb
    exact ⟨h1.default_ref, h1.heap_ref, h1.no_dangling, h1.deleted_iff, h1.deleted_nodup⟩
  | heap a =>
    simp only at hs
    split at hs
    · rename_i m hm
      simp only [Option.some.injEq] at hs
      subst hs
      exact set_value_inv v (write_inv hI hr hb) hm
    · cases hs

theorem step_length {s s1 : Machine T} {op : Op T} (hs : step s op = some s1) :
    s.handles.length ≤ s1.handles.length := by
  cases op with
  | ctor_default => rw [ctor_default_length hs]; omega
  | ctor_args v => rw [ctor_args_length hs]; omega
  | ctor_copy x => rw [ctor_copy_length hs]; omega
  | ctor_move x => rw [ctor_move_length hs]; omega
  | assign_copy h x => rw [assign_copy_length hs]; omega
  | assign_move h x => rw [assign_move_length hs]; omega
  | write h =>
    simp only [step, Option.map_eq_some'] at hs
    obtain ⟨⟨r, p⟩, hr, h1⟩ := hs
    simp only at h1
    subst h1
    exact write_length hr
  | write_assign h v => exact write_assign_length hs
  | dtor h => rw [dtor_length hs]

theorem step_inv {s s1 : Machine T} {op : Op T} (hI : Inv s) (hs : step s op = some s1)
    (hb : s1.handles.length + 1 < SIZE_MOD) : Inv s1 := by
  cases op with
  | ctor_default =>
    have := ctor_default_length hs
    exact ctor_default_inv hI hs (by omega)
  | ctor_args v => exact ctor_args_inv hI hs
  | ctor_copy x =>
    have := ctor_copy_length hs
    exact ctor_copy_inv hI hs (by omega)
  | ctor_move x => exact ctor_move_inv hI hs
  | assign_copy h x => exact assign_copy_inv hI hs hb
  | assign_move h x => exact assign_move_inv hI hs hb
  | write h =>
    simp only [step, Option.map_eq_some'] at hs
    obtain ⟨⟨r, p⟩, hr, h1⟩ := hs
    simp only at h1
    subst h1
    exact write_inv hI hr hb
  | write_assign h v => exact write_assign_inv hI hs hb
  | dtor h =>
    have := dtor_length hs
    exact dtor_inv hI hs (by omega)

theorem run_length {s s1 : Machine T} {ops : List (Op T)} (hs : run s ops = some s1) :
    s.handles.length ≤ s1.handles.length := by
  induction ops generalizing s with
  | nil =>
    simp only [run, Option.some.injEq] at hs
    subst hs
    exact Nat.le_refl _
  | cons op ops ih =>
    simp only [run, Option.bind_eq_some] at hs
    obtain ⟨s0, h0, h1⟩ := hs
    exact Nat.le_trans (step_length h0) (ih h1)

theorem run_inv {s s1 : Machine T} {ops : List (Op T)} (hI : Inv s)
    (hs : run s ops = some s1) (hb : s1.handles.length + 1 < SIZE_MOD) : Inv s1 := by
  induction ops generalizing s with
  | nil =>
    simp only [run, Option.some.injEq] at hs
    subst hs
    exact hI
  | cons op ops ih =>
    simp only [run, Option.bind_eq_some] at hs
    obtain ⟨s0, h0, h1⟩ := hs
    have hl := run_length h1
    exact ih (step_inv hI h0 (by omega)) h1

theorem init_inv (d : T) : Inv (init d) := by
  constructor
  · simp [init, bound]
  · intro a m ha
    simp [init] at ha
  · intro a _
    simp [init, bound]
  · intro a
    simp [init]
  · simp [init]

/-! ### `write()` on a shared payload -/

theorem getElem?_app_lt {α : Type} (l r : List α) (i : Nat) (h : i < l.length) :
    (l ++ r)[i]? = l[i]? :=
  List.getElem?_append_left h

theorem getElem?_app_len {α : Type} (l r : List α) (x : α) :
    (l ++ x :: r)[l.length]? = some x := by
  rw [List.getElem?_append_right (Nat.le_refl _)]
  simp

theorem getElem?_app_len1 {α : Type} (l r : List α) (x y : α) :
    (l ++ x :: y :: r)[l.length + 1]? = some y := by
  rw [List.getElem?_append_right (by omega)]
  simp

theorem set_app_lt {α : Type} (l r : List α) (i : Nat) (y : α) (h : i < l.length) :
    (l ++ r).set i y = l.set i y ++ r := by
  rw [List.set_append]
  simp [h]

theorem set_app_len {α : Type} (l r : List α) (x y : α) :
    (l ++ x :: r).set l.length y = l ++ y :: r := by
  rw [List.set_append]
  simp

theorem set_app_len1 {α : Type} (l r : List α) (x y z : α) :
    (l ++ x :: z :: r).set (l.length + 1) y = l ++ x :: y :: r := by
  rw [List.set_append]
  simp

/-! ### What each primitive computes -/

theorem ctor_move_spec {s : Machine T} {x : Nat} {p : Ptr}
    (hx : s.handles[x]? = some (some p)) (hp : p ≠ Ptr.null) :
    ∃ s1, ctor_move s x = some s1 ∧
      s1.handles = s.handles.set x (some Ptr.null) ++ [some p] ∧
      s1.heap = s.heap ∧ s1.default_s = s.default_s ∧ s1.deleted = s.deleted := by
  refine ⟨{ s with handles := s.handles.set x (some Ptr.null) ++ [some p] }, ?_, rfl, rfl, rfl, rfl⟩
  unfold ctor_move
  rw [mModel_eq_some.mpr hx]
  cases p with
  | null => exact absurd rfl hp
  | default_s => rfl
  | heap a => rfl

theorem swap_spec {s : Machine T} {x y : Nat} {p q : Ptr}
    (hx : s.handles[x]? = some (some p)) (hy : s.handles[y]? = some (some q)) :
    ∃ s1, swap s x y = some s1 ∧
      s1.handles = (s.handles.set x (some q)).set y (some p) ∧
      s1.heap = s.heap ∧ s1.default_s = s.default_s ∧ s1.deleted = s.deleted := by
  refine ⟨{ s with handles := (s.handles.set x (some q)).set y (some p) }, ?_, rfl, rfl, rfl, rfl⟩
  unfold swap
  rw [mModel_eq_some.mpr hx, mModel_eq_some.mpr hy]

theorem dtor_null_spec {s : Machine T} {h : Nat}
    (hh : s.handles[h]? = some (some Ptr.null)) :
    ∃ s1, dtor s h = some s1 ∧ s1.handles = s.handles.set h none ∧
      s1.heap = s.heap ∧ s1.default_s = s.default_s ∧ s1.deleted = s.deleted := by
  refine ⟨{ s with handles := s.handles.set h none }, ?_, rfl, rfl, rfl, rfl⟩
  unfold dtor
  rw [mModel_eq_some.mpr hh]
  rfl

theorem dtor_shared_spec {s : Machine T} {h a : Nat} {m : model T}
    (hh : s.handles[h]? = some (some (Ptr.heap a)))
    (hm : s.heap[a]? = some (some m)) (h1 : 2 ≤ m.mRef) (h2 : m.mRef < SIZE_MOD) :
    ∃ s1, dtor s h = some s1 ∧ s1.handles = s.handles.set h none ∧
      s1.heap = s.heap.set a (some { m with mRef := m.mRef - 1 }) ∧
      s1.default_s = s.default_s ∧ s1.deleted = s.deleted := by
  have hkz : ¬ ((m.mRef + SIZE_MOD - 1) % SIZE_MOD = 0) := by
    simp only [SIZE_MOD] at h2 ⊢
    omega
  have hkv : (m.mRef + SIZE_MOD - 1) % SIZE_MOD = m.mRef - 1 := by
    simp only [SIZE_MOD] at h2 ⊢
    omega
  refine ⟨{ s with handles := s.handles.set h none,
                   heap := s.heap.set a (some { m with mRef := m.mRef - 1 }) },
    ?_, rfl, rfl, rfl, rfl⟩
  unfold dtor
  rw [mModel_eq_some.mpr hh]
  have hkz2 : ¬ (m.mRef - 1 = 0) := by omega
  simp only [release, hm, hkv, hkz2, if_false, Option.map_some']

/-! ### `write()` on a shared payload -/

theorem write_fork_aux (s : Machine T) (h a k : Nat) (v : T)
    (hh : s.handles[h]? = some (some (Ptr.heap a)))
    (ha : s.heap[a]? = some (some (model.mk k v)))
    (hk : 2 ≤ k) (hk2 : k < SIZE_MOD) :
    ∃ s1, write s h = some (s1, Ptr.heap s.heap.length) ∧
      s1.handles = s.handles.set h (some (Ptr.heap s.heap.length)) ++ [none, none] ∧
      s1.heap = s.heap.set a (some (model.mk (k - 1) v)) ++ [some (model.mk 1 v)] ∧
      s1.default_s = s.default_s ∧ s1.deleted = s.deleted := by
  have hlt := getElem?_lt hh
  have halt := getElem?_lt ha
  have hm : mModel s h = some (Ptr.heap a) := mModel_eq_some.mpr hh
  have hk1 : ¬ (k = 1) := by omega
  have hu : unique s h = some false := by
    simp [unique, hm, deref, ha, hk1]
  have hr : read s h = some v := by
    simp [read, hm, deref, ha]
  -- the temporary `vcow_ptr(read())`
  obtain ⟨sA, hA, hAh, hAp, hAd, hAx⟩ : ∃ sA, ctor_args s v = some sA ∧
      sA.handles = s.handles ++ [some (Ptr.heap s.heap.length)] ∧
      sA.heap = s.heap ++ [some (model.mk 1 v)] ∧
      sA.default_s = s.default_s ∧ sA.deleted = s.deleted :=
    ⟨_, rfl, rfl, rfl, rfl, rfl⟩
  have hAlen : sA.handles.length = s.handles.length + 1 := by simp [hAh]
  -- `auto tmp = move(x)`
  have hA1 : sA.handles[s.handles.length]? = some (some (Ptr.heap s.heap.length)) := by
    rw [hAh]
    exact getElem?_app_len _ _ _
  obtain ⟨sB, hB, hBh, hBp, hBd, hBx⟩ := ctor_move_spec hA1 (by simp)
  rw [hAh, set_app_len, List.append_assoc, List.singleton_append] at hBh
  -- `swap(*this, tmp)`
  have hB1 : sB.handles[h]? = some (some (Ptr.heap a)) := by
    rw [hBh, getElem?_app_lt _ _ _ hlt]
    exact hh
  have hB2 : sB.handles[s.handles.length + 1]? = some (some (Ptr.heap s.heap.length)) := by
    rw [hBh]
    exact getElem?_app_len1 _ _ _ _
  obtain ⟨sC, hC, hCh, hCp, hCd, hCx⟩ := swap_spec hB1 hB2
  have hlen2 : (s.handles.set h (some (Ptr.heap s.heap.length))).length = s.handles.length := by
    simp
  rw [hBh, set_app_lt _ _ _ _ hlt] at hCh
  nth_rewrite 1 [← hlen2] at hCh
  rw [set_app_len1] at hCh
  -- `tmp` is destroyed: it holds the original payload
  have hC1 : sC.handles[s.handles.length + 1]? = some (some (Ptr.heap a)) := by
    rw [hCh]
    nth_rewrite 1 [← hlen2]
    exact getElem?_app_len1 _ _ _ _
  have hC2 : sC.heap[a]? = some (some (model.mk k v)) := by
    rw [hCp, hBp, hAp, getElem?_app_lt _ _ _ halt]
    exact ha
  obtain ⟨sD, hD, hDh, hDp, hDd, hDx⟩ := dtor_shared_spec hC1 hC2 hk hk2
  rw [hCh] at hDh
  nth_rewrite 1 [← hlen2] at hDh
  rw [set_app_len1] at hDh
  rw [hCp, hBp, hAp, set_app_lt _ _ _ _ halt] at hDp
  -- the temporary `vcow_ptr(read())` is destroyed: it was moved from
  have hD1 : sD.handles[s.handles.length]? = some (some Ptr.null) := by
    rw [hDh]
    nth_rewrite 1 [← hlen2]
    exact getElem?_app_len _ _ _
  obtain ⟨sE, hE, hEh, hEp, hEd, hEx⟩ := dtor_null_spec hD1
  rw [hDh] at hEh
  nth_rewrite 1 [← hlen2] at hEh
  rw [set_app_len] at hEh
  rw [hDp] at hEp
  have hAM : assign_move sA h s.handles.length = some sD := by
    simp only [assign_move, hB, Option.some_bind, hAlen, hC, hD]
  have hE1 : mModel sE h = some (Ptr.heap s.heap.length) := by
    rw [mModel_eq_some, hEh, getElem?_app_lt _ _ _ (by simpa using hlt)]
    simp [List.getElem?_set, hlt]
  have hlen3 : (s.heap.set a (some (model.mk (k - 1) v))).length = s.heap.length := by
    simp
  have hE2 : deref sE (Ptr.heap s.heap.length) = some (model.mk 1 v) := by
    have : sE.heap[s.heap.length]? = some (some (model.mk 1 v)) := by
      rw [hEp]
      nth_rewrite 1 [← hlen3]
      exact getElem?_app_len _ _ _
    simp only [deref, this]
  refine ⟨sE, ?_, hEh, hEp, ?_, ?_⟩
  · simp only [write, hu, hr, Option.some_bind, Bool.false_eq_true, if_false, hA, hAM, hE,
      hE1, hE2, Option.map_some']
  · rw [hEd, hDd, hCd, hBd, hAd]
  · rw [hEx, hDx, hCx, hBx, hAx]

/-! ### Heap size -/

theorem incRef_heap_length {s s1 : Machine T} {p : Ptr} (hs : incRef s p = some s1) :
    s1.heap.length = s.heap.length := by
  cases p with
  | null => simp [incRef] at hs
  | default_s =>
    simp only [incRef, Option.some.injEq] at hs
    subst hs
    rfl
  | heap a =>
    simp only [incRef] at hs
    split at hs
    · simp only [Option.some.injEq] at hs
      subst hs
      simp
    · cases hs

theorem release_heap_length {s s1 : Machine T} {p : Ptr} (hs : release s p = some s1) :
    s1.heap.length = s.heap.length := by
  cases p with
  | null =>
    simp only [release, Option.some.injEq] at hs
    subst hs
    rfl
  | default_s =>
    simp only [release] at hs
    split at hs
    · cases hs
    · simp only [Option.some.injEq] at hs
      subst hs
      rfl
  | heap a =>
    simp only [release] at hs
    split at hs
    · split at hs
      · simp only [Option.some.injEq] at hs
        subst hs
        simp
      · simp only [Option.some.injEq] at hs
        subst hs
        simp
    · cases hs

theorem dtor_heap_length {s s1 : Machine T} {h : Nat} (hs : dtor s h = some s1) :
    s1.heap.length = s.heap.length := by
  unfold dtor at hs
  split at hs
  · cases hs
  · simp only [Option.map_eq_some'] at hs
    obtain ⟨s0, h0, h1⟩ := hs
    subst h1
    exact (release_heap_length h0 : s0.heap.length = s.heap.length)

theorem ctor_copy_heap_length {s s1 : Machine T} {x : Nat} (hs : ctor_copy s x = some s1) :
    s1.heap.length = s.heap.length := by
  unfold ctor_copy at hs
  split at hs
  · cases hs
  · cases hs
  · simp only [Option.map_eq_some'] at hs
    obtain ⟨s0, h0, h1⟩ := hs
    subst h1
    exact (incRef_heap_length h0 : s0.heap.length = s.heap.length)

theorem ctor_move_heap_length {s s1 : Machine T} {x : Nat} (hs : ctor_move s x = some s1) :
    s1.heap.length = s.heap.length := by
  unfold ctor_move at hs
  split at hs
  · cases hs
  · cases hs
  · simp only [Option.some.injEq] at hs
    subst hs
    rfl

theorem swap_heap_length {s s1 : Machine T} {x y : Nat} (hs : swap s x y = some s1) :
    s1.heap.length = s.heap.length := by
  unfold swap at hs
  split at hs
  · simp only [Option.some.injEq] at hs
    subst hs
    rfl
  · cases hs

theorem assign_move_heap_length {s s1 : Machine T} {h x : Nat}
    (hs : assign_move s h x = some s1) : s1.heap.length = s.heap.length := by
  simp only [assign_move, Option.bind_eq_some] at hs
  obtain ⟨a, ha, b, hb, hc⟩ := hs
  rw [dtor_heap_length hc, swap_heap_length hb, ctor_move_heap_length ha]

theorem write_heap_length {s s1 : Machine T} {h : Nat} {p : Ptr}
    (hs : write s h = some (s1, p)) : s.heap.length ≤ s1.heap.length := by
  simp only [write, Option.bind_eq_some] at hs
  obtain ⟨u, _, hs⟩ := hs
  split at hs
  · simp only [Option.map_eq_some', Prod.mk.injEq] at hs
    obtain ⟨_, _, h1, _⟩ := hs
    subst h1
    exact Nat.le_refl _
  · simp only [Option.bind_eq_some, Option.map_eq_some', Prod.mk.injEq] at hs
    obtain ⟨v, _, a, ha, b, hb, c, hc, q, _, _, _, h1, _⟩ := hs
    subst h1
    rw [dtor_heap_length hc, assign_move_heap_length hb]
    simp only [ctor_args, Option.some.injEq] at ha
    subst ha
    simp

theorem step_heap_length {s s1 : Machine T} {op : Op T} (hs : step s op = some s1) :
    s.heap.length ≤ s1.heap.length := by
  cases op with
  | ctor_default =>
    simp only [step, ctor_default, Option.map_eq_some'] at hs
    obtain ⟨s0, h0, h1⟩ := hs
    subst h1
    exact Nat.le_of_eq (incRef_heap_length h0 : s0.heap.length = s.heap.length).symm
  | ctor_args v =>
    simp only [step, ctor_args, Option.some.injEq] at hs
    subst hs
    simp
  | ctor_copy x => exact Nat.le_of_eq (ctor_copy_heap_length hs).symm
  | ctor_move x => exact Nat.le_of_eq (ctor_move_heap_length hs).symm
  | assign_copy h x =>
    simp only [step, assign_copy, Option.bind_eq_some] at hs
    obtain ⟨a, ha, b, hb, hc⟩ := hs
    rw [dtor_heap_length hc, assign_move_heap_length hb, ctor_copy_heap_length ha]
  | assign_move h x => exact Nat.le_of_eq (assign_move_heap_length hs).symm
  | write h =>
    simp only [step, Option.map_eq_some'] at hs
    obtain ⟨⟨r, p⟩, hr, h1⟩ := hs
    simp only at h1
    subst h1
    exact write_heap_length hr
  | write_assign h v =>
    simp only [step, write_assign, Option.bind_eq_some] at hs
    obtain ⟨⟨r, p⟩, hr, hs⟩ := hs
    have hl := write_heap_length hr
    cases p with
    | null => cases hs
    | default_s =>
      simp only [Option.some.injEq] at hs
      subst hs
      exact hl
    | heap a =>
      simp only at hs
      split at hs
      · simp only [Option.some.injEq] at hs
        subst hs
        simpa using hl
      · cases hs
  | dtor h => exact Nat.le_of_eq (dtor_heap_length hs).symm

/-! ### The claims on the copy-on-write handle -/

/-- C1 (copy-on-write fork). Let handle `h` be bound to the heap payload `a`
whose value is `v` and whose counter is `k` with `2 ≤ k` (a `size_t`). Then
`write()` on `h` returns, and afterwards `h` is bound to a payload at an address
that held nothing before and differs from `a`; `read()` on `h` gives `v` and
`refCount()` gives 1; the original payload still holds `v` with counter `k - 1`;
every other handle has the binding it had before, and those bound to `a` read `v`
and report `k - 1`. -/
theorem C1_write_forks_shared_payload (s : Machine T) (h a k : Nat) (v : T)
    (hh : mModel s h = some (Ptr.heap a))
    (ha : s.heap[a]? = some (some (model.mk k v)))
    (hk : 2 ≤ k) (hk2 : k < SIZE_MOD) :
    ∃ s1, write s h = some (s1, Ptr.heap s.heap.length) ∧
      s.heap[s.heap.length]? = none ∧ s.heap.length ≠ a ∧
      mModel s1 h = some (Ptr.heap s.heap.length) ∧
      read s1 h = some v ∧ refCount s1 h = some 1 ∧
      s1.heap[a]? = some (some (model.mk (k - 1) v)) ∧
      (∀ h1, h1 ≠ h → h1 < s.handles.length → s1.handles[h1]? = s.handles[h1]?) ∧
      (∀ h1, h1 ≠ h → mModel s h1 = some (Ptr.heap a) →
        mModel s1 h1 = some (Ptr.heap a) ∧ refCount s1 h1 = some (k - 1) ∧
        read s1 h1 = some v) := by
  have hh0 := mModel_eq_some.mp hh
  have hlt := getElem?_lt hh0
  have halt := getElem?_lt ha
  obtain ⟨s1, hw, hH, hP, _, _⟩ := write_fork_aux s h a k v hh0 ha hk hk2
  have hlen3 : (s.heap.set a (some (model.mk (k - 1) v))).length = s.heap.length := by
    simp
  have hnew : s1.heap[s.heap.length]? = some (some (model.mk 1 v)) := by
    rw [hP]
    nth_rewrite 1 [← hlen3]
    exact getElem?_app_len _ _ _
  have hold : s1.heap[a]? = some (some (model.mk (k - 1) v)) := by
    rw [hP, getElem?_app_lt _ _ _ (by simpa using halt)]
    simp [List.getElem?_set, halt]
  have hmh : mModel s1 h = some (Ptr.heap s.heap.length) := by
    rw [mModel_eq_some, hH, getElem?_app_lt _ _ _ (by simpa using hlt)]
    simp [List.getElem?_set, hlt]
  have hother : ∀ h1, h1 ≠ h → h1 < s.handles.length →
      s1.handles[h1]? = s.handles[h1]? := by
    intro h1 hne h1lt
    rw [hH, getElem?_app_lt _ _ _ (by simpa using h1lt)]
    have : ¬ (h = h1) := fun e => hne e.symm
    simp [List.getElem?_set, this]
  refine ⟨s1, hw, ?_, ?_, hmh, ?_, ?_, hold, hother, ?_⟩
  · exact List.getElem?_eq_none (Nat.le_refl _)
  · omega
  · simp only [read, hmh, Option.some_bind, deref, hnew, Option.map_some']
  · simp only [refCount, hmh, Option.some_bind, deref, hnew, Option.map_some']
  · intro h1 hne hb
    have hb0 := mModel_eq_some.mp hb
    have hm1 : mModel s1 h1 = some (Ptr.heap a) := by
      rw [mModel_eq_some, hother h1 hne (getElem?_lt hb0)]
      exact hb0
    refine ⟨hm1, ?_, ?_⟩
    · simp only [refCount, hm1, Option.some_bind, deref, hold, Option.map_some']
    · simp only [read, hm1, Option.some_bind, deref, hold, Option.map_some']

/-- C1 at `A(7)`, `B(A)`: both handles report 2; `B.write()` binds `B` to the new
payload 1 with value 7 and count 1, and `A` still reads 7 and reports 1. -/
theorem C1_write_forks_shared_payload_witness :
    run (init 0) [Op.ctor_args 7, Op.ctor_copy 0] = some example_AB ∧
    refCount example_AB 0 = some 2 ∧ refCount example_AB 1 = some 2 ∧
    ∃ s1, write example_AB 1 = some (s1, Ptr.heap 1) ∧
      example_AB.heap[1]? = none ∧ 1 ≠ 0 ∧
      mModel s1 1 = some (Ptr.heap 1) ∧
      read s1 1 = some 7 ∧ refCount s1 1 = some 1 ∧
      s1.heap[0]? = some (some (model.mk 1 7)) ∧
      (∀ h1, h1 ≠ 1 → h1 < 2 → s1.handles[h1]? = example_AB.handles[h1]?) ∧
      (∀ h1, h1 ≠ 1 → mModel example_AB h1 = some (Ptr.heap 0) →
        mModel s1 h1 = some (Ptr.heap 0) ∧ refCount s1 h1 = some 1 ∧
        read s1 h1 = some 7) :=
  ⟨by decide, by decide, by decide,
    C1_write_forks_shared_payload example_AB 1 0 2 7 (by decide) (by decide) (by decide)
      (by decide)⟩

/-- C2 (reference-count invariant of the hand-rolled handle). Run any sequence
`ops` of constructions (default, parameterized, copy, move), assignments (copy,
move), `write()` calls, assignments through `write()` and destructions from the
initial state, then one more operation `op`, the whole run creating fewer than
`2^64 - 1` handle objects. In the state reached: the counter of each live heap
payload equals the number of live handles bound to it; an allocated payload is in
the `delete` log exactly when no live handle is bound to it; the log holds exactly
the dead payloads, each once; and a payload that existed before `op` enters the
log during `op` exactly when `op` takes its number of handles from at least one
to zero. -/
theorem C2_refcount_invariant (d : T) (ops : List (Op T)) (op : Op T) (s s1 : Machine T)
    (hrun : run (init d) ops = some s) (hstep : step s op = some s1)
    (hsize : s1.handles.length + 1 < SIZE_MOD) :
    (∀ a m, s1.heap[a]? = some (some m) → m.mRef = bound s1 (Ptr.heap a)) ∧
    (∀ a, a < s1.heap.length → (a ∈ s1.deleted ↔ bound s1 (Ptr.heap a) = 0)) ∧
    (∀ a, a ∈ s1.deleted ↔ s1.heap[a]? = some none) ∧
    s1.deleted.Nodup ∧
    (∀ a, a < s.heap.length →
      ((a ∈ s1.deleted ∧ a ∉ s.deleted) ↔
        (1 ≤ bound s (Ptr.heap a) ∧ bound s1 (Ptr.heap a) = 0))) := by
  have hl := step_length hstep
  have hI : Inv s := run_inv (init_inv d) hrun (by omega)
  have hI1 : Inv s1 := step_inv hI hstep hsize
  have key : ∀ (t : Machine T), Inv t → ∀ a, a < t.heap.length →
      (a ∈ t.deleted ↔ bound t (Ptr.heap a) = 0) := by
    intro t ht a halt
    constructor
    · intro hmem
      apply ht.no_dangling
      intro m hm
      rw [(ht.deleted_iff a).mp hmem] at hm
      simp at hm
    · intro hz
      rw [ht.deleted_iff a]
      have hget : t.heap[a]? = some (t.heap[a]) := List.getElem?_eq_getElem halt
      cases hc : t.heap[a] with
      | none =>
        rw [hget, hc]
      | some m =>
        rw [hc] at hget
        have := (ht.heap_ref a m hget).2
        omega
  refine ⟨fun a m hm => (hI1.heap_ref a m hm).1, key s1 hI1, hI1.deleted_iff,
    hI1.deleted_nodup, ?_⟩
  intro a halt
  have hl2 := step_heap_length hstep
  have k0 := key s hI a halt
  have k1 := key s1 hI1 a (by omega)
  constructor
  · rintro ⟨h1, h2⟩
    refine ⟨?_, k1.mp h1⟩
    by_contra hc
    exact h2 (k0.mpr (by omega))
  · rintro ⟨h1, h2⟩
    refine ⟨k1.mpr h2, ?_⟩
    intro hmem
    have := k0.mp hmem
    omega

/-- C2 at `A(7); B(A); B.write(); ~A();` followed by `~B()`: the last payload is
deleted in the step that drops its only handle. -/
theorem C2_refcount_invariant_witness :
    run (init 0) [Op.ctor_args 7, Op.ctor_copy 0, Op.write 1, Op.dtor 0]
      = some example_B_alone ∧
    step example_B_alone (Op.dtor 1) = some example_all_gone ∧
    (∀ a m, example_all_gone.heap[a]? = some (some m) →
      m.mRef = bound example_all_gone (Ptr.heap a)) ∧
    (∀ a, a < example_all_gone.heap.length →
      (a ∈ example_all_gone.deleted ↔ bound example_all_gone (Ptr.heap a) = 0)) ∧
    (∀ a, a ∈ example_all_gone.deleted ↔ example_all_gone.heap[a]? = some none) ∧
    example_all_gone.deleted.Nodup ∧
    (∀ a, a < example_B_alone.heap.length →
      ((a ∈ example_all_gone.deleted ∧ a ∉ example_B_alone.deleted) ↔
        (1 ≤ bound example_B_alone (Ptr.heap a) ∧
          bound example_all_gone (Ptr.heap a) = 0))) :=
  ⟨by decide, by decide,
    C2_refcount_invariant 0 [Op.ctor_args 7, Op.ctor_copy 0, Op.write 1, Op.dtor 0]
      (Op.dtor 1) example_B_alone example_all_gone (by decide) (by decide) (by decide)⟩

/-- C3 (in-place write on a unique handle). If `refCount()` of handle `h` is 1,
`write()` on `h` returns the view of the payload `h` is bound to and leaves the
whole state as it was: no payload is created, `h` keeps its payload, the value
and the counter of that payload and of every other payload are unchanged. This
holds for the hand-rolled handle and for the `shared_ptr` variant. -/
theorem C3_write_unique_in_place (s : Machine T) (h : Nat)
    (hu : refCount s h = some 1) :
    (∃ p, mModel s h = some p ∧ write s h = some (s, p)) ∧
    ((default_allocator.refCount s h = some 1) ∧
      ∃ p, mModel s h = some p ∧ default_allocator.write s h = some (s, p)) := by
  simp only [refCount, Option.bind_eq_some, Option.map_eq_some'] at hu
  obtain ⟨p, hp, m, hm, h1⟩ := hu
  have hun : unique s h = some true := by
    simp [unique, hp, hm, h1]
  have hun2 : default_allocator.unique s h = some true := by
    simp [default_allocator.unique, hp, hm, h1]
  refine ⟨⟨p, hp, ?_⟩, ?_, ⟨p, hp, ?_⟩⟩
  · simp [write, hun, hp]
  · simp [default_allocator.refCount, hp, hm, h1]
  · simp [default_allocator.write, hun2, hp]

/-- C3 at handle `B` of `example_B_alone`, the only handle of payload 1. -/
theorem C3_write_unique_in_place_witness :
    refCount example_B_alone 1 = some 1 ∧
    (∃ p, mModel example_B_alone 1 = some p ∧
      write example_B_alone 1 = some (example_B_alone, p)) ∧
    ((default_allocator.refCount example_B_alone 1 = some 1) ∧
      ∃ p, mModel example_B_alone 1 = some p ∧
        default_allocator.write example_B_alone 1 = some (example_B_alone, p)) :=
  ⟨by decide, C3_write_unique_in_place example_B_alone 1 (by decide)⟩

end vcow_ptr

/-! ## Part 2: theorems on `arena` -/

namespace arena

/-! ### `align_up` on a power-of-two alignment -/

theorem two_pow_lt_size_mod {j : Nat} (hj : j < 64) : 2 ^ j < SIZE_MOD := by
  have h : (2 : Nat) ^ j < 2 ^ 64 := Nat.pow_lt_pow_right (by decide) hj
  simpa [SIZE_MOD] using h

theorem and_not_mask (x j : Nat) (hj : j < 64) (hx : x < 2 ^ 64) :
    x &&& (2 ^ 64 - ((2 ^ j - 1) + 1)) = 2 ^ j * (x / 2 ^ j) := by
  have hy : 2 ^ j - 1 < 2 ^ 64 := by
    have h : (2 : Nat) ^ j < 2 ^ 64 := Nat.pow_lt_pow_right (by decide) hj
    omega
  apply Nat.eq_of_testBit_eq
  intro i
  rw [Nat.testBit_and, Nat.testBit_two_pow_sub_succ hy, Nat.testBit_two_pow_sub_one,
    Nat.testBit_mul_pow_two, ← Nat.shiftRight_eq_div_pow, Nat.testBit_shiftRight]
  by_cases h1 : j ≤ i
  · have h2 : j + (i - j) = i := by omega
    have h3 : ¬ (i < j) := by omega
    by_cases h4 : i < 64
    · simp [h1, h2, h3, h4]
    · have h5 : x.testBit i = false := by
        apply Nat.testBit_lt_two_pow
        have : (2 : Nat) ^ 64 ≤ 2 ^ i := Nat.pow_le_pow_right (by decide) (by omega)
        omega
      simp [h1, h2, h5]
  · have h3 : i < j := by omega
    simp [h1, h3]

theorem align_up_eq (a : arena) (j n : Nat) (hj : j < 64) (hal : a.alignment = 2 ^ j)
    (hn : n + (a.alignment - 1) < SIZE_MOD) :
    align_up a n = aligned_size a.alignment n := by
  have hpos : 0 < 2 ^ j := Nat.two_pow_pos j
  have hlt := two_pow_lt_size_mod hj
  have hn2 : n + (2 ^ j - 1) < SIZE_MOD := by
    rw [hal] at hn
    exact hn
  have e1 : (2 ^ j + SIZE_MOD - 1) % SIZE_MOD = 2 ^ j - 1 := by
    simp only [SIZE_MOD] at hlt ⊢
    omega
  have e2 : (n + (2 ^ j - 1)) % SIZE_MOD = n + (2 ^ j - 1) := Nat.mod_eq_of_lt hn2
  have e3 : SIZE_MOD - 1 - (2 ^ j - 1) = 2 ^ 64 - ((2 ^ j - 1) + 1) := by
    simp only [SIZE_MOD]
    omega
  have e4 : n + 2 ^ j - 1 = n + (2 ^ j - 1) := by omega
  unfold align_up aligned_size
  rw [hal, e1, e2, e3, e4]
  exact and_not_mask _ j hj (by simpa [SIZE_MOD] using hn2)

theorem le_aligned_size (al n : Nat) (hal : 0 < al) : n ≤ aligned_size al n := by
  unfold aligned_size
  have h1 := Nat.div_add_mod (n + al - 1) al
  have h2 := Nat.mod_lt (n + al - 1) hal
  omega

theorem dvd_aligned_size (al n : Nat) : al ∣ aligned_size al n :=
  Dvd.intro _ rfl

theorem aligned_size_le_of_dvd (al n R : Nat) (hal : 0 < al) (hR : al ∣ R) (hn : n ≤ R) :
    aligned_size al n ≤ R := by
  obtain ⟨c, hc⟩ := hR
  subst hc
  unfold aligned_size
  apply Nat.mul_le_mul_left
  apply Nat.le_of_lt_succ
  rw [Nat.div_lt_iff_lt_mul hal]
  have : c.succ * al = al * c + al := by rw [Nat.succ_mul, Nat.mul_comm]
  omega

theorem no_wrap_of_aligned_size_lt (j n : Nat) (hj : j < 64)
    (h : aligned_size (2 ^ j) n < SIZE_MOD) : n + (2 ^ j - 1) < SIZE_MOD := by
  have hpos : 0 < 2 ^ j := Nat.two_pow_pos j
  have hle := le_aligned_size (2 ^ j) n hpos
  have hsplit : SIZE_MOD = 2 ^ j * 2 ^ (64 - j) := by
    rw [← Nat.pow_add]
    have : j + (64 - j) = 64 := by omega
    rw [this]
  unfold aligned_size at h hle
  rw [hsplit] at h ⊢
  have hc : (n + 2 ^ j - 1) / 2 ^ j < 2 ^ (64 - j) := Nat.lt_of_mul_lt_mul_left h
  have h2 : 2 ^ j * ((n + 2 ^ j - 1) / 2 ^ j + 1) ≤ 2 ^ j * 2 ^ (64 - j) :=
    Nat.mul_le_mul_left _ hc
  rw [Nat.mul_add, Nat.mul_one] at h2
  omega

/-! ### The offsets of a run of allocations -/

theorem offsets_length (al o : Nat) (ns : List Nat) :
    (offsets al o ns).length = ns.length := by
  induction ns generalizing o with
  | nil => rfl
  | cons n ns ih => simp [offsets, ih]

theorem offsets_ge (al o : Nat) (ns : List Nat) (k x : Nat)
    (h : (offsets al o ns)[k]? = some x) : o ≤ x := by
  induction ns generalizing o k with
  | nil => simp [offsets] at h
  | cons n ns ih =>
    cases k with
    | zero =>
      simp only [offsets, List.getElem?_cons_zero, Option.some.injEq] at h
      omega
    | succ k =>
      simp only [offsets, List.getElem?_cons_succ] at h
      have := ih _ _ h
      omega

theorem offsets_dvd (al o : Nat) (ns : List Nat) (k x : Nat) (ho : al ∣ o)
    (h : (offsets al o ns)[k]? = some x) : al ∣ x := by
  induction ns generalizing o k with
  | nil => simp [offsets] at h
  | cons n ns ih =>
    cases k with
    | zero =>
      simp only [offsets, List.getElem?_cons_zero, Option.some.injEq] at h
      subst h
      exact ho
    | succ k =>
      simp only [offsets, List.getElem?_cons_succ] at h
      exact ih _ _ (Nat.dvd_add ho (dvd_aligned_size al n)) h

theorem offsets_end (al o : Nat) (ns : List Nat) (i x n : Nat)
    (h : (offsets al o ns)[i]? = some x) (hn : ns[i]? = some n) :
    x + aligned_size al n ≤ o + (ns.map (aligned_size al)).sum := by
  induction ns generalizing o i with
  | nil => simp [offsets] at h
  | cons m ns ih =>
    cases i with
    | zero =>
      simp only [offsets, List.getElem?_cons_zero, Option.some.injEq] at h hn
      subst h
      subst hn
      simp only [List.map_cons, List.sum_cons]
      omega
    | succ i =>
      simp only [offsets, List.getElem?_cons_succ] at h hn
      have := ih _ _ h hn
      simp only [List.map_cons, List.sum_cons]
      omega

theorem offsets_sep (al o : Nat) (ns : List Nat) (i k x n x2 : Nat) (hik : i < k)
    (h : (offsets al o ns)[i]? = some x) (hn : ns[i]? = some n)
    (h2 : (offsets al o ns)[k]? = some x2) : x + aligned_size al n ≤ x2 := by
  induction ns generalizing o i k with
  | nil => simp [offsets] at h
  | cons m ns ih =>
    cases k with
    | zero => omega
    | succ k =>
      simp only [offsets, List.getElem?_cons_succ] at h2
      cases i with
      | zero =>
        simp only [offsets, List.getElem?_cons_zero, Option.some.injEq] at h hn
        subst h
        subst hn
        exact offsets_ge _ _ _ _ _ h2
      | succ i =>
        simp only [offsets, List.getElem?_cons_succ] at h hn
        exact ih _ _ _ (by omega) h hn h2

/-! ### `allocate` within capacity -/

theorem allocate_fits (a : arena) (j n o : Nat) (hj : j < 64) (hal : a.alignment = 2 ^ j)
    (hN : a.N < SIZE_MOD) (hptr : a.ptr_ = a.buf_ + o)
    (hfit : o + aligned_size a.alignment n ≤ a.N) :
    allocate a n = some (Block.buffer (a.buf_ + o),
      { a with ptr_ := a.buf_ + (o + aligned_size a.alignment n) }) := by
  have hw : n + (a.alignment - 1) < SIZE_MOD := by
    rw [hal]
    apply no_wrap_of_aligned_size_lt j n hj
    rw [← hal]
    omega
  have hal2 := align_up_eq a j n hj hal hw
  have hin : pointer_in_buffer a a.ptr_ = true := by
    simp only [pointer_in_buffer, hptr, Bool.and_eq_true, decide_eq_true_eq]
    omega
  have hcap : align_up a n ≤ a.buf_ + a.N - a.ptr_ := by
    rw [hal2, hptr]
    omega
  simp only [allocate, hin, if_true, hcap]
  rw [hal2, hptr, Nat.add_assoc]

theorem allocate_all_fits (a : arena) (j o : Nat) (ns : List Nat) (hj : j < 64)
    (hal : a.alignment = 2 ^ j) (hN : a.N < SIZE_MOD) (hptr : a.ptr_ = a.buf_ + o)
    (hsum : o + (ns.map (aligned_size a.alignment)).sum ≤ a.N) :
    allocate_all a ns = some ((offsets a.alignment o ns).map (fun x => Block.buffer (a.buf_ + x)),
      { a with ptr_ := a.buf_ + (o + (ns.map (aligned_size a.alignment)).sum) }) := by
  induction ns generalizing a o with
  | nil =>
    simp only [allocate_all, offsets, List.map_nil, List.sum_nil, Nat.add_zero, ← hptr]
  | cons n ns ih =>
    simp only [List.map_cons, List.sum_cons] at hsum
    have h1 := allocate_fits a j n o hj hal hN hptr (by omega)
    have h2 := ih { a with ptr_ := a.buf_ + (o + aligned_size a.alignment n) }
      (o + aligned_size a.alignment n) hal hN rfl (by simpa [Nat.add_assoc] using hsum)
    simp only [allocate_all, h1, Option.some_bind, h2, Option.map_some', offsets,
      List.map_cons, List.sum_cons, Nat.add_assoc]

/-! ### Reachable arena states -/

theorem align_up_dvd (a : arena) (j n : Nat) (hj : j < 64) (hal : a.alignment = 2 ^ j) :
    2 ^ j ∣ align_up a n := by
  have hlt := two_pow_lt_size_mod hj
  have hpos : 0 < 2 ^ j := Nat.two_pow_pos j
  have e1 : (2 ^ j + SIZE_MOD - 1) % SIZE_MOD = 2 ^ j - 1 := by
    simp only [SIZE_MOD] at hlt ⊢
    omega
  have e3 : SIZE_MOD - 1 - (2 ^ j - 1) = 2 ^ 64 - ((2 ^ j - 1) + 1) := by
    simp only [SIZE_MOD]
    omega
  have hx : (n + (2 ^ j - 1)) % SIZE_MOD < 2 ^ 64 := by
    have := Nat.mod_lt (n + (2 ^ j - 1)) (by decide : 0 < SIZE_MOD)
    simpa [SIZE_MOD] using this
  unfold align_up
  rw [hal, e1, e3, and_not_mask _ j hj hx]
  exact Dvd.intro _ rfl

theorem allocate_cases (a : arena) (n : Nat) (b : Block) (a1 : arena)
    (hs : allocate a n = some (b, a1)) :
    pointer_in_buffer a a.ptr_ = true ∧
    ((align_up a n ≤ a.buf_ + a.N - a.ptr_ ∧ b = Block.buffer a.ptr_ ∧
        a1 = { a with ptr_ := a.ptr_ + align_up a n }) ∨
     (¬ (align_up a n ≤ a.buf_ + a.N - a.ptr_) ∧ b = Block.operator_new n ∧ a1 = a)) := by
  unfold allocate at hs
  split at hs
  · rename_i hin
    refine ⟨hin, ?_⟩
    split at hs
    · rename_i hc
      simp only [Option.some.injEq, Prod.mk.injEq] at hs
      exact Or.inl ⟨hc, hs.1.symm, hs.2.symm⟩
    · rename_i hc
      simp only [Option.some.injEq, Prod.mk.injEq] at hs
      exact Or.inr ⟨hc, hs.1.symm, hs.2.symm⟩
  · cases hs

theorem reachable_good (N j buf : Nat) (hj : j < 64) (a : arena) (ps : List Nat)
    (h : Reachable N (2 ^ j) buf a ps) : Good N j buf a ps := by
  induction h with
  | construct hsp =>
    exact ⟨rfl, rfl, rfl, hsp, Nat.le_refl _, Nat.le_add_right _ _,
      by simp [construct], by simp⟩
  | allocate_buffer h hs ih =>
    rename_i a a1 ps n r
    obtain ⟨_, hc⟩ := allocate_cases a n _ a1 hs
    rcases hc with ⟨hcap, hb, ha1⟩ | ⟨_, hb, _⟩
    · simp only [Block.buffer.injEq] at hb
      subst ha1
      have hd := align_up_dvd a j n hj ih.hal
      have e1 := ih.hN
      have e2 := ih.hbuf
      have e3 := ih.hlo
      have e4 := ih.hhi
      refine ⟨ih.hN, ih.hal, ih.hbuf, ih.hspace, ?_, ?_, ?_, ?_⟩
      · show buf ≤ a.ptr_ + align_up a n
        omega
      · show a.ptr_ + align_up a n ≤ buf + N
        omega
      · show 2 ^ j ∣ a.ptr_ + align_up a n - buf
        have : a.ptr_ + align_up a n - buf = (a.ptr_ - buf) + align_up a n := by omega
        rw [this]
        exact Nat.dvd_add ih.haligned hd
      · intro p hp
        rcases List.mem_cons.mp hp with hp1 | hp1
        · subst hp1
          subst hb
          exact ⟨ih.hlo, ih.hhi, ih.haligned⟩
        · exact ih.hps p hp1
    · cases hb
  | allocate_new h hs ih =>
    rename_i a a1 ps n
    obtain ⟨_, hc⟩ := allocate_cases a n _ a1 hs
    rcases hc with ⟨_, hb, _⟩ | ⟨_, _, ha1⟩
    · cases hb
    · subst ha1
      exact ih
  | deallocate h hp hs ih =>
    rename_i a a1 ps p n
    unfold arena.deallocate at hs
    split at hs
    · split at hs
      · rename_i hin
        split at hs
        · simp only [Option.some.injEq] at hs
          subst hs
          rcases hp with hp | hp
          · obtain ⟨q1, q2, q3⟩ := ih.hps p hp
            exact ⟨ih.hN, ih.hal, ih.hbuf, ih.hspace, q1, q2, q3, ih.hps⟩
          · rw [hp] at hin
            cases hin
        · simp only [Option.some.injEq] at hs
          subst hs
          exact ih
      · simp only [Option.some.injEq] at hs
        subst hs
        exact ih
    · cases hs
  | reset h ih =>
    rename_i a ps
    refine ⟨ih.hN, ih.hal, ih.hbuf, ih.hspace, ?_, ?_, ?_, ih.hps⟩
    · show buf ≤ a.buf_
      rw [ih.hbuf]
    · show a.buf_ ≤ buf + N
      rw [ih.hbuf]
      omega
    · show 2 ^ j ∣ a.buf_ - buf
      rw [ih.hbuf]
      simp

/-! ### The claims on the arena -/

/-- C4 (arena allocation sequence). On a fresh arena of `N` bytes (`N` a
`size_t`) with alignment `2^j`, `j < 64`, for sizes `ns` whose aligned-up sizes
sum to at most `N`, the successive `allocate` calls all return, each from the
buffer, at the offsets `offsets (2^j) 0 ns`, one per call. Each offset is a
multiple of the alignment, its region of `n` bytes ends inside the buffer, and
every later offset is not smaller, is larger when `n` is not zero, and lies at or
after the end of that region, so regions are pairwise disjoint. -/
theorem C4_allocation_sequence (N j buf : Nat) (ns : List Nat) (hj : j < 64)
    (hN : N < SIZE_MOD) (hsum : (ns.map (aligned_size (2 ^ j))).sum ≤ N) :
    (∃ a1, allocate_all (construct N (2 ^ j) buf) ns
        = some ((offsets (2 ^ j) 0 ns).map (fun o => Block.buffer (buf + o)), a1)) ∧
    (offsets (2 ^ j) 0 ns).length = ns.length ∧
    ∀ (i o n : Nat), (offsets (2 ^ j) 0 ns)[i]? = some o → ns[i]? = some n →
      2 ^ j ∣ o ∧ o + n ≤ N ∧
      ∀ (k o2 : Nat), i < k → (offsets (2 ^ j) 0 ns)[k]? = some o2 →
        o ≤ o2 ∧ (0 < n → o < o2) ∧ o + n ≤ o2 := by
  have hrun := allocate_all_fits (construct N (2 ^ j) buf) j 0 ns hj rfl hN rfl
    (by simpa [construct] using hsum)
  refine ⟨⟨_, hrun⟩, offsets_length _ _ _, ?_⟩
  intro i o n ho hn
  have hpos : 0 < 2 ^ j := Nat.two_pow_pos j
  have hle := le_aligned_size (2 ^ j) n hpos
  have hend := offsets_end (2 ^ j) 0 ns i o n ho hn
  refine ⟨offsets_dvd _ _ _ _ _ (Nat.dvd_zero _) ho, by omega, ?_⟩
  intro k o2 hik ho2
  have hsep := offsets_sep (2 ^ j) 0 ns i k o n o2 hik ho hn ho2
  refine ⟨by omega, fun _ => by omega, by omega⟩

/-- C4 on a 64-byte arena with alignment 16 at address 4096, sizes 1, 16, 0, 17:
the blocks lie at offsets 0, 16, 32, 32. -/
theorem C4_allocation_sequence_witness :
    (([1, 16, 0, 17] : List Nat).map (aligned_size (2 ^ 4))).sum ≤ 64 ∧
    offsets (2 ^ 4) 0 [1, 16, 0, 17] = [0, 16, 32, 32] ∧
    (∃ a1, allocate_all (construct 64 (2 ^ 4) 4096) [1, 16, 0, 17]
        = some ((offsets (2 ^ 4) 0 [1, 16, 0, 17]).map (fun o => Block.buffer (4096 + o)),
            a1)) ∧
    (offsets (2 ^ 4) 0 [1, 16, 0, 17]).length = ([1, 16, 0, 17] : List Nat).length ∧
    ∀ (i o n : Nat), (offsets (2 ^ 4) 0 [1, 16, 0, 17])[i]? = some o →
      ([1, 16, 0, 17] : List Nat)[i]? = some n →
      2 ^ 4 ∣ o ∧ o + n ≤ 64 ∧
      ∀ (k o2 : Nat), i < k → (offsets (2 ^ 4) 0 [1, 16, 0, 17])[k]? = some o2 →
        o ≤ o2 ∧ (0 < n → o < o2) ∧ o + n ≤ o2 :=
  ⟨by decide, by decide,
    C4_allocation_sequence 64 4 4096 [1, 16, 0, 17] (by decide) (by decide) (by decide)⟩

/-- C5 (arena capacity decision). In every state of an arena whose size `N` is
a multiple of its alignment `2^j`, reached from construction by `allocate`,
`reset` and `deallocate` of returned blocks, and for every `n` with
`n + alignment - 1` below `2^64`: if `n ≤ N - used()` then `allocate(n)` returns
the cursor, a pointer into the buffer, and advances `used()` by `align_up(n)`,
which is at least `n`; otherwise it returns `::operator new(n)` and leaves the
arena, hence `used()`, as it was. -/
theorem C5_capacity_decision (N j buf n : Nat) (a : arena) (ps : List Nat) (hj : j < 64)
    (hdiv : N % 2 ^ j = 0) (hr : Reachable N (2 ^ j) buf a ps)
    (hn : n + (2 ^ j - 1) < SIZE_MOD) :
    (n ≤ a.size - a.used →
      ∃ a1, allocate a n = some (Block.buffer a.ptr_, a1) ∧
        a1.used = a.used + align_up a n ∧ n ≤ align_up a n) ∧
    (¬ (n ≤ a.size - a.used) →
      allocate a n = some (Block.operator_new n, a)) := by
  have g := reachable_good N j buf hj a ps hr
  have hpos : 0 < 2 ^ j := Nat.two_pow_pos j
  have e1 := g.hN
  have e2 := g.hbuf
  have e3 := g.hlo
  have e4 := g.hhi
  have hau : align_up a n = aligned_size (2 ^ j) n := by
    rw [align_up_eq a j n hj g.hal (by rw [g.hal]; exact hn), g.hal]
  have hle := le_aligned_size (2 ^ j) n hpos
  have hin : pointer_in_buffer a a.ptr_ = true := by
    simp only [pointer_in_buffer, Bool.and_eq_true, decide_eq_true_eq]
    omega
  have hrem : 2 ^ j ∣ N - (a.ptr_ - buf) :=
    Nat.dvd_sub' (Nat.dvd_of_mod_eq_zero hdiv) g.haligned
  constructor
  · intro hfit
    simp only [size, used] at hfit
    have hcap : align_up a n ≤ a.buf_ + a.N - a.ptr_ := by
      rw [hau]
      have := aligned_size_le_of_dvd (2 ^ j) n (N - (a.ptr_ - buf)) hpos hrem (by omega)
      omega
    refine ⟨{ a with ptr_ := a.ptr_ + align_up a n }, ?_, ?_, ?_⟩
    · simp only [allocate, hin, if_true, hcap]
    · simp only [used]
      omega
    · omega
  · intro hfit
    simp only [size, used] at hfit
    have hcap : ¬ (align_up a n ≤ a.buf_ + a.N - a.ptr_) := by
      rw [hau]
      omega
    simp only [allocate, hin, if_true, hcap, if_false]

/-- C5 on the 64-byte arena with alignment 16 at address 4096 after
`allocate(1)`: 16 bytes are used, and `allocate(48)` is served from the buffer. -/
theorem C5_capacity_decision_witness :
    Reachable 64 (2 ^ 4) 4096 example_used_16 [4096] ∧
    (48 ≤ example_used_16.size - example_used_16.used →
      ∃ a1, allocate example_used_16 48 = some (Block.buffer example_used_16.ptr_, a1) ∧
        a1.used = example_used_16.used + align_up example_used_16 48 ∧
        48 ≤ align_up example_used_16 48) ∧
    (¬ (48 ≤ example_used_16.size - example_used_16.used) →
      allocate example_used_16 48 = some (Block.operator_new 48, example_used_16)) :=
  ⟨Reachable.allocate_buffer (Reachable.construct (by decide))
      (by decide : allocate (construct 64 (2 ^ 4) 4096) 1
        = some (Block.buffer 4096, example_used_16)),
    C5_capacity_decision 64 4 4096 48 example_used_16 [4096] (by decide) (by decide)
      (Reachable.allocate_buffer (Reachable.construct (by decide))
        (by decide : allocate (construct 64 (2 ^ 4) 4096) 1
          = some (Block.buffer 4096, example_used_16)))
      (by decide)⟩

/-- C6 (`allocate(n)` returns a region of `n` bytes), at its failing input. On
the fresh 64-byte arena with alignment 16 at address 4096, `n = 2^64 - 1` makes
`n + (alignment-1)` wrap, so `align_up(n)` is 0 and the capacity test passes:
`allocate(n)` is served from the buffer at 4096, the cursor does not move (the
arena is returned unchanged, `used()` stays 0, less than `n`), the `n` bytes do
not fit in the 64-byte buffer, and the next `allocate(1)` returns 4096 again. -/
theorem C6_allocate_wraps_at_size_max :
    align_up (construct 64 16 4096) 18446744073709551615 = 0 ∧
    allocate (construct 64 16 4096) 18446744073709551615
      = some (Block.buffer 4096, construct 64 16 4096) ∧
    (construct 64 16 4096).used = 0 ∧
    ¬ (0 + 18446744073709551615 ≤ (construct 64 16 4096).size) ∧
    allocate (construct 64 16 4096) 1
      = some (Block.buffer 4096, example_used_16) := by
  refine ⟨by decide, by decide, by decide, by decide, by decide⟩

/-! ### `deallocate` after `allocate` -/

/-- In every reachable state, whatever the alignment, the cursor lies in the
buffer and the buffer in the address space. -/
theorem reachable_bounds (N al buf : Nat) (a : arena) (ps : List Nat)
    (h : Reachable N al buf a ps) :
    a.N = N ∧ a.buf_ = buf ∧ buf + N < SIZE_MOD ∧ buf ≤ a.ptr_ ∧ a.ptr_ ≤ buf + N := by
  induction h with
  | construct hsp =>
    exact ⟨rfl, rfl, hsp, Nat.le_refl _, Nat.le_add_right _ _⟩
  | allocate_buffer h hs ih =>
    rename_i a a1 ps n r
    obtain ⟨_, hc⟩ := allocate_cases a n _ a1 hs
    rcases hc with ⟨hcap, _, ha1⟩ | ⟨_, hb, _⟩
    · subst ha1
      obtain ⟨e1, e2, e3, e4, e5⟩ := ih
      refine ⟨e1, e2, e3, ?_, ?_⟩
      · show buf ≤ a.ptr_ + align_up a n
        omega
      · show a.ptr_ + align_up a n ≤ buf + N
        omega
    · cases hb
  | allocate_new h hs ih =>
    rename_i a a1 ps n
    obtain ⟨_, hc⟩ := allocate_cases a n _ a1 hs
    rcases hc with ⟨_, hb, _⟩ | ⟨_, _, ha1⟩
    · cases hb
    · subst ha1
      exact ih
  | deallocate h hp hs ih =>
    rename_i a a1 ps p n
    unfold arena.deallocate at hs
    split at hs
    · split at hs
      · rename_i hin
        split at hs
        · simp only [Option.some.injEq] at hs
          subst hs
          obtain ⟨e1, e2, e3, e4, e5⟩ := ih
          simp only [pointer_in_buffer, Bool.and_eq_true, decide_eq_true_eq] at hin
          refine ⟨e1, e2, e3, ?_, ?_⟩
          · show buf ≤ p
            omega
          · show p ≤ buf + N
            omega
        · simp only [Option.some.injEq] at hs
          subst hs
          exact ih
      · simp only [Option.some.injEq] at hs
        subst hs
        exact ih
    · cases hs
  | reset h ih =>
    rename_i a ps
    obtain ⟨e1, e2, e3, e4, e5⟩ := ih
    refine ⟨e1, e2, e3, ?_, ?_⟩
    · show buf ≤ a.buf_
      omega
    · show a.buf_ ≤ buf + N
      omega

/-- The round trip of C7: in a reachable state `a`, when `allocate(n)` is served
from the buffer at `p`, `deallocate(p, n)` gives back the state `a` itself, so
`used()` is restored and `allocate(n)` returns `p` again. -/
theorem deallocate_round_trip (N al buf n p : Nat) (a a1 : arena) (ps : List Nat)
    (hr : Reachable N al buf a ps) (hs : allocate a n = some (Block.buffer p, a1)) :
    deallocate a1 p n = some a ∧ allocate a n = some (Block.buffer p, a1) := by
  obtain ⟨e1, e2, e3, e4, e5⟩ := reachable_bounds N al buf a ps hr
  obtain ⟨hin, hc⟩ := allocate_cases a n _ a1 hs
  rcases hc with ⟨hcap, hb, ha1⟩ | ⟨_, hb, _⟩
  · simp only [Block.buffer.injEq] at hb
    subst hb
    subst ha1
    refine ⟨?_, hs⟩
    have hin1 : pointer_in_buffer { a with ptr_ := a.ptr_ + align_up a n }
        (a.ptr_ + align_up a n) = true := by
      simp only [pointer_in_buffer, Bool.and_eq_true, decide_eq_true_eq]
      omega
    have hin2 : pointer_in_buffer { a with ptr_ := a.ptr_ + align_up a n } a.ptr_
        = true := by
      simp only [pointer_in_buffer, Bool.and_eq_true, decide_eq_true_eq] at hin ⊢
      omega
    have hal : align_up { a with ptr_ := a.ptr_ + align_up a n } n = align_up a n := by
      simp only [align_up]
    have hmod : (a.ptr_ + align_up a n) % SIZE_MOD = a.ptr_ + align_up a n := by
      apply Nat.mod_eq_of_lt
      omega
    simp only [deallocate, hin1, hin2, hal, hmod, if_true]
  · cases hb

/-- The stack discipline of C7 when the later size does not wrap: in a
reachable state, after `p = allocate(n)` and a later `allocate(m)` with
`0 < m` and `m + alignment - 1` below `2^64`, both served from the buffer of an
arena with alignment `2^j`, `deallocate(p, n)` leaves the arena as it is. -/
theorem deallocate_below_live_block (N j buf n m p q : Nat) (a a1 a2 : arena)
    (ps : List Nat) (hj : j < 64) (hr : Reachable N (2 ^ j) buf a ps)
    (hs1 : allocate a n = some (Block.buffer p, a1))
    (hs2 : allocate a1 m = some (Block.buffer q, a2))
    (hm : 0 < m) (hm2 : m + (2 ^ j - 1) < SIZE_MOD) :
    deallocate a2 p n = some a2 := by
  have g := reachable_good N j buf hj a ps hr
  have g1 := reachable_good N j buf hj a1 (p :: ps) (Reachable.allocate_buffer hr hs1)
  have g2 := reachable_good N j buf hj a2 (q :: p :: ps)
    (Reachable.allocate_buffer (Reachable.allocate_buffer hr hs1) hs2)
  obtain ⟨_, hc⟩ := allocate_cases a n _ a1 hs1
  obtain ⟨_, hc2⟩ := allocate_cases a1 m _ a2 hs2
  have hpos : 0 < 2 ^ j := Nat.two_pow_pos j
  rcases hc with ⟨hcap, hb, ha1⟩ | ⟨_, hb, _⟩
  · rcases hc2 with ⟨hcap2, hb2, ha2⟩ | ⟨_, hb2, _⟩
    · simp only [Block.buffer.injEq] at hb hb2
      have hau : align_up a1 m = aligned_size (2 ^ j) m := by
        rw [align_up_eq a1 j m hj g1.hal (by rw [g1.hal]; exact hm2), g1.hal]
      have hle := le_aligned_size (2 ^ j) m hpos
      have e1 : a1.ptr_ = a.ptr_ + align_up a n := by rw [ha1]
      have e2 : a2.ptr_ = a1.ptr_ + align_up a1 m := by rw [ha2]
      have e3 : align_up a2 n = align_up a n := by
        rw [ha2, ha1]
        simp only [align_up]
      have h1 := g2.hlo
      have h2 := g2.hhi
      have h3 := g2.hspace
      have h4 := g.hlo
      have h5 := g2.hN
      have h6 := g2.hbuf
      have hin1 : pointer_in_buffer a2 a2.ptr_ = true := by
        simp only [pointer_in_buffer, Bool.and_eq_true, decide_eq_true_eq]
        omega
      have hin2 : pointer_in_buffer a2 p = true := by
        simp only [pointer_in_buffer, Bool.and_eq_true, decide_eq_true_eq]
        omega
      have hne : ¬ ((p + align_up a2 n) % SIZE_MOD = a2.ptr_) := by
        rw [e3, hb, Nat.mod_eq_of_lt (by omega)]
        omega
      simp only [deallocate, hin1, hin2, hne, if_true, if_false]
    · cases hb2
  · cases hb

/-- C7 (LIFO reclaim), at its failing input. On the fresh 64-byte arena with
alignment 16 at address 4096: `allocate(16)` returns 4096 and `used()` is 16;
the later `allocate(2^64 - 1)`, not empty, is served from the buffer at 4112
without moving the cursor, because `align_up` wraps to 0; then
`deallocate(4096, 16)` of the first block, with the later block still live,
moves the cursor back: `used()` goes from 16 to 0. -/
theorem C7_deallocate_reclaims_under_live_block :
    allocate (construct 64 16 4096) 16 = some (Block.buffer 4096, example_used_16) ∧
    example_used_16.used = 16 ∧
    allocate example_used_16 18446744073709551615
      = some (Block.buffer 4112, example_used_16) ∧
    deallocate example_used_16 4096 16 = some (construct 64 16 4096) ∧
    (construct 64 16 4096).used = 0 := by
  refine ⟨by decide, by decide, by decide, by decide, by decide⟩

/-- C8 (arena reset). For every arena state `a`: after `reset()`, `used()` is 0
and the arena equals the freshly constructed one; and for every `n` that fits in
the buffer, that is `align_up(n) ≤ N`, the next `allocate(n)` returns the start
address `buf_` of the buffer, as the first `allocate(n)` on the fresh arena
does. -/
theorem C8_reset_rewinds (a : arena) :
    (reset a).used = 0 ∧
    reset a = construct a.N a.alignment a.buf_ ∧
    ∀ n, align_up a n ≤ a.N →
      (∃ a1, allocate (reset a) n = some (Block.buffer a.buf_, a1)) ∧
      (∃ a1, allocate (construct a.N a.alignment a.buf_) n
        = some (Block.buffer a.buf_, a1)) := by
  have hin : pointer_in_buffer (reset a) (reset a).ptr_ = true := by
    simp [pointer_in_buffer, reset]
  have hfresh : reset a = construct a.N a.alignment a.buf_ := rfl
  refine ⟨by simp [used, reset], hfresh, ?_⟩
  intro n hn
  have hal : align_up (reset a) n = align_up a n := by
    simp only [align_up, reset]
  have hcap : align_up (reset a) n ≤ (reset a).buf_ + (reset a).N - (reset a).ptr_ := by
    rw [hal]
    show align_up a n ≤ a.buf_ + a.N - a.buf_
    omega
  have hres : allocate (reset a) n = some (Block.buffer (reset a).ptr_,
      { reset a with ptr_ := (reset a).ptr_ + align_up (reset a) n }) := by
    simp only [allocate, hin, if_true, hcap]
  refine ⟨⟨_, hres⟩, ?_⟩
  rw [← hfresh]
  exact ⟨_, hres⟩

/-- C8 on the arena `example_used_16`: after `reset()` nothing is used and
`allocate(20)` returns the start address 4096. -/
theorem C8_reset_rewinds_witness :
    align_up example_used_16 20 ≤ example_used_16.N ∧
    (reset example_used_16).used = 0 ∧
    (∃ a1, allocate (reset example_used_16) 20 = some (Block.buffer 4096, a1)) ∧
    (∃ a1, allocate (construct 64 16 4096) 20 = some (Block.buffer 4096, a1)) :=
  ⟨by decide, (C8_reset_rewinds example_used_16).1,
    ((C8_reset_rewinds example_used_16).2.2 20 (by decide)).1,
    ((C8_reset_rewinds example_used_16).2.2 20 (by decide)).2⟩

end arena

/-! ## Part 3: theorems on `LOTFilter` -/

namespace LOTFilter

variable {V C P S : Type}

/-! ### How the stored list changes -/

theorem countP_replace (l : List (LOTVariant V C P S)) (value : LOTVariant V C P S)
    (p : Property) :
    (replace_if l value).countP (fun e => decide (e.mPropery = p))
      = l.countP fun e => decide (e.mPropery = p) := by
  unfold replace_if
  induction l with
  | nil => rfl
  | cons x l ih =>
    simp only [List.map_cons, List.countP_cons, ih]
    by_cases h : x.mPropery = value.mPropery
    · simp only [h, if_true]
    · simp only [h, if_false]

theorem countP_erase (l : List (LOTVariant V C P S)) (q p : Property) :
    (l.filter fun e => !decide (e.mPropery = q)).countP (fun e => decide (e.mPropery = p))
      = if p = q then 0 else l.countP fun e => decide (e.mPropery = p) := by
  induction l with
  | nil => simp
  | cons x l ih =>
    by_cases h : x.mPropery = q
    · have hf : (!decide (x.mPropery = q)) = false := by simp [h]
      rw [List.filter_cons_of_neg (by simp [h]), ih, List.countP_cons]
      by_cases hp : p = q
      · simp [hp]
      · have : ¬ (x.mPropery = p) := by
          rw [h]
          exact fun e => hp e.symm
        simp [hp, this]
    · rw [List.filter_cons_of_pos (by simp [h]), List.countP_cons, ih, List.countP_cons]
      by_cases hp : p = q
      · subst hp
        simp [h]
      · simp [hp]

theorem test_eq_some {s : LOTFilter V C P S} {i : Nat} {b : Bool}
    (h : test s i = some b) : i < 32 ∧ s.mBitset i = b := by
  unfold test at h
  split at h
  · rename_i hlt
    simp only [Option.some.injEq] at h
    exact ⟨hlt, h⟩
  · cases h

theorem test_of_lt (s : LOTFilter V C P S) {i : Nat} (h : i < 32) :
    test s i = some (s.mBitset i) := by
  simp [test, h]

/-! ### Both calls keep the bits and the list consistent -/

theorem empty_consistent : Consistent (empty : LOTFilter V C P S) := by
  intro p
  simp [stored, empty]

theorem addValue_consistent {s s1 : LOTFilter V C P S} {value : LOTVariant V C P S}
    (hc : Consistent s) (hs : addValue s value = some s1) : Consistent s1 := by
  simp only [addValue, Option.map_eq_some'] at hs
  obtain ⟨b, hb, h1⟩ := hs
  obtain ⟨_, hbit⟩ := test_eq_some hb
  intro p
  cases b with
  | true =>
    simp only [if_true] at h1
    subst h1
    simp only [stored, countP_replace]
    exact hc p
  | false =>
    simp only [Bool.false_eq_true, if_false] at h1
    subst h1
    have := hc p
    simp only [stored, List.countP_append, List.countP_cons, List.countP_nil] at this ⊢
    by_cases hp : p = value.mPropery
    · subst hp
      simp only [hbit, Bool.false_eq_true, if_false] at this
      simp [this]
    · have hp2 : ¬ (value.mPropery = p) := fun e => hp e.symm
      simp [hp, hp2, this]

theorem removeValue_consistent {s s1 : LOTFilter V C P S} {value : LOTVariant V C P S}
    (hc : Consistent s) (hs : removeValue s value = some s1) : Consistent s1 := by
  simp only [removeValue, Option.map_eq_some'] at hs
  obtain ⟨b, hb, h1⟩ := hs
  intro p
  cases b with
  | true =>
    simp only [if_true] at h1
    subst h1
    have := hc p
    simp only [stored, countP_erase] at this ⊢
    by_cases hp : p = value.mPropery
    · simp [hp]
    · simp [hp, this]
  | false =>
    simp only [Bool.false_eq_true, if_false] at h1
    subst h1
    exact hc p

theorem step_consistent {s s1 : LOTFilter V C P S} {c : Call V C P S}
    (hc : Consistent s) (hs : step s c = some s1) : Consistent s1 := by
  cases c with
  | addValue value => exact addValue_consistent hc hs
  | removeValue value => exact removeValue_consistent hc hs

theorem step_returns (s : LOTFilter V C P S) (c : Call V C P S) (h : c.property < 32) :
    ∃ s1, step s c = some s1 := by
  cases c with
  | addValue value =>
    simp only [Call.property] at h
    simp only [step, addValue, test_of_lt s h, Option.map_some']
    exact ⟨_, rfl⟩
  | removeValue value =>
    simp only [Call.property] at h
    simp only [step, removeValue, test_of_lt s h, Option.map_some']
    exact ⟨_, rfl⟩

theorem run_consistent {s : LOTFilter V C P S} (cs : List (Call V C P S))
    (hc : Consistent s) (h : ∀ c, c ∈ cs → c.property < 32) :
    ∃ s1, run s cs = some s1 ∧ Consistent s1 := by
  induction cs generalizing s with
  | nil => exact ⟨s, rfl, hc⟩
  | cons c cs ih =>
    obtain ⟨s0, h0⟩ := step_returns s c (h c (List.mem_cons_self _ _))
    obtain ⟨s1, h1, h2⟩ := ih (step_consistent hc h0)
      (fun c1 hc1 => h c1 (List.mem_cons_of_mem _ hc1))
    exact ⟨s1, by simp only [run, h0, Option.some_bind, h1], h2⟩

theorem run_keeps_consistent {s s1 : LOTFilter V C P S} (cs : List (Call V C P S))
    (hc : Consistent s) (hs : run s cs = some s1) : Consistent s1 := by
  induction cs generalizing s with
  | nil =>
    simp only [run, Option.some.injEq] at hs
    subst hs
    exact hc
  | cons c cs ih =>
    simp only [run, Option.bind_eq_some] at hs
    obtain ⟨s0, h0, h1⟩ := hs
    exact ih (step_consistent hc h0) h1

theorem addValue_sets_bit {s s1 : LOTFilter V C P S} {value : LOTVariant V C P S}
    (hs : addValue s value = some s1) : s1.mBitset value.mPropery = true := by
  simp only [addValue, Option.map_eq_some'] at hs
  obtain ⟨b, hb, h1⟩ := hs
  obtain ⟨_, hbit⟩ := test_eq_some hb
  cases b with
  | true =>
    simp only [if_true] at h1
    subst h1
    exact hbit
  | false =>
    simp only [Bool.false_eq_true, if_false] at h1
    subst h1
    simp

/-! ### The claims on the filter set -/

/-- C9 (filter-set invariant). Every sequence of `addValue` and `removeValue`
calls with property indices below 32, run on an empty filter set, returns, and in
the state reached, for every property `p` below 32, `hasFilter(p)` is true
exactly when the stored list holds one variant with property `p` and false
exactly when it holds none; for every property at all, the list holds at most one
variant with it. -/
theorem C9_filter_set_invariant (cs : List (Call V C P S))
    (h : ∀ c, c ∈ cs → c.property < 32) :
    ∃ s, run empty cs = some s ∧
      ∀ p, (p < 32 →
          (hasFilter s p = some true ↔ stored s p = 1) ∧
          (hasFilter s p = some false ↔ stored s p = 0)) ∧
        stored s p ≤ 1 := by
  obtain ⟨s, hrun, hc⟩ := run_consistent cs empty_consistent h
  refine ⟨s, hrun, ?_⟩
  intro p
  have hp := hc p
  constructor
  · intro h32
    simp only [hasFilter, test_of_lt s h32, Option.some.injEq]
    cases hb : s.mBitset p with
    | true =>
      rw [hb] at hp
      simp [hp]
    | false =>
      rw [hb] at hp
      simp [hp]
  · cases hb : s.mBitset p with
    | true =>
      rw [hb] at hp
      simp [hp]
    | false =>
      rw [hb] at hp
      simp [hp]

/-- C9 on `addValue(v1)`, `addValue(v3)`, `addValue(v2)`, `removeValue(v3)`, with
`v1`, `v2` of property 3 and `v3` of property 5. -/
theorem C9_filter_set_invariant_witness :
    (∀ c, c ∈ [Call.addValue example_v1, Call.addValue example_v3,
        Call.addValue example_v2, Call.removeValue example_v3] → c.property < 32) ∧
    ∃ s, run empty [Call.addValue example_v1, Call.addValue example_v3,
        Call.addValue example_v2, Call.removeValue example_v3] = some s ∧
      ∀ p, (p < 32 →
          (hasFilter s p = some true ↔ stored s p = 1) ∧
          (hasFilter s p = some false ↔ stored s p = 0)) ∧
        stored s p ≤ 1 :=
  ⟨by
      intro c hc
      simp only [List.mem_cons, List.mem_singleton, List.not_mem_nil, or_false] at hc
      rcases hc with h | h | h | h <;> subst h <;> decide,
    C9_filter_set_invariant _ (by
      intro c hc
      simp only [List.mem_cons, List.mem_singleton, List.not_mem_nil, or_false] at hc
      rcases hc with h | h | h | h <;> subst h <;> decide)⟩

/-- C10 (last registration wins). In a filter set reached from the empty one,
for variants `v1`, `v2` of the same property `p` below 32, `addValue(v1)` then
`addValue(v2)` both return, and afterwards exactly one stored variant has
property `p`, every stored variant with property `p` is `v2`, the lookup
`data(p)` of the accessors finds `v2`, and the list is as long as after
`addValue(v1)` alone. -/
theorem C10_last_registration_wins (cs : List (Call V C P S)) (s : LOTFilter V C P S)
    (v1 v2 : LOTVariant V C P S) (hrun : run empty cs = some s)
    (hp : v1.mPropery = v2.mPropery) (h32 : v1.mPropery < 32) :
    ∃ s1 s2, addValue s v1 = some s1 ∧ addValue s1 v2 = some s2 ∧
      stored s2 v2.mPropery = 1 ∧
      (∀ e, e ∈ s2.mFilters → e.mPropery = v2.mPropery → e = v2) ∧
      data s2 v2.mPropery = some v2 ∧
      s2.mFilters.length = s1.mFilters.length := by
  have hc := run_keeps_consistent cs empty_consistent hrun
  obtain ⟨s1, h1⟩ : ∃ s1, addValue s v1 = some s1 := by
    simp only [addValue, test_of_lt s h32, Option.map_some']
    exact ⟨_, rfl⟩
  have hc1 := addValue_consistent hc h1
  have hbit : s1.mBitset v2.mPropery = true := by
    rw [← hp]
    exact addValue_sets_bit h1
  have h2 : addValue s1 v2 = some { s1 with mFilters := replace_if s1.mFilters v2 } := by
    simp only [addValue, test_of_lt s1 (hp ▸ h32), Option.map_some', hbit, if_true]
  have hc2 := addValue_consistent hc1 h2
  have hone : stored { s1 with mFilters := replace_if s1.mFilters v2 } v2.mPropery = 1 := by
    rw [hc2 v2.mPropery]
    simp [hbit]
  have hall : ∀ e, e ∈ replace_if s1.mFilters v2 → e.mPropery = v2.mPropery → e = v2 := by
    intro e he hpe
    unfold replace_if at he
    rw [List.mem_map] at he
    obtain ⟨x, _, hx⟩ := he
    by_cases hxp : x.mPropery = v2.mPropery
    · simp only [hxp, if_true] at hx
      exact hx.symm
    · simp only [hxp, if_false] at hx
      subst hx
      exact absurd hpe hxp
  refine ⟨s1, _, h1, h2, hone, hall, ?_, by simp [replace_if]⟩
  simp only [data]
  cases hf : (replace_if s1.mFilters v2).find?
      (fun e => decide (e.mPropery = v2.mPropery)) with
  | none =>
    rw [List.find?_eq_none] at hf
    have hz : stored { s1 with mFilters := replace_if s1.mFilters v2 } v2.mPropery = 0 := by
      simp only [stored]
      rw [List.countP_eq_zero]
      exact hf
    rw [hone] at hz
    cases hz
  | some e =>
    have h3 := List.find?_some hf
    have h4 := List.mem_of_find?_eq_some hf
    simp only [decide_eq_true_eq] at h3
    rw [hall e h4 h3]

/-- C10 on the empty filter set with `v1`, `v2` of property 3: the list ends as
`[v2]`. -/
theorem C10_last_registration_wins_witness :
    run (empty : LOTFilter Int Int Int Int) [] = some empty ∧
    example_v1.mPropery = example_v2.mPropery ∧ example_v1.mPropery < 32 ∧
    ∃ s1 s2, addValue empty example_v1 = some s1 ∧ addValue s1 example_v2 = some s2 ∧
      stored s2 example_v2.mPropery = 1 ∧
      (∀ e, e ∈ s2.mFilters → e.mPropery = example_v2.mPropery → e = example_v2) ∧
      data s2 example_v2.mPropery = some example_v2 ∧
      s2.mFilters.length = s1.mFilters.length :=
  ⟨rfl, rfl, by decide,
    C10_last_registration_wins [] empty example_v1 example_v2 rfl rfl (by decide)⟩

/-- C11 (`removeValue`). In a filter set `s` reached from the empty one, for a
variant `v` whose property `p` is below 32, `removeValue(v)` returns, and
afterwards `hasFilter(p)` is false, no stored variant has property `p`,
`hasFilter(q)` is as before for every other property `q`, and the stored list is
the old list without the variants of property `p`, the others in their old
order; if `hasFilter(p)` was false, the filter set is the one it was. -/
theorem C11_removeValue_erases (cs : List (Call V C P S)) (s : LOTFilter V C P S)
    (v : LOTVariant V C P S) (hrun : run empty cs = some s) (h32 : v.mPropery < 32) :
    ∃ s1, removeValue s v = some s1 ∧
      hasFilter s1 v.mPropery = some false ∧
      (∀ e, e ∈ s1.mFilters → e.mPropery ≠ v.mPropery) ∧
      (∀ q, q ≠ v.mPropery → hasFilter s1 q = hasFilter s q) ∧
      s1.mFilters = s.mFilters.filter (fun e => !decide (e.mPropery = v.mPropery)) ∧
      (hasFilter s v.mPropery = some false → s1 = s) := by
  have hc := run_keeps_consistent cs empty_consistent hrun
  cases hb : s.mBitset v.mPropery with
  | true =>
    refine ⟨{ mBitset := fun i => if i = v.mPropery then false else s.mBitset i,
              mFilters := s.mFilters.filter fun e => !decide (e.mPropery = v.mPropery) },
      ?_, ?_, ?_, ?_, rfl, ?_⟩
    · simp only [removeValue, test_of_lt s h32, hb, Option.map_some', if_true]
    · simp only [hasFilter, test, h32, if_true]
    · intro e he
      rw [List.mem_filter] at he
      simpa using he.2
    · intro q hq
      simp only [hasFilter, test, hq, if_false]
    · intro h
      simp only [hasFilter, test_of_lt s h32, hb, Option.some.injEq] at h
      cases h
  | false =>
    have hnone : ∀ e, e ∈ s.mFilters → e.mPropery ≠ v.mPropery := by
      have h0 := hc v.mPropery
      rw [hb] at h0
      simp only [stored, Bool.false_eq_true, if_false, List.countP_eq_zero,
        decide_eq_true_eq] at h0
      exact h0
    refine ⟨s, ?_, ?_, hnone, fun _ _ => rfl, ?_, fun _ => rfl⟩
    · simp only [removeValue, test_of_lt s h32, hb, Option.map_some', Bool.false_eq_true,
        if_false]
    · simp only [hasFilter, test_of_lt s h32, hb]
    · symm
      rw [List.filter_eq_self]
      intro e he
      simpa using hnone e he

/-- C11 on the filter set holding `v1` (property 3) and `v3` (property 5):
`removeValue(v2)`, a variant of property 3, leaves `[v3]`. -/
theorem C11_removeValue_erases_witness :
    run (empty : LOTFilter Int Int Int Int)
        [Call.addValue example_v1, Call.addValue example_v3]
      = some example_two ∧
    example_v2.mPropery < 32 ∧
    ∃ s1, removeValue example_two example_v2 = some s1 ∧
      hasFilter s1 example_v2.mPropery = some false ∧
      (∀ e, e ∈ s1.mFilters → e.mPropery ≠ example_v2.mPropery) ∧
      (∀ q, q ≠ example_v2.mPropery → hasFilter s1 q = hasFilter example_two q) ∧
      s1.mFilters
        = example_two.mFilters.filter (fun e => !decide (e.mPropery = example_v2.mPropery)) ∧
      (hasFilter example_two example_v2.mPropery = some false → s1 = example_two) :=
  ⟨rfl, by decide,
    C11_removeValue_erases [Call.addValue example_v1, Call.addValue example_v3]
      example_two example_v2 rfl (by decide)⟩

end LOTFilter

/-! ## Part 4: theorems on `LottieModelCache` and `LottieLoader` -/

namespace LottieModelCache

variable {M : Type}

/-! ### `mHash[key] = value` -/

theorem assign_length_le (l : List (String × M)) (key : String) (value : M) :
    (assign l key value).length ≤ l.length + 1 := by
  unfold assign
  split
  · simp
  · simp

theorem lookup_replace (l : List (String × M)) (key : String) (value : M)
    (h : ∃ e, e ∈ l ∧ e.1 = key) :
    (l.map fun e => if e.1 = key then (key, value) else e).lookup key = some value := by
  induction l with
  | nil =>
    obtain ⟨e, he, _⟩ := h
    cases he
  | cons x l ih =>
    obtain ⟨k, b⟩ := x
    by_cases hx : k = key
    · simp only [List.map_cons, hx, if_true, List.lookup_cons, beq_self_eq_true]
    · have hne : (key == k) = false := by
        simp only [beq_eq_false_iff_ne, ne_eq]
        exact fun e => hx e.symm
      simp only [List.map_cons, hx, if_false, List.lookup_cons, hne]
      apply ih
      obtain ⟨e, he, hk⟩ := h
      rcases List.mem_cons.mp he with h1 | h1
      · subst h1
        exact absurd hk hx
      · exact ⟨e, h1, hk⟩

theorem lookup_append_new (l : List (String × M)) (key : String) (value : M)
    (h : ∀ e, e ∈ l → ¬ (e.1 = key)) :
    (l ++ [(key, value)]).lookup key = some value := by
  induction l with
  | nil => simp [List.lookup_cons]
  | cons x l ih =>
    obtain ⟨k, b⟩ := x
    have hx : ¬ (k = key) := h (k, b) (List.mem_cons_self _ _)
    have hne : (key == k) = false := by
      simp only [beq_eq_false_iff_ne, ne_eq]
      exact fun e => hx e.symm
    simp only [List.cons_append, List.lookup_cons, hne]
    exact ih fun e he => h e (List.mem_cons_of_mem _ he)

theorem lookup_assign (l : List (String × M)) (key : String) (value : M) :
    (assign l key value).lookup key = some value := by
  unfold assign
  split
  · rename_i h
    rw [List.any_eq_true] at h
    apply lookup_replace
    obtain ⟨e, he, hk⟩ := h
    exact ⟨e, he, by simpa using hk⟩
  · rename_i h
    have h2 : l.any (fun e => e.1 == key) = false := Bool.eq_false_iff.mpr h
    rw [List.any_eq_false] at h2
    apply lookup_append_new
    intro e he hk
    exact h2 e he (by simpa using hk)

/-! ### `add` -/

theorem add_mcacheSize (cbegin : List (String × M) → Nat) (c : LottieModelCache M)
    (key : String) (value : M) : (add cbegin c key value).mcacheSize = c.mcacheSize := by
  unfold add
  split
  · rfl
  · split
    · rfl
    · rfl

theorem add_length_le (cbegin : List (String × M) → Nat) (c : LottieModelCache M)
    (key : String) (value : M) (h : c.mHash.length ≤ c.mcacheSize) :
    (add cbegin c key value).mHash.length ≤ c.mcacheSize := by
  unfold add
  split
  · exact h
  · rename_i h0
    split
    · rename_i heq
      have hpos : 0 < c.mHash.length := by omega
      have hidx : cbegin c.mHash % c.mHash.length < c.mHash.length := Nat.mod_lt _ hpos
      have h1 := assign_length_le (c.mHash.eraseIdx (cbegin c.mHash % c.mHash.length)) key value
      rw [List.length_eraseIdx_of_lt hidx] at h1
      show (assign (c.mHash.eraseIdx (cbegin c.mHash % c.mHash.length)) key value).length
        ≤ c.mcacheSize
      omega
    · rename_i hne
      have h1 := assign_length_le c.mHash key value
      show (assign c.mHash key value).length ≤ c.mcacheSize
      omega

theorem add_all_length_le (cbegin : List (String × M) → Nat) (c : LottieModelCache M)
    (kvs : List (String × M)) (h : c.mHash.length ≤ c.mcacheSize) :
    (add_all cbegin c kvs).mHash.length ≤ c.mcacheSize ∧
      (add_all cbegin c kvs).mcacheSize = c.mcacheSize := by
  induction kvs generalizing c with
  | nil => exact ⟨h, rfl⟩
  | cons kv kvs ih =>
    have h1 := add_length_le cbegin c kv.1 kv.2 h
    have h2 := add_mcacheSize cbegin c kv.1 kv.2
    have h3 := ih (add cbegin c kv.1 kv.2) (by rw [h2]; exact h1)
    rw [h2] at h3
    exact h3

theorem find_add (cbegin : List (String × M) → Nat) (c : LottieModelCache M)
    (key : String) (value : M) (h : c.mcacheSize ≠ 0) :
    find (add cbegin c key value) key = some value := by
  have h2 := add_mcacheSize cbegin c key value
  unfold find
  rw [h2]
  simp only [h, if_false]
  unfold add
  simp only [h, if_false]
  split
  · exact lookup_assign _ key value
  · exact lookup_assign _ key value

/-- C14 (cache bound from empty). Starting from an empty cache with capacity
`N` (any capacity, so every `N ≥ 1`), after every sequence of `add(key, model)`
calls, whatever the keys and whichever entry the map's iteration starts with,
the number of entries is at most `N`, and the capacity is still `N`. -/
theorem C14_cache_bound_from_empty (cbegin : List (String × M) → Nat) (N : Nat)
    (kvs : List (String × M)) :
    (add_all cbegin { mHash := [], mcacheSize := N } kvs).mHash.length ≤ N ∧
    (add_all cbegin { mHash := [], mcacheSize := N } kvs).mcacheSize = N := by
  have h0 : ({ mHash := [], mcacheSize := N } : LottieModelCache M).mHash.length
      ≤ ({ mHash := [], mcacheSize := N } : LottieModelCache M).mcacheSize := Nat.zero_le N
  have h := add_all_length_le cbegin { mHash := [], mcacheSize := N } kvs h0
  exact h

/-- C14 with capacity 2 and the three distinct keys `a`, `b`, `c`: 2 entries are
left. -/
theorem C14_cache_bound_from_empty_witness :
    (add_all (fun _ => 0) { mHash := [], mcacheSize := 2 }
      [("a", 1), ("b", 2), ("c", 3)]).mHash = [("b", 2), ("c", 3)] ∧
    (add_all (fun _ => 0) { mHash := [], mcacheSize := 2 }
      [("a", 1), ("b", 2), ("c", 3)]).mHash.length ≤ 2 ∧
    (add_all (fun _ => 0) { mHash := [], mcacheSize := 2 }
      [("a", 1), ("b", 2), ("c", 3)]).mcacheSize = 2 :=
  ⟨by decide, C14_cache_bound_from_empty (fun _ => 0) 2 [("a", 1), ("b", 2), ("c", 3)]⟩

end LottieModelCache

namespace LottieModelCache

variable {M : Type}

/-- C15 (the cache is bounded by the configured capacity), at its failing input.
From the default cache (capacity 10, empty), whichever entry the map's iteration
starts with: after `add` of the keys `a`, `b`, `c`, `configureCacheSize(2)` and
`add` of key `d`, the capacity is 2 and the cache holds 4 entries, all four keys;
a further `add` of key `e` makes it 5. -/
theorem C15_add_exceeds_shrunk_capacity (cbegin : List (String × Nat) → Nat) :
    (run cbegin CACHE [Call.add "a" 1, Call.add "b" 2, Call.add "c" 3,
        Call.configureCacheSize 2, Call.add "d" 4])
      = { mHash := [("a", 1), ("b", 2), ("c", 3), ("d", 4)], mcacheSize := 2 } ∧
    (run cbegin CACHE [Call.add "a" 1, Call.add "b" 2, Call.add "c" 3,
        Call.configureCacheSize 2, Call.add "d" 4, Call.add "e" 5]).mHash.length = 5 := by
  constructor
  · rfl
  · rfl

end LottieModelCache

namespace LottieLoader

variable {M : Type}

/-! ### The paths through `load` and `loadFromData` -/

theorem find_of_size_zero (c : LottieModelCache M) (key : String) (h : c.mcacheSize = 0) :
    LottieModelCache.find c key = none := by
  simp [LottieModelCache.find, h]

theorem add_of_size_zero (cbegin : List (String × M) → Nat) (c : LottieModelCache M)
    (key : String) (value : M) (h : c.mcacheSize = 0) :
    LottieModelCache.add cbegin c key value = c := by
  simp [LottieModelCache.add, h]

/-- A `load` that misses the cache (or does not ask it), reads a non-empty
content and gets a model from the parser. -/
theorem load_parsed (env : Env M) (w : World M) (l : LottieLoader M) (path content : String)
    (cachePolicy : Bool) (m : M)
    (hmiss : cachePolicy = true → LottieModelCache.find w.cache path = none)
    (hopen : env.open_file path = some content) (hne : content ≠ "")
    (hparse : env.parser_model content (dirname env path) = some m) :
    load env w l path cachePolicy =
      (true, { mModel := some m },
        { cache := if cachePolicy then LottieModelCache.add env.cbegin w.cache path m
            else w.cache,
          events := w.events ++ [Event.open_file path]
            ++ [Event.parser_run content (dirname env path)] }) := by
  cases cachePolicy with
  | true =>
    have h1 := hmiss rfl
    simp only [load, h1, if_true, Option.isSome_none, Bool.and_false, Bool.false_eq_true,
      if_false, hopen, hne, hparse]
  | false =>
    simp only [load, Bool.false_eq_true, if_false, Bool.false_and, hopen, hne, hparse]

/-- A `load` with the cache policy that finds the key in the cache. -/
theorem load_hit (env : Env M) (w : World M) (l : LottieLoader M) (path : String) (m : M)
    (hhit : LottieModelCache.find w.cache path = some m) :
    load env w l path true = (true, { mModel := some m }, w) := by
  simp only [load, hhit, if_true, Option.isSome_some, Bool.and_self]

/-- A `load` that returns false leaves the cache as it was. -/
theorem load_false_cache (env : Env M) (w : World M) (l : LottieLoader M) (path : String)
    (cachePolicy : Bool) (h : (load env w l path cachePolicy).1 = false) :
    (load env w l path cachePolicy).2.2.cache = w.cache := by
  cases hf : (cachePolicy && (if cachePolicy then
      ({ mModel := LottieModelCache.find w.cache path } : LottieLoader M) else l).mModel.isSome)
  · cases ho : env.open_file path with
    | none => simp only [load, hf, Bool.false_eq_true, if_false, ho]
    | some content =>
      by_cases hc : content = ""
      · simp only [load, hf, Bool.false_eq_true, if_false, ho, hc, if_true]
      · cases hp : env.parser_model content (dirname env path) with
        | none => simp only [load, hf, Bool.false_eq_true, if_false, ho, hc, hp]
        | some m =>
          simp only [load, hf, Bool.false_eq_true, if_false, ho, hc, hp] at h
          split at h <;> cases h
  · simp only [load, hf, if_true]

/-- A `loadFromData` that returns false leaves the cache as it was. -/
theorem loadFromData_false_cache (env : Env M) (w : World M) (l : LottieLoader M)
    (jsonData key resourcePath : String) (cachePolicy : Bool)
    (h : (loadFromData env w l jsonData key resourcePath cachePolicy).1 = false) :
    (loadFromData env w l jsonData key resourcePath cachePolicy).2.2.cache = w.cache := by
  cases hf : (cachePolicy && (if cachePolicy then
      ({ mModel := LottieModelCache.find w.cache key } : LottieLoader M) else l).mModel.isSome)
  · cases hp : env.parser_model jsonData resourcePath with
    | none => simp only [loadFromData, hf, Bool.false_eq_true, if_false, hp]
    | some m =>
      simp only [loadFromData, hf, Bool.false_eq_true, if_false, hp] at h
      split at h <;> cases h
  · simp only [loadFromData, hf, if_true]

/-! ### The claims on the cache and the loader -/

/-- C16 (capacity 0 disables the cache). For every state, after
`configureModelCacheSize(0)` the cache holds no entries, `find` returns no model
for every key and `add` leaves the cache as it is; and for a path whose file
opens with a non-empty content for which the parser yields a model `m`, two
consecutive `load(path, true)` calls, from any loaders, both return true with
model `m`, both log the read and the parser run, and both leave the cache
empty. -/
theorem C16_capacity_zero_disables (env : Env M) (w : World M) (l1 l2 : LottieLoader M)
    (path content : String) (m : M)
    (hopen : env.open_file path = some content) (hne : content ≠ "")
    (hparse : env.parser_model content (dirname env path) = some m) :
    (configureModelCacheSize w 0).cache.mHash = [] ∧
    (∀ key, LottieModelCache.find (configureModelCacheSize w 0).cache key = none) ∧
    (∀ cbegin key value,
      LottieModelCache.add cbegin (configureModelCacheSize w 0).cache key value
        = (configureModelCacheSize w 0).cache) ∧
    ∃ wa wb,
      load env (configureModelCacheSize w 0) l1 path true = (true, { mModel := some m }, wa) ∧
      wa.cache = (configureModelCacheSize w 0).cache ∧
      wa.events = w.events ++ [Event.open_file path]
        ++ [Event.parser_run content (dirname env path)] ∧
      load env wa l2 path true = (true, { mModel := some m }, wb) ∧
      wb.cache = (configureModelCacheSize w 0).cache ∧
      wb.events = wa.events ++ [Event.open_file path]
        ++ [Event.parser_run content (dirname env path)] := by
  have hz : (configureModelCacheSize w 0).cache.mcacheSize = 0 := by
    simp [configureModelCacheSize, LottieModelCache.configureCacheSize]
  have hempty : (configureModelCacheSize w 0).cache.mHash = [] := by
    simp [configureModelCacheSize, LottieModelCache.configureCacheSize]
  have hfind := find_of_size_zero (configureModelCacheSize w 0).cache
  have hadd : ∀ cbegin key value,
      LottieModelCache.add cbegin (configureModelCacheSize w 0).cache key value
        = (configureModelCacheSize w 0).cache :=
    fun cbegin key value => add_of_size_zero cbegin _ key value hz
  refine ⟨hempty, fun key => hfind key hz, hadd, ?_⟩
  have ha := load_parsed env (configureModelCacheSize w 0) l1 path content true m
    (fun _ => hfind path hz) hopen hne hparse
  simp only [if_true, hadd] at ha
  have hb := load_parsed env
    { cache := (configureModelCacheSize w 0).cache,
      events := (configureModelCacheSize w 0).events ++ [Event.open_file path]
        ++ [Event.parser_run content (dirname env path)] }
    l2 path content true m (fun _ => hfind path hz) hopen hne hparse
  simp only [if_true, hadd] at hb
  exact ⟨{ cache := (configureModelCacheSize w 0).cache,
           events := (configureModelCacheSize w 0).events ++ [Event.open_file path]
             ++ [Event.parser_run content (dirname env path)] },
    { cache := (configureModelCacheSize w 0).cache,
      events := (configureModelCacheSize w 0).events ++ [Event.open_file path]
        ++ [Event.parser_run content (dirname env path)] ++ [Event.open_file path]
        ++ [Event.parser_run content (dirname env path)] },
    ha, rfl, rfl, hb, rfl, rfl⟩

/-- C16 on the example environment: two loads of `a.json` after
`configureModelCacheSize(0)`. -/
theorem C16_capacity_zero_disables_witness :
    example_env.open_file "a.json" = some "{}" ∧ "{}" ≠ "" ∧
    example_env.parser_model "{}" (dirname example_env "a.json") = some 7 ∧
    (configureModelCacheSize example_world 0).cache.mHash = [] ∧
    (∀ key, LottieModelCache.find (configureModelCacheSize example_world 0).cache key
      = none) ∧
    (∀ cbegin key value,
      LottieModelCache.add cbegin (configureModelCacheSize example_world 0).cache key value
        = (configureModelCacheSize example_world 0).cache) ∧
    ∃ wa wb,
      load example_env (configureModelCacheSize example_world 0) { mModel := none }
        "a.json" true = (true, { mModel := some 7 }, wa) ∧
      wa.cache = (configureModelCacheSize example_world 0).cache ∧
      wa.events = example_world.events ++ [Event.open_file "a.json"]
        ++ [Event.parser_run "{}" (dirname example_env "a.json")] ∧
      load example_env wa { mModel := none } "a.json" true
        = (true, { mModel := some 7 }, wb) ∧
      wb.cache = (configureModelCacheSize example_world 0).cache ∧
      wb.events = wa.events ++ [Event.open_file "a.json"]
        ++ [Event.parser_run "{}" (dirname example_env "a.json")] :=
  ⟨by decide, by decide, by decide,
    C16_capacity_zero_disables example_env example_world { mModel := none }
      { mModel := none } "a.json" "{}" 7 (by decide) (by decide) (by decide)⟩

/-- C17 (cache hit after a cached load). With capacity at least 1, for every
path and every state, if `load(path, true)` returned true, leaving the loader
`la` and the world `wa`, then `la` holds a model `m`, and a following
`load(path, true)` from any loader `lb`, in any environment (whatever the file
then contains and whatever the parser would do), returns true with model `m`
and leaves the world as it is: nothing is read, the parser is not run, the cache
is unchanged. -/
theorem C17_cache_hit_after_cached_load (env1 env2 : Env M) (w wa : World M)
    (l la lb : LottieLoader M) (path : String)
    (hcap : 1 ≤ w.cache.mcacheSize)
    (hload : load env1 w l path true = (true, la, wa)) :
    ∃ m, la.model = some m ∧
      load env2 wa lb path true = (true, { mModel := some m }, wa) ∧
      (load env2 wa lb path true).2.1.model = la.model := by
  have hnz : w.cache.mcacheSize ≠ 0 := by omega
  cases hf : LottieModelCache.find w.cache path with
  | some m =>
    rw [load_hit env1 w l path m hf] at hload
    simp only [Prod.mk.injEq, true_and] at hload
    obtain ⟨h1, h2⟩ := hload
    subst h1
    subst h2
    have h3 := load_hit env2 w lb path m hf
    exact ⟨m, rfl, h3, by rw [h3]⟩
  | none =>
    cases ho : env1.open_file path with
    | none =>
      simp only [load, hf, if_true, Option.isSome_none, Bool.and_false, Bool.false_eq_true,
        if_false, ho, Prod.mk.injEq, false_and] at hload
    | some content =>
      by_cases hc : content = ""
      · simp only [load, hf, if_true, Option.isSome_none, Bool.and_false,
          Bool.false_eq_true, if_false, ho, hc, Prod.mk.injEq, false_and] at hload
      · cases hp : env1.parser_model content (dirname env1 path) with
        | none =>
          simp only [load, hf, if_true, Option.isSome_none, Bool.and_false,
            Bool.false_eq_true, if_false, ho, hc, hp, Prod.mk.injEq, false_and] at hload
        | some m =>
          rw [load_parsed env1 w l path content true m (fun _ => hf) ho hc hp] at hload
          simp only [if_true, Prod.mk.injEq, true_and] at hload
          obtain ⟨h1, h2⟩ := hload
          subst h1
          subst h2
          have hfind : LottieModelCache.find
              (LottieModelCache.add env1.cbegin w.cache path m) path = some m :=
            LottieModelCache.find_add env1.cbegin w.cache path m hnz
          have h3 := load_hit env2
            { cache := LottieModelCache.add env1.cbegin w.cache path m,
              events := w.events ++ [Event.open_file path]
                ++ [Event.parser_run content (dirname env1 path)] }
            lb path m hfind
          exact ⟨m, rfl, h3, by rw [h3]⟩

/-- C17 on the example environment: `a.json` is loaded with the cache policy,
then loaded again by another loader in an environment where no file can be
opened and the parser yields nothing. -/
theorem C17_cache_hit_after_cached_load_witness :
    (1 ≤ example_world.cache.mcacheSize) ∧
    load example_env example_world { mModel := none } "a.json" true
      = (true, { mModel := some 7 },
          { cache := { mHash := [("a.json", 7)], mcacheSize := 10 },
            events := [Event.open_file "a.json", Event.parser_run "{}" ""] }) ∧
    ∃ m, LottieLoader.model { mModel := some 7 } = some m ∧
      load { open_file := fun _ => none, parser_model := fun _ _ => none,
             dirname_no_slash := fun _ => "", cbegin := fun _ => 0 }
          { cache := { mHash := [("a.json", 7)], mcacheSize := 10 },
            events := [Event.open_file "a.json", Event.parser_run "{}" ""] }
          { mModel := none } "a.json" true
        = (true, { mModel := some m },
            { cache := { mHash := [("a.json", 7)], mcacheSize := 10 },
              events := [Event.open_file "a.json", Event.parser_run "{}" ""] }) ∧
      (load { open_file := fun _ => none, parser_model := fun _ _ => none,
              dirname_no_slash := fun _ => "", cbegin := fun _ => 0 }
          { cache := { mHash := [("a.json", 7)], mcacheSize := 10 },
            events := [Event.open_file "a.json", Event.parser_run "{}" ""] }
          { mModel := none } "a.json" true).2.1.model
        = LottieLoader.model { mModel := some 7 } :=
  ⟨by decide, by decide,
    C17_cache_hit_after_cached_load example_env
      { open_file := fun _ => none, parser_model := fun _ _ => none,
        dirname_no_slash := fun _ => "", cbegin := fun _ => 0 }
      example_world
      { cache := { mHash := [("a.json", 7)], mcacheSize := 10 },
        events := [Event.open_file "a.json", Event.parser_run "{}" ""] }
      { mModel := none } { mModel := some 7 } { mModel := none } "a.json"
      (by decide) (by decide)⟩

/-- C18 (a failed load never touches the cache). For every environment, state,
loader, argument and cache flag: when `load` returns false the cache after the
call is the cache before it, and likewise for `loadFromData`. -/
theorem C18_failed_load_keeps_cache (env : Env M) (w : World M) (l : LottieLoader M)
    (path jsonData key resourcePath : String) (cachePolicy : Bool) :
    ((load env w l path cachePolicy).1 = false →
      (load env w l path cachePolicy).2.2.cache = w.cache) ∧
    ((loadFromData env w l jsonData key resourcePath cachePolicy).1 = false →
      (loadFromData env w l jsonData key resourcePath cachePolicy).2.2.cache = w.cache) := by
  constructor
  · intro h
    exact load_false_cache env w l path cachePolicy h
  · intro h
    exact loadFromData_false_cache env w l jsonData key resourcePath cachePolicy h

/-- C18 on the example environment: `load` of a missing file and `loadFromData`
of a text the parser rejects both return false, with the cache unchanged. -/
theorem C18_failed_load_keeps_cache_witness :
    (load example_env example_world { mModel := none } "missing.json" true).1 = false ∧
    (loadFromData example_env example_world { mModel := none } "junk" "k" "" true).1
      = false ∧
    (load example_env example_world { mModel := none } "missing.json" true).2.2.cache
      = example_world.cache ∧
    (loadFromData example_env example_world { mModel := none } "junk" "k" "" true).2.2.cache
      = example_world.cache :=
  ⟨by decide, by decide,
    (C18_failed_load_keeps_cache example_env example_world { mModel := none }
      "missing.json" "junk" "k" "" true).1 (by decide),
    (C18_failed_load_keeps_cache example_env example_world { mModel := none }
      "missing.json" "junk" "k" "" true).2 (by decide)⟩

/-- C19 (a failed load mutates nothing), at its failing inputs. In the example
environment a loader first loads `a.json` successfully and holds model 7. Then
`load("missing.json", true)` misses the cache, cannot open the file and returns
false, and `model()` is null afterwards; `loadFromData` of a text the parser
rejects also returns false and leaves `model()` null. The same failing `load`
without the cache policy returns false and keeps model 7. -/
theorem C19_failed_load_resets_model :
    load example_env example_world { mModel := none } "a.json" false
      = (true, { mModel := some 7 },
          { cache := LottieModelCache.CACHE,
            events := [Event.open_file "a.json", Event.parser_run "{}" ""] }) ∧
    LottieLoader.model { mModel := some 7 } = some 7 ∧
    (load example_env
        { cache := LottieModelCache.CACHE,
          events := [Event.open_file "a.json", Event.parser_run "{}" ""] }
        { mModel := some 7 } "missing.json" true).1 = false ∧
    (load example_env
        { cache := LottieModelCache.CACHE,
          events := [Event.open_file "a.json", Event.parser_run "{}" ""] }
        { mModel := some 7 } "missing.json" true).2.1.model = none ∧
    (loadFromData example_env
        { cache := LottieModelCache.CACHE,
          events := [Event.open_file "a.json", Event.parser_run "{}" ""] }
        { mModel := some 7 } "junk" "k" "" false).1 = false ∧
    (loadFromData example_env
        { cache := LottieModelCache.CACHE,
          events := [Event.open_file "a.json", Event.parser_run "{}" ""] }
        { mModel := some 7 } "junk" "k" "" false).2.1.model = none ∧
    (load example_env
        { cache := LottieModelCache.CACHE,
          events := [Event.open_file "a.json", Event.parser_run "{}" ""] }
        { mModel := some 7 } "missing.json" false).1 = false ∧
    (load example_env
        { cache := LottieModelCache.CACHE,
          events := [Event.open_file "a.json", Event.parser_run "{}" ""] }
        { mModel := some 7 } "missing.json" false).2.1.model = some 7 := by
  refine ⟨by decide, by decide, by decide, by decide, by decide, by decide, by decide,
    by decide⟩

end LottieLoader

/-! ## Part 3b: theorems on `LOTProxyModel` -/

namespace LOTProxyModel

variable {V C P S LC PF SZ W D Mx : Type}

theorem read_through_true {R : Type} (mFilter : LOTFilter V C P S) (prop : Property)
    (override : Option R) (intrinsic : R)
    (h : LOTFilter.hasFilter mFilter prop = some true) :
    read_through mFilter prop override intrinsic = override := by
  simp only [read_through, h]

theorem read_through_false {R : Type} (mFilter : LOTFilter V C P S) (prop : Property)
    (override : Option R) (intrinsic : R)
    (h : LOTFilter.hasFilter mFilter prop = some false) :
    read_through mFilter prop override intrinsic = some intrinsic := by
  simp only [read_through, h]

theorem hasFilter_empty (prop : Property) (h : prop < 32) :
    LOTFilter.hasFilter (LOTFilter.empty : LOTFilter V C P S) prop = some false := by
  simp [LOTFilter.hasFilter, LOTFilter.test, LOTFilter.empty, h]

end LOTProxyModel

/-! ## Part 5: theorems on `TaskQueue` -/

namespace TaskQueue

variable {Task : Type}

/-- The loop is left at once when the deque holds a task. -/
theorem wait_loop_cons (wakeups : Nat) (s : TaskQueue Task) (front : Task) (rest : List Task)
    (h : s._q = front :: rest) : wait_loop s wakeups = some () := by
  cases wakeups <;> simp [wait_loop, h]

/-- The loop is left at once when `_done` is set. -/
theorem wait_loop_done (wakeups : Nat) (s : TaskQueue Task) (h : s._done = true) :
    wait_loop s wakeups = some () := by
  cases wakeups <;> simp [wait_loop, h]

/-- On an empty deque without `_done` the loop is never left. -/
theorem wait_loop_waits (wakeups : Nat) (s : TaskQueue Task) (hq : s._q = [])
    (hd : s._done = false) : wait_loop s wakeups = none := by
  induction wakeups with
  | zero => simp [wait_loop, hq, hd]
  | succ n ih => simp [wait_loop, hq, hd, ih]

theorem pop_cons (wakeups : Nat) (s : TaskQueue Task) (task front : Task) (rest : List Task)
    (h : s._q = front :: rest) :
    pop wakeups s task = some (true, front, { _q := rest, _done := s._done }) := by
  simp [pop, wait_loop_cons wakeups s front rest h, h]

theorem pop_done_empty (wakeups : Nat) (s : TaskQueue Task) (task : Task)
    (hq : s._q = []) (hd : s._done = true) :
    pop wakeups s task = some (false, task, s) := by
  simp [pop, wait_loop_done wakeups s hd, hq]

theorem pop_waits (wakeups : Nat) (s : TaskQueue Task) (task : Task)
    (hq : s._q = []) (hd : s._done = false) : pop wakeups s task = none := by
  simp [pop, wait_loop_waits wakeups s hq hd]

/-- As many `pop` calls as tasks are ahead: each returns `true` with the next
task, whatever `_done` is. -/
theorem pops_front (wakeups : Nat) (q rest : List Task) (d : Bool) (task : Task) :
    pops wakeups q.length { _q := q ++ rest, _done := d } task
      = some (q.map fun t => (true, t), { _q := rest, _done := d }) := by
  induction q generalizing task with
  | nil => simp [pops]
  | cons a q ih =>
    have hp := pop_cons wakeups { _q := (a :: q) ++ rest, _done := d } task a (q ++ rest) rfl
    simp only [List.length_cons, pops, hp, Option.some_bind, ih a]
    simp

/-- Draining a queue on which `_done` is set: one `pop` more than tasks. -/
theorem pops_drain (wakeups : Nat) (q : List Task) (task : Task) :
    pops wakeups (q.length + 1) { _q := q, _done := true } task
      = some ((q.map fun t => (true, t)) ++ [(false, q.getLast?.getD task)],
          { _q := [], _done := true }) := by
  induction q generalizing task with
  | nil =>
    have hp := pop_done_empty wakeups { _q := ([] : List Task), _done := true } task rfl rfl
    simp [pops, hp]
  | cons a q ih =>
    have hp := pop_cons wakeups { _q := a :: q, _done := true } task a q rfl
    rw [List.length_cons, pops, hp]
    simp only [Option.some_bind]
    rw [ih a]
    simp [List.getLast?_cons]

/-- The record of an uncontended call sequence: the delivered tasks followed by
the queued ones are the submitted ones. -/
theorem step_fifo (wakeups : Nat) (r r1 : Trace Task) (c : Call Task)
    (hc : c.uncontended = true) (h : step wakeups r c = some r1)
    (hr : r.delivered ++ r.queue._q = r.submitted) :
    r1.delivered ++ r1.queue._q = r1.submitted := by
  cases c with
  | push task =>
    simp only [step, Option.some.injEq] at h
    subst h
    simp [push, ← hr]
  | try_push lock task =>
    simp only [Call.uncontended] at hc
    subst hc
    simp only [step, Option.some.injEq] at h
    subst h
    simp [try_push, ← hr]
  | pop task =>
    simp only [step, Option.map_eq_some'] at h
    obtain ⟨o, ho, h⟩ := h
    subst h
    cases hq : r.queue._q with
    | nil =>
      cases hd : r.queue._done with
      | false => rw [pop_waits wakeups r.queue task hq hd] at ho; cases ho
      | true =>
        rw [pop_done_empty wakeups r.queue task hq hd] at ho
        cases ho
        simpa [hq] using hr
    | cons a q =>
      rw [pop_cons wakeups r.queue task a q hq] at ho
      cases ho
      simpa [hq] using hr
  | try_pop lock task =>
    simp only [Call.uncontended] at hc
    subst hc
    simp only [step, Option.some.injEq] at h
    subst h
    cases hq : r.queue._q with
    | nil => simpa [try_pop, hq] using hr
    | cons a q => simpa [try_pop, hq] using hr
  | done =>
    simp only [step, Option.some.injEq] at h
    subst h
    simpa [done] using hr

theorem run_fifo (wakeups : Nat) (calls : List (Call Task)) (r r1 : Trace Task)
    (hc : ∀ c ∈ calls, c.uncontended = true) (h : run wakeups r calls = some r1)
    (hr : r.delivered ++ r.queue._q = r.submitted) :
    r1.delivered ++ r1.queue._q = r1.submitted := by
  induction calls generalizing r with
  | nil =>
    simp only [run, Option.some.injEq] at h
    subst h
    exact hr
  | cons c cs ih =>
    simp only [run, Option.bind_eq_some] at h
    obtain ⟨r2, h2, h⟩ := h
    exact ih r2 (fun c1 hc1 => hc c1 (List.mem_cons_of_mem _ hc1)) h
      (step_fifo wakeups r r2 c (hc c (List.mem_cons_self _ _)) h2 hr)

/-- The tasks `ts` pushed one after the other. -/
theorem run_pushes (wakeups : Nat) (ts q sub del : List Task) (d : Bool) :
    run wakeups { queue := { _q := q, _done := d }, submitted := sub, delivered := del }
        (ts.map Call.push)
      = some { queue := { _q := q ++ ts, _done := d }, submitted := sub ++ ts,
               delivered := del } := by
  induction ts generalizing q sub with
  | nil => simp [run]
  | cons a ts ih =>
    simp only [List.map_cons, run, step, push, Option.some_bind, ih]
    simp

/-- As many `pop` calls as tasks are queued. -/
theorem run_pops (wakeups : Nat) (ts rest sub del : List Task) (d : Bool) (task : Task) :
    run wakeups { queue := { _q := ts ++ rest, _done := d }, submitted := sub, delivered := del }
        (List.replicate ts.length (Call.pop task))
      = some { queue := { _q := rest, _done := d }, submitted := sub,
               delivered := del ++ ts } := by
  induction ts generalizing del with
  | nil => simp [run]
  | cons a ts ih =>
    have hp := pop_cons wakeups { _q := (a :: ts) ++ rest, _done := d } task a (ts ++ rest) rfl
    simp only [List.length_cons, List.replicate_succ, run, step, hp, Option.map_some',
      Option.some_bind, if_true, ih]
    simp

end TaskQueue

namespace TaskQueue

variable {Task : Type}

theorem run_append (wakeups : Nat) (r : Trace Task) (xs ys : List (Call Task)) :
    run wakeups r (xs ++ ys) = (run wakeups r xs).bind fun r1 => run wakeups r1 ys := by
  induction xs generalizing r with
  | nil => simp [run]
  | cons c xs ih =>
    simp only [List.cons_append, run]
    cases step wakeups r c with
    | none => simp
    | some r1 => simp [ih]

/-- C21: for every sequence of uncontended `push`, `try_push`, `pop`, `try_pop`
(and `done`) calls on a default-constructed queue in which every `pop` returns,
the tasks delivered by the `pop` and `try_pop` calls that return `true` are, in
call order, a prefix of the tasks passed to `push` and `try_push`, the rest of
them being the content of the queue; and `N` pushes followed by `N` pops deliver
the `N` tasks in the order of submission. -/
theorem C21_fifo_order (wakeups : Nat) (calls : List (Call Task)) (r : Trace Task)
    (hlock : ∀ c ∈ calls, c.uncontended = true)
    (hrun : run wakeups start calls = some r) :
    r.delivered <+: r.submitted ∧ r.delivered ++ r.queue._q = r.submitted ∧
    ∀ (ts : List Task) (task : Task),
      run wakeups start (ts.map Call.push ++ List.replicate ts.length (Call.pop task))
        = some { queue := construct, submitted := ts, delivered := ts } := by
  have h := run_fifo wakeups calls start r hlock hrun rfl
  refine ⟨⟨r.queue._q, h⟩, h, ?_⟩
  intro ts task
  rw [run_append]
  have h1 := run_pushes wakeups ts [] [] [] false
  simp only [List.nil_append] at h1
  have h2 := run_pops wakeups ts [] ts [] false task
  simp only [List.nil_append, List.append_nil] at h2
  simp only [start, construct, h1, Option.some_bind, h2]

theorem C21_fifo_order_witness :
    run 0 start example_calls = some example_trace ∧
    example_trace.delivered <+: example_trace.submitted :=
  ⟨rfl, (C21_fifo_order 0 example_calls example_trace (by decide) rfl).1⟩

/-- C22: `pop` returns `false` exactly when the deque is empty and `_done` is
set, and then the queue and the caller's `task` are as before the call; on a
deque that holds a task it returns `true`, with the front task in `task` and that
task removed, whatever `_done` is; on an empty deque without `_done` it does not
return, however often the wait is woken. -/
theorem C22_pop_result (wakeups : Nat) (s : TaskQueue Task) (task : Task) :
    ((∃ t s1, pop wakeups s task = some (false, t, s1)) ↔ (s._q = [] ∧ s._done = true)) ∧
    ((s._q = [] ∧ s._done = true) → pop wakeups s task = some (false, task, s)) ∧
    (∀ front rest, s._q = front :: rest →
      pop wakeups s task = some (true, front, { _q := rest, _done := s._done })) ∧
    ((s._q = [] ∧ s._done = false) → pop wakeups s task = none) := by
  refine ⟨⟨?_, ?_⟩, ?_, ?_, ?_⟩
  · rintro ⟨t, s1, h⟩
    cases hq : s._q with
    | nil =>
      cases hd : s._done with
      | false => rw [pop_waits wakeups s task hq hd] at h; cases h
      | true => exact ⟨rfl, rfl⟩
    | cons a q => rw [pop_cons wakeups s task a q hq] at h; cases h
  · rintro ⟨hq, hd⟩
    exact ⟨task, s, pop_done_empty wakeups s task hq hd⟩
  · rintro ⟨hq, hd⟩
    exact pop_done_empty wakeups s task hq hd
  · intro front rest hq
    exact pop_cons wakeups s task front rest hq
  · rintro ⟨hq, hd⟩
    exact pop_waits wakeups s task hq hd

/-- C23: `done()` called again leaves the state of the first call; on a queue
holding `t1..tk`, after `done()` the next `k` calls of `pop` return `true` with
`t1..tk` in this order and the call after them returns `false`, `task` keeping
what the last call left in it. -/
theorem C23_drain_after_done (wakeups : Nat) (s : TaskQueue Task) (task : Task) :
    done (done s) = done s ∧
    pops wakeups (s._q.length + 1) (done s) task
      = some ((s._q.map fun t => (true, t)) ++ [(false, s._q.getLast?.getD task)],
          { _q := [], _done := true }) :=
  ⟨rfl, pops_drain wakeups s._q task⟩

/-- C27: on a queue on which `_done` is set, `push(t)` and a `try_push(t)` that
gets the lock append `t` at the back, `try_push` returning `true`, and the `pop`
calls that follow return `true` with the tasks ahead of `t` and then with `t`. -/
theorem C27_done_keeps_producers (wakeups : Nat) (s : TaskQueue Task) (t task : Task)
    (hdone : s._done = true) :
    push s t = { _q := s._q ++ [t], _done := true } ∧
    try_push true s t = (true, { _q := s._q ++ [t], _done := true }) ∧
    pops wakeups (s._q.length + 1) (push s t) task
      = some ((s._q ++ [t]).map fun x => (true, x), { _q := [], _done := true }) := by
  have hp : push s t = { _q := s._q ++ [t], _done := true } := by
    simp [push, ← hdone]
  refine ⟨hp, ?_, ?_⟩
  · simp [try_push, ← hdone]
  · rw [hp]
    have h := pops_front wakeups (s._q ++ [t]) [] true task
    simpa using h

theorem C27_done_keeps_producers_witness :
    example_done._done = true ∧
    pops 0 3 (push example_done 3) 0
      = some ([(true, 1), (true, 2), (true, 3)], { _q := [], _done := true }) :=
  ⟨rfl, (C27_done_keeps_producers 0 example_done 3 0 rfl).2.2⟩

end TaskQueue

/-! ## Part 6: theorems on `LOTKeyPath` -/

namespace LOTKeyPath

/-- With at least one segment `size()` is the index of the last segment. -/
theorem size_eq (k : LOTKeyPath) (hne : k.mKeys ≠ []) (hlen : k.mKeys.length < SIZE_MOD) :
    size k = k.mKeys.length - 1 := by
  have hpos : 0 < k.mKeys.length := List.length_pos.mpr hne
  simp only [size, SIZE_MOD] at hlen ⊢
  omega

/-- C24: for a key path with at least one segment, every key and every depth up
to the index of the last segment, `propagate(key, depth)` returns, and it is true
exactly when the key is `"__"`, or the depth is below the index of the last
segment, or the segment at the depth is `"**"`; so at the last segment, when that
is not `"**"`, it is false for every key other than `"__"`. -/
theorem C24_propagate (k : LOTKeyPath) (key : String) (depth : Nat)
    (hne : k.mKeys ≠ []) (hlen : k.mKeys.length < SIZE_MOD)
    (hdepth : depth ≤ k.mKeys.length - 1) :
    ∃ segment, k.mKeys[depth]? = some segment ∧
      propagate k key depth
        = some (decide (key = "__" ∨ depth < k.mKeys.length - 1 ∨ segment = "**")) ∧
      (depth = k.mKeys.length - 1 → segment ≠ "**" → key ≠ "__" →
        propagate k key depth = some false) := by
  have hpos : 0 < k.mKeys.length := List.length_pos.mpr hne
  have hlt : depth < k.mKeys.length := by omega
  have hsize := size_eq k hne hlen
  have hget : k.mKeys[depth]? = some k.mKeys[depth] := List.getElem?_eq_getElem hlt
  refine ⟨k.mKeys[depth], hget, ?_, ?_⟩
  · simp only [propagate, skip, hsize, hget, Option.map_some']
    by_cases h1 : key = "__"
    · simp [h1]
    · by_cases h2 : depth < k.mKeys.length - 1
      · simp [h1, h2]
      · by_cases h3 : k.mKeys[depth] = "**"
        · simp [h1, h2, h3]
        · simp [h1, h2, h3]
  · intro hd hs hk
    have h2 : ¬ depth < k.mKeys.length - 1 := by omega
    simp [propagate, skip, hsize, hget, hk, h2, hs]

theorem C24_propagate_witness :
    example_path.mKeys ≠ [] ∧ 2 ≤ example_path.mKeys.length - 1 ∧
    propagate example_path "x" 2 = some false := by
  obtain ⟨segment, hseg, _, h⟩ :=
    C24_propagate example_path "x" 2 (by decide) (by decide) (by decide)
  have hs : segment = "b" := by
    have h2 : example_path.mKeys[2]? = some "b" := rfl
    rw [h2] at hseg
    exact (Option.some.inj hseg).symm
  subst hs
  exact ⟨by decide, by decide, h rfl (by decide) (by decide)⟩

end LOTKeyPath

/-! ## Part 3c: the lookup `data` follows the calls -/

namespace LOTFilter

variable {V C P S : Type}

theorem find_replace_same (l : List (LOTVariant V C P S)) (value : LOTVariant V C P S)
    (h : (l.find? fun e => decide (e.mPropery = value.mPropery)).isSome = true) :
    (replace_if l value).find? (fun e => decide (e.mPropery = value.mPropery))
      = some value := by
  unfold replace_if
  induction l with
  | nil => simp at h
  | cons x l ih =>
    by_cases hx : x.mPropery = value.mPropery
    · simp [List.find?_cons, hx]
    · simp only [List.find?_cons, hx, decide_False] at h
      simp only [List.map_cons, hx, if_false, List.find?_cons, decide_False]
      exact ih h

theorem find_replace_ne (l : List (LOTVariant V C P S)) (value : LOTVariant V C P S)
    (p : Property) (hp : ¬ value.mPropery = p) :
    (replace_if l value).find? (fun e => decide (e.mPropery = p))
      = l.find? fun e => decide (e.mPropery = p) := by
  unfold replace_if
  induction l with
  | nil => rfl
  | cons x l ih =>
    by_cases hx : x.mPropery = value.mPropery
    · have hxp : ¬ x.mPropery = p := by rw [hx]; exact hp
      simp only [List.map_cons, hx, if_true, List.find?_cons, hp, hxp, decide_False]
      exact ih
    · by_cases hxp : x.mPropery = p
      · rw [List.map_cons, if_neg hx, List.find?_cons_of_pos _ (by simp [hxp]),
          List.find?_cons_of_pos _ (by simp [hxp])]
      · simp only [List.map_cons, hx, if_false, List.find?_cons, hxp, decide_False]
        exact ih

theorem find_erase_same (l : List (LOTVariant V C P S)) (q : Property) :
    (l.filter fun e => !decide (e.mPropery = q)).find? (fun e => decide (e.mPropery = q))
      = none := by
  induction l with
  | nil => rfl
  | cons x l ih =>
    by_cases hx : x.mPropery = q
    · simp only [List.filter_cons, hx, decide_True, Bool.not_true]
      exact ih
    · simp only [List.filter_cons, hx, decide_False, Bool.not_false, if_true, List.find?_cons]
      exact ih

theorem find_erase_ne (l : List (LOTVariant V C P S)) (q p : Property) (hp : ¬ q = p) :
    (l.filter fun e => !decide (e.mPropery = q)).find? (fun e => decide (e.mPropery = p))
      = l.find? fun e => decide (e.mPropery = p) := by
  induction l with
  | nil => rfl
  | cons x l ih =>
    by_cases hx : x.mPropery = q
    · have hxp : ¬ x.mPropery = p := by rw [hx]; exact hp
      rw [List.filter_cons_of_neg (by simp [hx]), List.find?_cons_of_neg _ (by simp [hxp])]
      exact ih
    · by_cases hxp : x.mPropery = p
      · rw [List.filter_cons_of_pos (by simp [hx]), List.find?_cons_of_pos _ (by simp [hxp]),
          List.find?_cons_of_pos _ (by simp [hxp])]
      · rw [List.filter_cons_of_pos (by simp [hx]), List.find?_cons_of_neg _ (by simp [hxp]),
          List.find?_cons_of_neg _ (by simp [hxp])]
        exact ih

/-- The lookup of `p` and the bit of `p` after `addValue`. -/
theorem addValue_tracks (p : Property) {s s1 : LOTFilter V C P S}
    {value : LOTVariant V C P S} {cur : Option (LOTVariant V C P S)}
    (hd : data s p = cur) (hb : s.mBitset p = cur.isSome)
    (hs : addValue s value = some s1) :
    data s1 p = (if value.mPropery = p then some value else cur) ∧
    s1.mBitset p = (if value.mPropery = p then some value else cur).isSome := by
  simp only [addValue, Option.map_eq_some'] at hs
  obtain ⟨b, htest, h1⟩ := hs
  obtain ⟨_, hbit⟩ := test_eq_some htest
  cases b with
  | true =>
    simp only [if_true] at h1
    subst h1
    by_cases hp : value.mPropery = p
    · subst hp
      have hsome : (s.mFilters.find? fun e => decide (e.mPropery = value.mPropery)).isSome
          = true := by
        have := hd
        unfold data at this
        rw [this, ← hb, hbit]
      simp only [data, if_true, Option.isSome_some, hbit]
      exact ⟨find_replace_same s.mFilters value hsome, trivial⟩
    · simp only [data, hp, if_false]
      exact ⟨(find_replace_ne s.mFilters value p hp).trans hd, hb⟩
  | false =>
    simp only [Bool.false_eq_true, if_false] at h1
    subst h1
    by_cases hp : value.mPropery = p
    · subst hp
      have hnone : (s.mFilters.find? fun e => decide (e.mPropery = value.mPropery)) = none := by
        have := hd
        unfold data at this
        rw [this]
        rw [hbit] at hb
        cases cur with
        | none => rfl
        | some v => simp at hb
      simp [data, List.find?_append, hnone]
    · have hp2 : ¬ p = value.mPropery := fun h => hp h.symm
      have := hd
      unfold data at this
      simp [data, List.find?_append, hp, hp2, this, hb]

/-- The lookup of `p` and the bit of `p` after `removeValue`. -/
theorem removeValue_tracks (p : Property) {s s1 : LOTFilter V C P S}
    {value : LOTVariant V C P S} {cur : Option (LOTVariant V C P S)}
    (hd : data s p = cur) (hb : s.mBitset p = cur.isSome)
    (hs : removeValue s value = some s1) :
    data s1 p = (if value.mPropery = p then none else cur) ∧
    s1.mBitset p = (if value.mPropery = p then none else cur).isSome := by
  simp only [removeValue, Option.map_eq_some'] at hs
  obtain ⟨b, htest, h1⟩ := hs
  obtain ⟨_, hbit⟩ := test_eq_some htest
  cases b with
  | true =>
    simp only [if_true] at h1
    subst h1
    by_cases hp : value.mPropery = p
    · subst hp
      simp only [data, if_true, Option.isSome_none]
      exact ⟨find_erase_same s.mFilters value.mPropery, trivial⟩
    · have hp2 : ¬ p = value.mPropery := fun h => hp h.symm
      simp only [data, hp, hp2, if_false]
      exact ⟨(find_erase_ne s.mFilters value.mPropery p hp).trans hd, hb⟩
  | false =>
    simp only [Bool.false_eq_true, if_false] at h1
    subst h1
    by_cases hp : value.mPropery = p
    · subst hp
      rw [hbit] at hb
      cases cur with
      | none => exact ⟨by simpa using hd, by simpa using hbit⟩
      | some v => simp at hb
    · simp only [hp, if_false]
      exact ⟨hd, hb⟩

/-- After a sequence of calls the lookup of `p` finds the variant most recently
added for `p`, and the bit of `p` tells whether there is one. -/
theorem run_tracks (p : Property) (cs : List (Call V C P S)) {s s1 : LOTFilter V C P S}
    {cur : Option (LOTVariant V C P S)}
    (hd : data s p = cur) (hb : s.mBitset p = cur.isSome) (hs : run s cs = some s1) :
    data s1 p = most_recently_added p cur cs ∧
    s1.mBitset p = (most_recently_added p cur cs).isSome := by
  induction cs generalizing s cur with
  | nil =>
    simp only [run, Option.some.injEq] at hs
    subst hs
    exact ⟨hd, hb⟩
  | cons c cs ih =>
    simp only [run, Option.bind_eq_some] at hs
    obtain ⟨s2, h2, hs⟩ := hs
    cases c with
    | addValue value =>
      obtain ⟨e1, e2⟩ := addValue_tracks p hd hb h2
      exact ih e1 e2 hs
    | removeValue value =>
      obtain ⟨e1, e2⟩ := removeValue_tracks p hd hb h2
      exact ih e1 e2 hs

end LOTFilter

namespace LOTFilter

variable {V C P S LC PF SZ W D Mx : Type}

/-- C25: in a filter set reached from the empty one by `addValue` and
`removeValue` calls, for a property `p` with `hasFilter(p)` true, the lookup
`data(p)` finds a stored variant (it does not dereference the end of the list),
this variant has property `p` and is the one most recently added for `p`, and,
its callback being a scalar one, `value(p, frame)` is the callback applied to the
frame and `opacity(p, frame)` this result divided by 100. -/
theorem C25_lookup_safe_under_hasFilter (E : Engine V C P S LC PF SZ W D Mx)
    (cs : List (Call V C P S)) (s : LOTFilter V C P S) (p : Property)
    (hrun : run empty cs = some s) (hhas : hasFilter s p = some true) :
    ∃ v, data s p = some v ∧ v ∈ s.mFilters ∧ v.mPropery = p ∧
      most_recently_added p none cs = some v ∧
      ∀ valueFunc, v.value = some valueFunc → ∀ frame,
        value s p frame = some (valueFunc frame) ∧
        opacity E s p frame = some (E.div100 (valueFunc frame)) := by
  have h0 : data (empty : LOTFilter V C P S) p = none := rfl
  obtain ⟨hd, hb⟩ := run_tracks p cs h0 rfl hrun
  obtain ⟨_, hbit⟩ := test_eq_some hhas
  rw [hbit] at hb
  cases hm : most_recently_added p none cs with
  | none => rw [hm] at hb; cases hb
  | some v =>
    rw [hm] at hd
    have hd2 := hd
    unfold data at hd2
    have hp := List.find?_some hd2
    simp only [decide_eq_true_eq] at hp
    refine ⟨v, hd, List.mem_of_find?_eq_some hd2, hp, rfl, ?_⟩
    intro valueFunc hv frame
    simp [value, opacity, hd, hv]

theorem C25_lookup_safe_under_hasFilter_witness :
    run empty [Call.addValue example_v1, Call.addValue example_v3, Call.addValue example_v2]
      = some example_latest ∧
    hasFilter example_latest 3 = some true ∧
    data example_latest 3 = some example_v2 ∧
    value example_latest 3 500 = some 1000 ∧
    opacity LOTProxyModel.example_engine example_latest 3 500 = some 10 := by
  obtain ⟨v, hd, _, _, _, hv⟩ := C25_lookup_safe_under_hasFilter LOTProxyModel.example_engine
    [Call.addValue example_v1, Call.addValue example_v3, Call.addValue example_v2]
    example_latest 3 rfl rfl
  have hd2 : data example_latest 3 = some example_v2 := rfl
  have hveq : v = example_v2 := by
    rw [hd2] at hd
    exact (Option.some.inj hd).symm
  subst hveq
  have h10 : LOTProxyModel.example_engine.div100 (2 * 500) = 10 := by decide
  exact ⟨rfl, rfl, rfl, (hv (fun frame => 2 * frame) rfl 500).1,
    h10 ▸ (hv (fun frame => 2 * frame) rfl 500).2⟩

end LOTFilter

/-! ## Part 1b: the static payload `default_s` -/

namespace vcow_ptr

variable {T : Type}

theorem dtor_default_spec {s : Machine T} {h : Nat}
    (hh : s.handles[h]? = some (some Ptr.default_s))
    (h1 : 2 ≤ s.default_s.mRef) (h2 : s.default_s.mRef < SIZE_MOD) :
    ∃ s1, dtor s h = some s1 ∧ s1.handles = s.handles.set h none ∧
      s1.heap = s.heap ∧
      s1.default_s = model.mk (s.default_s.mRef - 1) s.default_s.mValue ∧
      s1.deleted = s.deleted := by
  have hkv : (s.default_s.mRef + SIZE_MOD - 1) % SIZE_MOD = s.default_s.mRef - 1 := by
    simp only [SIZE_MOD] at h2 ⊢
    omega
  refine ⟨{ s with handles := s.handles.set h none,
                   default_s := model.mk (s.default_s.mRef - 1) s.default_s.mValue },
    ?_, rfl, rfl, rfl, rfl⟩
  unfold dtor
  rw [mModel_eq_some.mpr hh]
  have hkz2 : ¬ (s.default_s.mRef - 1 = 0) := by omega
  simp only [release, hkv, hkz2, if_false, Option.map_some']

/-- The function `write()` on a handle bound to `default_s`, whose counter is at
least 2: a payload with the default value is created at the next heap address,
the handle bound to it, and `default_s` loses one reference. -/
theorem write_fork_default_aux (s : Machine T) (h : Nat)
    (hh : s.handles[h]? = some (some Ptr.default_s))
    (hk : 2 ≤ s.default_s.mRef) (hk2 : s.default_s.mRef < SIZE_MOD) :
    ∃ s1, write s h = some (s1, Ptr.heap s.heap.length) ∧
      s1.handles = s.handles.set h (some (Ptr.heap s.heap.length)) ++ [none, none] ∧
      s1.heap = s.heap ++ [some (model.mk 1 s.default_s.mValue)] ∧
      s1.default_s = model.mk (s.default_s.mRef - 1) s.default_s.mValue ∧
      s1.deleted = s.deleted := by
  have hlt := getElem?_lt hh
  have hm : mModel s h = some Ptr.default_s := mModel_eq_some.mpr hh
  have hk1 : ¬ (s.default_s.mRef = 1) := by omega
  have hu : unique s h = some false := by
    simp [unique, hm, deref, hk1]
  have hr : read s h = some s.default_s.mValue := by
    simp [read, hm, deref]
  -- the temporary `vcow_ptr(read())`
  obtain ⟨sA, hA, hAh, hAp, hAd, hAx⟩ : ∃ sA, ctor_args s s.default_s.mValue = some sA ∧
      sA.handles = s.handles ++ [some (Ptr.heap s.heap.length)] ∧
      sA.heap = s.heap ++ [some (model.mk 1 s.default_s.mValue)] ∧
      sA.default_s = s.default_s ∧ sA.deleted = s.deleted :=
    ⟨_, rfl, rfl, rfl, rfl, rfl⟩
  have hAlen : sA.handles.length = s.handles.length + 1 := by simp [hAh]
  -- `auto tmp = move(x)`
  have hA1 : sA.handles[s.handles.length]? = some (some (Ptr.heap s.heap.length)) := by
    rw [hAh]
    exact getElem?_app_len _ _ _
  obtain ⟨sB, hB, hBh, hBp, hBd, hBx⟩ := ctor_move_spec hA1 (by simp)
  rw [hAh, set_app_len, List.append_assoc, List.singleton_append] at hBh
  -- `swap(*this, tmp)`
  have hB1 : sB.handles[h]? = some (some Ptr.default_s) := by
    rw [hBh, getElem?_app_lt _ _ _ hlt]
    exact hh
  have hB2 : sB.handles[s.handles.length + 1]? = some (some (Ptr.heap s.heap.length)) := by
    rw [hBh]
    exact getElem?_app_len1 _ _ _ _
  obtain ⟨sC, hC, hCh, hCp, hCd, hCx⟩ := swap_spec hB1 hB2
  have hlen2 : (s.handles.set h (some (Ptr.heap s.heap.length))).length = s.handles.length := by
    simp
  rw [hBh, set_app_lt _ _ _ _ hlt] at hCh
  nth_rewrite 1 [← hlen2] at hCh
  rw [set_app_len1] at hCh
  -- `tmp` is destroyed: it holds `default_s`
  have hC1 : sC.handles[s.handles.length + 1]? = some (some Ptr.default_s) := by
    rw [hCh]
    nth_rewrite 1 [← hlen2]
    exact getElem?_app_len1 _ _ _ _
  have hCd2 : sC.default_s = s.default_s := by rw [hCd, hBd, hAd]
  obtain ⟨sD, hD, hDh, hDp, hDd, hDx⟩ :=
    dtor_default_spec hC1 (by rw [hCd2]; exact hk) (by rw [hCd2]; exact hk2)
  rw [hCh] at hDh
  nth_rewrite 1 [← hlen2] at hDh
  rw [set_app_len1] at hDh
  rw [hCp, hBp, hAp] at hDp
  rw [hCd2] at hDd
  -- the temporary `vcow_ptr(read())` is destroyed: it was moved from
  have hD1 : sD.handles[s.handles.length]? = some (some Ptr.null) := by
    rw [hDh]
    nth_rewrite 1 [← hlen2]
    exact getElem?_app_len _ _ _
  obtain ⟨sE, hE, hEh, hEp, hEd, hEx⟩ := dtor_null_spec hD1
  rw [hDh] at hEh
  nth_rewrite 1 [← hlen2] at hEh
  rw [set_app_len] at hEh
  rw [hDp] at hEp
  have hAM : assign_move sA h s.handles.length = some sD := by
    simp only [assign_move, hB, Option.some_bind, hAlen, hC, hD]
  have hE1 : mModel sE h = some (Ptr.heap s.heap.length) := by
    rw [mModel_eq_some, hEh, getElem?_app_lt _ _ _ (by simpa using hlt)]
    simp [List.getElem?_set, hlt]
  have hE2 : deref sE (Ptr.heap s.heap.length) = some (model.mk 1 s.default_s.mValue) := by
    have : sE.heap[s.heap.length]? = some (some (model.mk 1 s.default_s.mValue)) := by
      rw [hEp]
      exact getElem?_app_len _ _ _
    simp only [deref, this]
  refine ⟨sE, ?_, hEh, hEp, ?_, ?_⟩
  · simp only [write, hu, hr, Option.some_bind, Bool.false_eq_true, if_false, hA, hAM, hE,
      hE1, hE2, Option.map_some']
  · rw [hEd, hDd]
  · rw [hEx, hDx, hCx, hBx, hAx]

end vcow_ptr

namespace vcow_ptr

variable {T : Type}

/-! ### No primitive writes the value of `default_s` -/

/-- Writing the counter of `default_s` leaves its value. -/
theorem default_s_mValue_update (s : Machine T) (k : Nat) :
    ({ s with default_s := { s.default_s with mRef := k } } : Machine T).default_s.mValue
      = s.default_s.mValue :=
  rfl

theorem incRef_default_value {s s1 : Machine T} {p : Ptr} (hs : incRef s p = some s1) :
    s1.default_s.mValue = s.default_s.mValue := by
  cases p with
  | null => simp [incRef] at hs
  | default_s =>
    simp only [incRef, Option.some.injEq] at hs
    subst hs
    exact default_s_mValue_update s _
  | heap a =>
    simp only [incRef] at hs
    split at hs
    · simp only [Option.some.injEq] at hs
      subst hs
      rfl
    · cases hs

theorem release_default_value {s s1 : Machine T} {p : Ptr} (hs : release s p = some s1) :
    s1.default_s.mValue = s.default_s.mValue := by
  cases p with
  | null =>
    simp only [release, Option.some.injEq] at hs
    subst hs
    rfl
  | default_s =>
    simp only [release] at hs
    split at hs
    · cases hs
    · simp only [Option.some.injEq] at hs
      subst hs
      exact default_s_mValue_update s _
  | heap a =>
    simp only [release] at hs
    split at hs
    · split at hs
      · simp only [Option.some.injEq] at hs
        subst hs
        rfl
      · simp only [Option.some.injEq] at hs
        subst hs
        rfl
    · cases hs

theorem ctor_default_default_value {s s1 : Machine T} (hs : ctor_default s = some s1) :
    s1.default_s.mValue = s.default_s.mValue := by
  simp only [ctor_default, Option.map_eq_some'] at hs
  obtain ⟨s0, h0, h1⟩ := hs
  subst h1
  exact (incRef_default_value h0 : s0.default_s.mValue = s.default_s.mValue)

theorem ctor_args_default_value {s s1 : Machine T} {v : T} (hs : ctor_args s v = some s1) :
    s1.default_s.mValue = s.default_s.mValue := by
  simp only [ctor_args, Option.some.injEq] at hs
  subst hs
  rfl

theorem ctor_copy_default_value {s s1 : Machine T} {x : Nat} (hs : ctor_copy s x = some s1) :
    s1.default_s.mValue = s.default_s.mValue := by
  unfold ctor_copy at hs
  split at hs
  · cases hs
  · cases hs
  · simp only [Option.map_eq_some'] at hs
    obtain ⟨s0, h0, h1⟩ := hs
    subst h1
    exact (incRef_default_value h0 : s0.default_s.mValue = s.default_s.mValue)

theorem ctor_move_default_value {s s1 : Machine T} {x : Nat} (hs : ctor_move s x = some s1) :
    s1.default_s.mValue = s.default_s.mValue := by
  unfold ctor_move at hs
  split at hs
  · cases hs
  · cases hs
  · simp only [Option.some.injEq] at hs
    subst hs
    rfl

theorem swap_default_value {s s1 : Machine T} {x y : Nat} (hs : swap s x y = some s1) :
    s1.default_s.mValue = s.default_s.mValue := by
  unfold swap at hs
  split at hs
  · simp only [Option.some.injEq] at hs
    subst hs
    rfl
  · cases hs

theorem dtor_default_value {s s1 : Machine T} {h : Nat} (hs : dtor s h = some s1) :
    s1.default_s.mValue = s.default_s.mValue := by
  unfold dtor at hs
  split at hs
  · cases hs
  · simp only [Option.map_eq_some'] at hs
    obtain ⟨s0, h0, h1⟩ := hs
    subst h1
    exact (release_default_value h0 : s0.default_s.mValue = s.default_s.mValue)

theorem assign_move_default_value {s s1 : Machine T} {h x : Nat}
    (hs : assign_move s h x = some s1) :
    s1.default_s.mValue = s.default_s.mValue := by
  simp only [assign_move, Option.bind_eq_some] at hs
  obtain ⟨a, ha, b, hb, hc⟩ := hs
  rw [dtor_default_value hc, swap_default_value hb, ctor_move_default_value ha]

theorem assign_copy_default_value {s s1 : Machine T} {h x : Nat}
    (hs : assign_copy s h x = some s1) :
    s1.default_s.mValue = s.default_s.mValue := by
  simp only [assign_copy, Option.bind_eq_some] at hs
  obtain ⟨a, ha, b, hb, hc⟩ := hs
  rw [dtor_default_value hc, assign_move_default_value hb, ctor_copy_default_value ha]

theorem write_default_value {s s1 : Machine T} {h : Nat} {p : Ptr}
    (hs : write s h = some (s1, p)) :
    s1.default_s.mValue = s.default_s.mValue := by
  simp only [write, Option.bind_eq_some] at hs
  obtain ⟨u, _, hs⟩ := hs
  split at hs
  · simp only [Option.map_eq_some', Prod.mk.injEq] at hs
    obtain ⟨_, _, h1, _⟩ := hs
    subst h1
    rfl
  · simp only [Option.bind_eq_some, Option.map_eq_some', Prod.mk.injEq] at hs
    obtain ⟨v, _, a, ha, b, hb, c, hc, q, _, _, _, h1, _⟩ := hs
    subst h1
    rw [dtor_default_value hc, assign_move_default_value hb, ctor_args_default_value ha]

/-! ### `write()` never hands out `default_s` -/

/-- In a state with the invariant, a handle bound to `default_s` makes its
counter at least 2. -/
theorem default_ref_ge_two {s : Machine T} {h : Nat} (hI : Inv s)
    (hm : mModel s h = some Ptr.default_s) :
    2 ≤ s.default_s.mRef ∧ s.default_s.mRef ≤ s.handles.length + 1 := by
  have hpos := count_pos_of_getElem? s.handles h _ (mModel_eq_some.mp hm)
  have hle := bound_le_length s Ptr.default_s
  have hd := hI.default_ref
  unfold bound at hd hle
  omega

theorem write_not_default {s s1 : Machine T} {h : Nat} {p : Ptr} (hI : Inv s)
    (hsz : s.handles.length + 1 < SIZE_MOD) (hs : write s h = some (s1, p)) :
    p ≠ Ptr.default_s := by
  cases hm : mModel s h with
  | none => simp [write, unique, hm] at hs
  | some q =>
    cases q with
    | null => simp [write, unique, hm, deref] at hs
    | default_s =>
      obtain ⟨h2, hle⟩ := default_ref_ge_two hI hm
      obtain ⟨s2, hw, _⟩ := write_fork_default_aux s h (mModel_eq_some.mp hm) h2 (by omega)
      rw [hw] at hs
      simp only [Option.some.injEq, Prod.mk.injEq] at hs
      rw [← hs.2]
      simp
    | heap a =>
      cases hd : deref s (Ptr.heap a) with
      | none => simp [write, unique, hm, hd] at hs
      | some m =>
        have ha : s.heap[a]? = some (some m) := by
          simp only [deref] at hd
          split at hd
          · rename_i m1 hm1
            simp only [Option.some.injEq] at hd
            subst hd
            exact hm1
          · cases hd
        by_cases h1 : m.mRef = 1
        · simp only [write, unique, hm, hd, Option.some_bind, Option.map_some', h1,
            decide_True, if_true, Option.some.injEq, Prod.mk.injEq] at hs
          rw [← hs.2]
          simp
        · obtain ⟨hr, hpos⟩ := hI.heap_ref a m ha
          have hle := bound_le_length s (Ptr.heap a)
          obtain ⟨s2, hw, _⟩ := write_fork_aux s h a m.mRef m.mValue (mModel_eq_some.mp hm) ha
            (by omega) (by omega)
          rw [hw] at hs
          simp only [Option.some.injEq, Prod.mk.injEq] at hs
          rw [← hs.2]
          simp

theorem write_assign_default_value {s s1 : Machine T} {h : Nat} {v : T} (hI : Inv s)
    (hsz : s.handles.length + 1 < SIZE_MOD) (hs : write_assign s h v = some s1) :
    s1.default_s.mValue = s.default_s.mValue := by
  simp only [write_assign, Option.bind_eq_some] at hs
  obtain ⟨⟨r, p⟩, hr, hs⟩ := hs
  have hv := write_default_value hr
  cases p with
  | null => cases hs
  | default_s => exact absurd rfl (write_not_default hI hsz hr)
  | heap a =>
    simp only at hs
    split at hs
    · simp only [Option.some.injEq] at hs
      subst hs
      exact hv
    · cases hs

theorem step_default_value {s s1 : Machine T} {op : Op T} (hI : Inv s)
    (hsz : s.handles.length + 1 < SIZE_MOD) (hs : step s op = some s1) :
    s1.default_s.mValue = s.default_s.mValue := by
  cases op with
  | ctor_default => exact ctor_default_default_value hs
  | ctor_args v => exact ctor_args_default_value hs
  | ctor_copy x => exact ctor_copy_default_value hs
  | ctor_move x => exact ctor_move_default_value hs
  | assign_copy h x => exact assign_copy_default_value hs
  | assign_move h x => exact assign_move_default_value hs
  | write h =>
    simp only [step, Option.map_eq_some'] at hs
    obtain ⟨⟨r, p⟩, hr, h1⟩ := hs
    simp only at h1
    subst h1
    exact write_default_value hr
  | write_assign h v => exact write_assign_default_value hI hsz hs
  | dtor h => exact dtor_default_value hs

theorem run_default_value {s s1 : Machine T} {ops : List (Op T)} (hI : Inv s)
    (hs : run s ops = some s1) (hb : s1.handles.length + 1 < SIZE_MOD) :
    s1.default_s.mValue = s.default_s.mValue := by
  induction ops generalizing s with
  | nil =>
    simp only [run, Option.some.injEq] at hs
    subst hs
    rfl
  | cons op ops ih =>
    simp only [run, Option.bind_eq_some] at hs
    obtain ⟨s0, h0, h1⟩ := hs
    have hl := run_length h1
    have hl0 := step_length h0
    rw [ih (step_inv hI h0 (by omega)) h1, step_default_value hI (by omega) h0]

end vcow_ptr

namespace vcow_ptr

variable {T : Type}

/-- C26: in every state `s` that a sequence of handle operations reaches from the
start (fewer than `2^64 - 1` handles created), `default_s` holds the default
value `d`; a handle default-constructed in `s` is bound to `default_s` and reads
`d`; for a handle bound to `default_s` the counter of `default_s` is at least 2,
`unique()` is false and `write()` binds the handle to a new payload, holding `d`
with counter 1, and returns the view of that payload; no `write()` returns the
view of `default_s`, and an assignment through the view `write()` returned
leaves `d` in `default_s`. -/
theorem C26_default_payload_never_written (d : T) (ops : List (Op T)) (s : Machine T)
    (hrun : run (init d) ops = some s) (hsize : s.handles.length + 1 < SIZE_MOD) :
    s.default_s.mValue = d ∧
    (∃ s1, ctor_default s = some s1 ∧
      mModel s1 s.handles.length = some Ptr.default_s ∧
      read s1 s.handles.length = some d) ∧
    (∀ h, mModel s h = some Ptr.default_s →
      2 ≤ s.default_s.mRef ∧ unique s h = some false ∧
      ∃ s1, write s h = some (s1, Ptr.heap s.heap.length) ∧
        mModel s1 h = some (Ptr.heap s.heap.length) ∧
        deref s1 (Ptr.heap s.heap.length) = some (model.mk 1 d) ∧
        s1.default_s.mValue = d) ∧
    (∀ h s1 p, write s h = some (s1, p) → p ≠ Ptr.default_s) ∧
    (∀ h v s1, write_assign s h v = some s1 → s1.default_s.mValue = d) := by
  have hI : Inv s := run_inv (init_inv d) hrun hsize
  have hd : s.default_s.mValue = d := run_default_value (init_inv d) hrun hsize
  refine ⟨hd, ?_, ?_, ?_, ?_⟩
  · obtain ⟨s1, hc, hh⟩ : ∃ s1, ctor_default s = some s1 ∧
        s1.handles = s.handles ++ [some Ptr.default_s] := ⟨_, rfl, rfl⟩
    have hv := ctor_default_default_value hc
    have hm : mModel s1 s.handles.length = some Ptr.default_s := by
      rw [mModel_eq_some, hh]
      exact getElem?_app_len _ _ _
    refine ⟨s1, hc, hm, ?_⟩
    simp only [read, hm, Option.some_bind, deref, Option.map_some', hv, hd]
  · intro h hm
    obtain ⟨h2, hle⟩ := default_ref_ge_two hI hm
    have hlt := getElem?_lt (mModel_eq_some.mp hm)
    have hne : ¬ (s.default_s.mRef = 1) := by omega
    refine ⟨h2, by simp [unique, hm, deref, hne], ?_⟩
    obtain ⟨s1, hw, hh, hp, hds, _⟩ :=
      write_fork_default_aux s h (mModel_eq_some.mp hm) h2 (by omega)
    refine ⟨s1, hw, ?_, ?_, ?_⟩
    · rw [mModel_eq_some, hh, getElem?_app_lt _ _ _ (by simpa using hlt)]
      simp [List.getElem?_set, hlt]
    · have : s1.heap[s.heap.length]? = some (some (model.mk 1 d)) := by
        rw [hp, hd]
        exact getElem?_app_len _ _ _
      simp only [deref, this]
    · rw [hds]
      exact hd
  · intro h s1 p hw
    exact write_not_default hI hsize hw
  · intro h v s1 hw
    rw [write_assign_default_value hI hsize hw]
    exact hd

theorem C26_default_payload_never_written_witness :
    run (init 0) [Op.ctor_default, Op.ctor_default, Op.write_assign 0 5]
      = some example_forked_default ∧
    example_forked_default.handles.length + 1 < SIZE_MOD ∧
    example_forked_default.default_s.mValue = 0 ∧
    (∀ h s1 p, write example_forked_default h = some (s1, p) → p ≠ Ptr.default_s) :=
  ⟨by decide, by decide,
    (C26_default_payload_never_written 0
      [Op.ctor_default, Op.ctor_default, Op.write_assign 0 5] example_forked_default
      (by decide) (by decide)).1,
    (C26_default_payload_never_written 0
      [Op.ctor_default, Op.ctor_default, Op.write_assign 0 5] example_forked_default
      (by decide) (by decide)).2.2.2.1⟩

end vcow_ptr

/-! ## Part 3d: the accessors on a filter set built by calls -/

namespace LOTFilter

variable {V C P S LC PF SZ W D Mx : Type}

/-- In a filter set built by calls on the empty one, a property with
`hasFilter` true has a most recently added variant, and `data` finds it. -/
theorem lookup_of_hasFilter (cs : List (Call V C P S)) (s : LOTFilter V C P S) (p : Property)
    (hrun : run empty cs = some s) (hhas : hasFilter s p = some true) :
    ∃ v, most_recently_added p none cs = some v ∧ data s p = some v := by
  have h0 : data (empty : LOTFilter V C P S) p = none := rfl
  obtain ⟨hd, hb⟩ := run_tracks p cs h0 rfl hrun
  obtain ⟨_, hbit⟩ := test_eq_some hhas
  rw [hbit] at hb
  cases hm : most_recently_added p none cs with
  | none => rw [hm] at hb; cases hb
  | some v => exact ⟨v, rfl, by rw [hd, hm]⟩

theorem color_of_data (E : Engine V C P S LC PF SZ W D Mx) (s : LOTFilter V C P S)
    (p : Property) (frame : Int) (v : LOTVariant V C P S) (f : Int → C)
    (hd : data s p = some v) (hv : v.impl = LOTVariant.details.Color f) :
    color E s p frame = some (E.LottieColor (f frame)) := by
  simp only [color, hd, Option.some_bind, LOTVariant.color, hv, Option.map_some']

theorem opacity_of_data (E : Engine V C P S LC PF SZ W D Mx) (s : LOTFilter V C P S)
    (p : Property) (frame : Int) (v : LOTVariant V C P S) (f : Int → V)
    (hd : data s p = some v) (hv : v.impl = LOTVariant.details.Value f) :
    opacity E s p frame = some (E.div100 (f frame)) := by
  simp only [opacity, hd, Option.some_bind, LOTVariant.value, hv, Option.map_some']

theorem value_of_data (s : LOTFilter V C P S)
    (p : Property) (frame : Int) (v : LOTVariant V C P S) (f : Int → V)
    (hd : data s p = some v) (hv : v.impl = LOTVariant.details.Value f) :
    value s p frame = some (f frame) := by
  simp only [value, hd, Option.some_bind, LOTVariant.value, hv, Option.map_some']

theorem scale_of_data (E : Engine V C P S LC PF SZ W D Mx) (s : LOTFilter V C P S)
    (p : Property) (frame : Int) (v : LOTVariant V C P S) (f : Int → S)
    (hd : data s p = some v) (hv : v.impl = LOTVariant.details.Size f) :
    scale E s p frame = some (E.VSize (f frame)) := by
  simp only [scale, hd, Option.some_bind, LOTVariant.size, hv, Option.map_some']

theorem point_of_data (E : Engine V C P S LC PF SZ W D Mx) (s : LOTFilter V C P S)
    (p : Property) (frame : Int) (v : LOTVariant V C P S) (f : Int → P)
    (hd : data s p = some v) (hv : v.impl = LOTVariant.details.Point f) :
    point E s p frame = some (E.VPointF (f frame)) := by
  simp only [point, hd, Option.some_bind, LOTVariant.point, hv, Option.map_some']

end LOTFilter

/-! ## Part 3e: the proxies on a filter set built by calls -/

namespace LOTProxyModel

variable {V C P S LC PF SZ W D Mx : Type}

/-- C12 (proxy read-through). For a stroke (generic) proxy `ps`, a fill proxy
`pf` and every frame. Override: when the filter set of the proxy was built by
`addValue` and `removeValue` calls on the empty one and `hasFilter` is true for
the property of an accessor, there is a variant most recently added for that
property, and, its tag and callback `f` being of the accessor's shape (colour
for `color`, scalar for `opacity` and `strokeWidth`), `color` returns the
`LottieColor` of `f(frame)`, `opacity` returns `f(frame)/100` and `strokeWidth`
returns `f(frame)`. No override: when `hasFilter` is false the accessor returns
the node's intrinsic value for the frame. A proxy whose filter set is empty
(property indices below 32) returns the intrinsic value from every accessor. -/
theorem C12_proxy_read_through (ids : PropertyIds) (E : Engine V C P S LC PF SZ W D Mx)
    (ps : LOTProxyModel (LOTStrokeData V LC) V C P S)
    (pf : LOTProxyModel (LOTFillData V LC) V C P S) (frame : Int) :
    ((∀ cs, LOTFilter.run LOTFilter.empty cs = some ps.mFilter →
        LOTFilter.hasFilter ps.mFilter ids.StrokeColor = some true →
        ∃ v, LOTFilter.most_recently_added ids.StrokeColor none cs = some v ∧
          ∀ f, v.impl = LOTVariant.details.Color f →
            color ids E ps frame = some (E.LottieColor (f frame))) ∧
      (LOTFilter.hasFilter ps.mFilter ids.StrokeColor = some false →
        color ids E ps frame = some (ps._modelData.color frame))) ∧
    ((∀ cs, LOTFilter.run LOTFilter.empty cs = some ps.mFilter →
        LOTFilter.hasFilter ps.mFilter ids.StrokeOpacity = some true →
        ∃ v, LOTFilter.most_recently_added ids.StrokeOpacity none cs = some v ∧
          ∀ f, v.impl = LOTVariant.details.Value f →
            opacity ids E ps frame = some (E.div100 (f frame))) ∧
      (LOTFilter.hasFilter ps.mFilter ids.StrokeOpacity = some false →
        opacity ids E ps frame = some (ps._modelData.opacity frame))) ∧
    ((∀ cs, LOTFilter.run LOTFilter.empty cs = some ps.mFilter →
        LOTFilter.hasFilter ps.mFilter ids.StrokeWidth = some true →
        ∃ v, LOTFilter.most_recently_added ids.StrokeWidth none cs = some v ∧
          ∀ f, v.impl = LOTVariant.details.Value f →
            strokeWidth ids ps frame = some (f frame)) ∧
      (LOTFilter.hasFilter ps.mFilter ids.StrokeWidth = some false →
        strokeWidth ids ps frame = some (ps._modelData.strokeWidth frame))) ∧
    ((∀ cs, LOTFilter.run LOTFilter.empty cs = some pf.mFilter →
        LOTFilter.hasFilter pf.mFilter ids.FillColor = some true →
        ∃ v, LOTFilter.most_recently_added ids.FillColor none cs = some v ∧
          ∀ f, v.impl = LOTVariant.details.Color f →
            fill_color ids E pf frame = some (E.LottieColor (f frame))) ∧
      (LOTFilter.hasFilter pf.mFilter ids.FillColor = some false →
        fill_color ids E pf frame = some (pf._modelData.color frame))) ∧
    ((∀ cs, LOTFilter.run LOTFilter.empty cs = some pf.mFilter →
        LOTFilter.hasFilter pf.mFilter ids.FillOpacity = some true →
        ∃ v, LOTFilter.most_recently_added ids.FillOpacity none cs = some v ∧
          ∀ f, v.impl = LOTVariant.details.Value f →
            fill_opacity ids E pf frame = some (E.div100 (f frame))) ∧
      (LOTFilter.hasFilter pf.mFilter ids.FillOpacity = some false →
        fill_opacity ids E pf frame = some (pf._modelData.opacity frame))) ∧
    (ps.mFilter = LOTFilter.empty → ids.StrokeColor < 32 → ids.StrokeOpacity < 32 →
      ids.StrokeWidth < 32 →
      color ids E ps frame = some (ps._modelData.color frame) ∧
      opacity ids E ps frame = some (ps._modelData.opacity frame) ∧
      strokeWidth ids ps frame = some (ps._modelData.strokeWidth frame)) ∧
    (pf.mFilter = LOTFilter.empty → ids.FillColor < 32 → ids.FillOpacity < 32 →
      fill_color ids E pf frame = some (pf._modelData.color frame) ∧
      fill_opacity ids E pf frame = some (pf._modelData.opacity frame)) := by
  refine ⟨⟨?_, ?_⟩, ⟨?_, ?_⟩, ⟨?_, ?_⟩, ⟨?_, ?_⟩, ⟨?_, ?_⟩, ?_, ?_⟩
  · intro cs hrun h
    obtain ⟨v, hm, hd⟩ := LOTFilter.lookup_of_hasFilter cs ps.mFilter _ hrun h
    refine ⟨v, hm, fun f hv => ?_⟩
    rw [color, read_through_true _ _ _ _ h]
    exact LOTFilter.color_of_data E ps.mFilter _ frame v f hd hv
  · intro h
    simp only [color, read_through_false _ _ _ _ h]
  · intro cs hrun h
    obtain ⟨v, hm, hd⟩ := LOTFilter.lookup_of_hasFilter cs ps.mFilter _ hrun h
    refine ⟨v, hm, fun f hv => ?_⟩
    rw [opacity, read_through_true _ _ _ _ h]
    exact LOTFilter.opacity_of_data E ps.mFilter _ frame v f hd hv
  · intro h
    simp only [opacity, read_through_false _ _ _ _ h]
  · intro cs hrun h
    obtain ⟨v, hm, hd⟩ := LOTFilter.lookup_of_hasFilter cs ps.mFilter _ hrun h
    refine ⟨v, hm, fun f hv => ?_⟩
    rw [strokeWidth, read_through_true _ _ _ _ h]
    exact LOTFilter.value_of_data ps.mFilter _ frame v f hd hv
  · intro h
    simp only [strokeWidth, read_through_false _ _ _ _ h]
  · intro cs hrun h
    obtain ⟨v, hm, hd⟩ := LOTFilter.lookup_of_hasFilter cs pf.mFilter _ hrun h
    refine ⟨v, hm, fun f hv => ?_⟩
    rw [fill_color, read_through_true _ _ _ _ h]
    exact LOTFilter.color_of_data E pf.mFilter _ frame v f hd hv
  · intro h
    simp only [fill_color, read_through_false _ _ _ _ h]
  · intro cs hrun h
    obtain ⟨v, hm, hd⟩ := LOTFilter.lookup_of_hasFilter cs pf.mFilter _ hrun h
    refine ⟨v, hm, fun f hv => ?_⟩
    rw [fill_opacity, read_through_true _ _ _ _ h]
    exact LOTFilter.opacity_of_data E pf.mFilter _ frame v f hd hv
  · intro h
    simp only [fill_opacity, read_through_false _ _ _ _ h]
  · intro he h1 h2 h3
    have e1 : LOTFilter.hasFilter (LOTFilter.empty : LOTFilter V C P S) ids.StrokeColor
        = some false := hasFilter_empty ids.StrokeColor h1
    have e2 : LOTFilter.hasFilter (LOTFilter.empty : LOTFilter V C P S) ids.StrokeOpacity
        = some false := hasFilter_empty ids.StrokeOpacity h2
    have e3 : LOTFilter.hasFilter (LOTFilter.empty : LOTFilter V C P S) ids.StrokeWidth
        = some false := hasFilter_empty ids.StrokeWidth h3
    rw [← he] at e1 e2 e3
    refine ⟨?_, ?_, ?_⟩
    · simp only [color, read_through_false _ _ _ _ e1]
    · simp only [opacity, read_through_false _ _ _ _ e2]
    · simp only [strokeWidth, read_through_false _ _ _ _ e3]
  · intro he h1 h2
    have e1 : LOTFilter.hasFilter (LOTFilter.empty : LOTFilter V C P S) ids.FillColor
        = some false := hasFilter_empty ids.FillColor h1
    have e2 : LOTFilter.hasFilter (LOTFilter.empty : LOTFilter V C P S) ids.FillOpacity
        = some false := hasFilter_empty ids.FillOpacity h2
    rw [← he] at e1 e2
    refine ⟨?_, ?_⟩
    · simp only [fill_color, read_through_false _ _ _ _ e1]
    · simp only [fill_opacity, read_through_false _ _ _ _ e2]

end LOTProxyModel

namespace LOTProxyModel

/-- C12 on the examples at frame 5. On the stroke proxy built by
`example_stroke_calls`: the colour override `frame ↦ frame + 1` reads 6, the
opacity override `frame ↦ 100 * frame` reads 500/100, the width override
`frame ↦ 3 * frame` reads 15. On the fill proxy built by `example_fill_calls`:
the colour override `frame ↦ frame + 2` reads 7, the opacity override
`frame ↦ 200 * frame` reads 1000/100. The stroke proxy with a width override only
reads the intrinsic colour 10; the fill proxy with the empty filter set reads
the intrinsic 40 and 50. -/
theorem C12_proxy_read_through_witness :
    LOTFilter.run LOTFilter.empty example_stroke_calls
      = some example_stroke_overridden.mFilter ∧
    LOTFilter.run LOTFilter.empty example_fill_calls
      = some example_fill_overridden.mFilter ∧
    color example_ids example_engine example_stroke_overridden 5 = some 6 ∧
    opacity example_ids example_engine example_stroke_overridden 5 = some 5 ∧
    strokeWidth example_ids example_stroke_overridden 5 = some 15 ∧
    fill_color example_ids example_engine example_fill_overridden 5 = some 7 ∧
    fill_opacity example_ids example_engine example_fill_overridden 5 = some 10 ∧
    color example_ids example_engine example_stroke 5 = some 10 ∧
    (fill_color example_ids example_engine example_fill 5 = some 40 ∧
      fill_opacity example_ids example_engine example_fill 5 = some 50) := by
  obtain ⟨v1, m1, h1⟩ := (C12_proxy_read_through example_ids example_engine
    example_stroke_overridden example_fill_overridden 5).1.1 example_stroke_calls rfl
    (by decide)
  obtain ⟨v2, m2, h2⟩ := (C12_proxy_read_through example_ids example_engine
    example_stroke_overridden example_fill_overridden 5).2.1.1 example_stroke_calls rfl
    (by decide)
  obtain ⟨v3, m3, h3⟩ := (C12_proxy_read_through example_ids example_engine
    example_stroke_overridden example_fill_overridden 5).2.2.1.1 example_stroke_calls rfl
    (by decide)
  obtain ⟨v4, m4, h4⟩ := (C12_proxy_read_through example_ids example_engine
    example_stroke_overridden example_fill_overridden 5).2.2.2.1.1 example_fill_calls rfl
    (by decide)
  obtain ⟨v5, m5, h5⟩ := (C12_proxy_read_through example_ids example_engine
    example_stroke_overridden example_fill_overridden 5).2.2.2.2.1.1 example_fill_calls rfl
    (by decide)
  have e1 : LOTFilter.most_recently_added example_ids.StrokeColor none example_stroke_calls
      = some { mPropery := 2, impl := LOTVariant.details.Color fun frame => frame + 1 } := rfl
  have e2 : LOTFilter.most_recently_added example_ids.StrokeOpacity none example_stroke_calls
      = some { mPropery := 3, impl := LOTVariant.details.Value fun frame => 100 * frame } :=
    rfl
  have e3 : LOTFilter.most_recently_added example_ids.StrokeWidth none example_stroke_calls
      = some { mPropery := 4, impl := LOTVariant.details.Value fun frame => 3 * frame } := rfl
  have e4 : LOTFilter.most_recently_added example_ids.FillColor none example_fill_calls
      = some { mPropery := 0, impl := LOTVariant.details.Color fun frame => frame + 2 } := rfl
  have e5 : LOTFilter.most_recently_added example_ids.FillOpacity none example_fill_calls
      = some { mPropery := 1, impl := LOTVariant.details.Value fun frame => 200 * frame } :=
    rfl
  rw [e1] at m1
  rw [e2] at m2
  rw [e3] at m3
  rw [e4] at m4
  rw [e5] at m5
  cases m1
  cases m2
  cases m3
  cases m4
  cases m5
  exact ⟨rfl, rfl, h1 _ rfl, h2 _ rfl, h3 _ rfl, h4 _ rfl, h5 _ rfl,
    (C12_proxy_read_through example_ids example_engine example_stroke example_fill
      5).1.2 (by decide),
    (C12_proxy_read_through example_ids example_engine example_stroke example_fill
      5).2.2.2.2.2.2 rfl (by decide) (by decide)⟩

end LOTProxyModel

namespace LOTProxyModel

variable {V C P S LC PF SZ W D Mx : Type}

/-- C13 (transform composition order). For a group proxy and a frame, let `S`
be the default matrix when `TrScale` has no filter; when it has one, the filter
set being built by calls on the empty one and the variant most recently added
for `TrScale` carrying a size callback `f`, let `S` be the default matrix scaled
by (width/100, height/100) of the `VSize` of `f(frame)`. Likewise `R` is the
default matrix, or it rotated by `f(frame)` for the scalar callback most
recently added for `TrRotation`; and `T` the default matrix, or it translated by
the `VPointF` of `f(frame)` for the point callback most recently added for
`TrPosition`. Then `matrix(frame)` is `((intrinsic(frame) * S) * R) * T`. With
no filter on the three properties and a default matrix that is neutral on the
right of the product, `matrix(frame)` is the intrinsic matrix. -/
theorem C13_matrix_composition_order (ids : PropertyIds)
    (E : Engine V C P S LC PF SZ W D Mx)
    (p : LOTProxyModel (LOTGroupData Mx) V C P S) (frame : Int) (mS mR mT : Mx)
    (hS : (LOTFilter.hasFilter p.mFilter ids.TrScale = some false ∧ mS = E.identity) ∨
      (LOTFilter.hasFilter p.mFilter ids.TrScale = some true ∧
        ∃ cs v f, LOTFilter.run LOTFilter.empty cs = some p.mFilter ∧
          LOTFilter.most_recently_added ids.TrScale none cs = some v ∧
          v.impl = LOTVariant.details.Size f ∧
          mS = E.scale E.identity (E.div100_0 (E.width (E.VSize (f frame))))
            (E.div100_0 (E.height (E.VSize (f frame))))))
    (hR : (LOTFilter.hasFilter p.mFilter ids.TrRotation = some false ∧ mR = E.identity) ∨
      (LOTFilter.hasFilter p.mFilter ids.TrRotation = some true ∧
        ∃ cs v f, LOTFilter.run LOTFilter.empty cs = some p.mFilter ∧
          LOTFilter.most_recently_added ids.TrRotation none cs = some v ∧
          v.impl = LOTVariant.details.Value f ∧
          mR = E.rotate E.identity (f frame)))
    (hT : (LOTFilter.hasFilter p.mFilter ids.TrPosition = some false ∧ mT = E.identity) ∨
      (LOTFilter.hasFilter p.mFilter ids.TrPosition = some true ∧
        ∃ cs v f, LOTFilter.run LOTFilter.empty cs = some p.mFilter ∧
          LOTFilter.most_recently_added ids.TrPosition none cs = some v ∧
          v.impl = LOTVariant.details.Point f ∧
          mT = E.translate E.identity (E.VPointF (f frame)))) :
    matrix ids E p frame
      = some (E.mul (E.mul (E.mul (p._modelData.mTransform_matrix frame) mS) mR) mT) ∧
    (LOTFilter.hasFilter p.mFilter ids.TrScale = some false →
      LOTFilter.hasFilter p.mFilter ids.TrRotation = some false →
      LOTFilter.hasFilter p.mFilter ids.TrPosition = some false →
      (∀ m, E.mul m E.identity = m) →
      matrix ids E p frame = some (p._modelData.mTransform_matrix frame)) := by
  have eS : read_through p.mFilter ids.TrScale
      ((LOTFilter.scale E p.mFilter ids.TrScale frame).map fun s =>
        E.scale E.identity (E.div100_0 (E.width s)) (E.div100_0 (E.height s)))
      E.identity = some mS := by
    rcases hS with ⟨h, e⟩ | ⟨h, cs, v, f, hrun, hm, hv, e⟩
    · rw [read_through_false _ _ _ _ h, e]
    · obtain ⟨v1, hm1, hd⟩ := LOTFilter.lookup_of_hasFilter cs p.mFilter _ hrun h
      rw [hm] at hm1
      cases hm1
      rw [read_through_true _ _ _ _ h, e,
        LOTFilter.scale_of_data E p.mFilter _ frame v f hd hv, Option.map_some']
  have eR : read_through p.mFilter ids.TrRotation
      ((LOTFilter.value p.mFilter ids.TrRotation frame).map fun a => E.rotate E.identity a)
      E.identity = some mR := by
    rcases hR with ⟨h, e⟩ | ⟨h, cs, v, f, hrun, hm, hv, e⟩
    · rw [read_through_false _ _ _ _ h, e]
    · obtain ⟨v1, hm1, hd⟩ := LOTFilter.lookup_of_hasFilter cs p.mFilter _ hrun h
      rw [hm] at hm1
      cases hm1
      rw [read_through_true _ _ _ _ h, e,
        LOTFilter.value_of_data p.mFilter _ frame v f hd hv, Option.map_some']
  have eT : read_through p.mFilter ids.TrPosition
      ((LOTFilter.point E p.mFilter ids.TrPosition frame).map fun pt =>
        E.translate E.identity pt)
      E.identity = some mT := by
    rcases hT with ⟨h, e⟩ | ⟨h, cs, v, f, hrun, hm, hv, e⟩
    · rw [read_through_false _ _ _ _ h, e]
    · obtain ⟨v1, hm1, hd⟩ := LOTFilter.lookup_of_hasFilter cs p.mFilter _ hrun h
      rw [hm] at hm1
      cases hm1
      rw [read_through_true _ _ _ _ h, e,
        LOTFilter.point_of_data E p.mFilter _ frame v f hd hv, Option.map_some']
  constructor
  · simp only [matrix, eS, eR, eT, Option.some_bind]
  · intro h1 h2 h3 hn
    simp only [matrix, read_through_false _ _ _ _ h1, read_through_false _ _ _ _ h2,
      read_through_false _ _ _ _ h3, Option.some_bind, hn]

/-- C13 on the examples at frame 5. On the group proxy built by
`example_group_calls`, with matrices as lists and the concatenation as product:
the intrinsic matrix is `[5000]`, `S` is `[5, 10]` from the size override
`frame ↦ 100 * frame` (width 500, height 1000, each divided by 100), `R` is `[45]`
from the rotation override `frame ↦ 9 * frame`, `T` is `[35]` from the position
override `frame ↦ 7 * frame`, and `matrix(5)` lists them in this order. On the
group proxy with a rotation override only, `matrix(5)` is `((5000 + 0) + 5) + 0`. -/
theorem C13_matrix_composition_order_witness :
    LOTFilter.run LOTFilter.empty example_group_calls
      = some example_group_overridden.mFilter ∧
    LOTFilter.hasFilter example_group_overridden.mFilter example_ids.TrScale = some true ∧
    LOTFilter.hasFilter example_group_overridden.mFilter example_ids.TrRotation
      = some true ∧
    LOTFilter.hasFilter example_group_overridden.mFilter example_ids.TrPosition
      = some true ∧
    matrix example_ids example_engine_words example_group_overridden 5
      = some [5000, 5, 10, 45, 35] ∧
    matrix example_ids example_engine example_group 5 = some (((5000 + 0) + 5) + 0) :=
  ⟨rfl, by decide, by decide, by decide,
    (C13_matrix_composition_order example_ids example_engine_words
      example_group_overridden 5 [5, 10] [45] [35]
      (Or.inr ⟨by decide, example_group_calls,
        { mPropery := 7, impl := LOTVariant.details.Size fun frame => 100 * frame },
        fun frame => 100 * frame, rfl, rfl, rfl, by decide⟩)
      (Or.inr ⟨by decide, example_group_calls,
        { mPropery := 8, impl := LOTVariant.details.Value fun frame => 9 * frame },
        fun frame => 9 * frame, rfl, rfl, rfl, by decide⟩)
      (Or.inr ⟨by decide, example_group_calls,
        { mPropery := 6, impl := LOTVariant.details.Point fun frame => 7 * frame },
        fun frame => 7 * frame, rfl, rfl, rfl, by decide⟩)).1,
    (C13_matrix_composition_order example_ids example_engine example_group 5 0 5 0
      (Or.inl ⟨by decide, rfl⟩)
      (Or.inr ⟨by decide,
        [LOTFilter.Call.addValue
          { mPropery := 8, impl := LOTVariant.details.Value fun frame => frame }],
        { mPropery := 8, impl := LOTVariant.details.Value fun frame => frame },
        fun frame => frame, rfl, rfl, rfl, by decide⟩)
      (Or.inl ⟨by decide, rfl⟩)).1⟩

end LOTProxyModel

/-! ## Part 4b: `loadFromData` on the empty text -/

namespace LottieLoader

variable {M : Type}

end LottieLoader
